import Mathlib

/-!
# The Mage grammar (`tree-sitter-mage/grammar.js`)

The grammar is a value of the tree-sitter rule language.  This file embeds

* the regular expressions of the grammar's pattern tokens, with an executable
  matcher (Brzozowski derivatives);
* the rule combinators (`seq`, `choice`, `repeat`, `optional`, `field`, `prec`,
  `prec.left`, `token.immediate`, string and pattern tokens, `$.name`);
* the grammar itself, rule by rule;
* the derivation relation of the rule language over characters, producing concrete
  syntax trees, with the default `extras` (whitespace may precede every token that is
  not `token.immediate`).
-/

namespace Mage

/-! ## Characters -/

/-- The double quote character. -/
def dquote : Char := Char.ofNat 34

/-- The single quote character. -/
def squote : Char := Char.ofNat 39

/-- The backslash character. -/
def backslash : Char := Char.ofNat 92

/-- The dollar character. -/
def dollar : Char := Char.ofNat 36

/-- The opening brace. -/
def lbrace : Char := Char.ofNat 123

/-- The closing brace. -/
def rbrace : Char := Char.ofNat 125

/-- The line feed character. -/
def newline : Char := Char.ofNat 10

/-! ## Regular expressions -/

/-- A bracket expression: a list of inclusive ranges, negated or not. -/
structure CharClass where
  negated : Bool
  ranges : List (Char × Char)
deriving DecidableEq, Repr

/-- Membership of a character in a class, by code point. -/
def CharClass.mem (k : CharClass) (c : Char) : Bool :=
  xor k.negated (k.ranges.any fun r => decide (r.1.toNat ≤ c.toNat ∧ c.toNat ≤ r.2.toNat))

/-- Regular expressions as they occur in the grammar. -/
inductive RE where
  | empty : RE
  | eps : RE
  | cls (k : CharClass) : RE
  | seq (a b : RE) : RE
  | alt (a b : RE) : RE
  | star (a : RE) : RE
  | plus (a : RE) : RE
  | opt (a : RE) : RE
deriving DecidableEq, Repr

/-- The expression matching the single character `c`. -/
def RE.chr (c : Char) : RE := RE.cls ⟨false, [(c, c)]⟩

/-- The expression matching exactly the text `s`. -/
def RE.lit : List Char → RE
  | [] => RE.eps
  | c :: cs => RE.seq (RE.chr c) (RE.lit cs)

/-- Whether the expression matches the empty text. -/
def RE.nullable : RE → Bool
  | .empty => false
  | .eps => true
  | .cls _ => false
  | .seq a b => a.nullable && b.nullable
  | .alt a b => a.nullable || b.nullable
  | .star _ => true
  | .plus a => a.nullable
  | .opt _ => true

/-- Brzozowski derivative of an expression by a character. -/
def RE.deriv : RE → Char → RE
  | .empty, _ => .empty
  | .eps, _ => .empty
  | .cls k, c => if k.mem c then .eps else .empty
  | .seq a b, c =>
    if a.nullable then .alt (.seq (a.deriv c) b) (b.deriv c) else .seq (a.deriv c) b
  | .alt a b, c => .alt (a.deriv c) (b.deriv c)
  | .star a, c => .seq (a.deriv c) (.star a)
  | .plus a, c => .seq (a.deriv c) (.star a)
  | .opt a, c => a.deriv c

/-- The matcher: the expression matches the whole text. -/
def RE.accepts (r : RE) : List Char → Bool
  | [] => r.nullable
  | c :: cs => (r.deriv c).accepts cs

/-- The class `\s` (Unicode white space). -/
def whitespace : CharClass :=
  ⟨false, [(Char.ofNat 9, Char.ofNat 13), (Char.ofNat 32, Char.ofNat 32),
    (Char.ofNat 0x85, Char.ofNat 0x85), (Char.ofNat 0xA0, Char.ofNat 0xA0),
    (Char.ofNat 0x1680, Char.ofNat 0x1680), (Char.ofNat 0x2000, Char.ofNat 0x200A),
    (Char.ofNat 0x2028, Char.ofNat 0x2029), (Char.ofNat 0x202F, Char.ofNat 0x202F),
    (Char.ofNat 0x205F, Char.ofNat 0x205F), (Char.ofNat 0x3000, Char.ofNat 0x3000)]⟩

/-- The class `\d`. -/
def digit : CharClass := ⟨false, [('0', '9')]⟩

/-- The class `[^\n]`. -/
def notNewline : CharClass := ⟨true, [(newline, newline)]⟩

/-- The class `[^"\\$]`. -/
def literalChar : CharClass := ⟨true, [(dquote, dquote), (backslash, backslash), (dollar, dollar)]⟩

/-- The class `[\\'"$]`. -/
def quoteEscapeChar : CharClass :=
  ⟨false, [(backslash, backslash), (squote, squote), (dquote, dquote), (dollar, dollar)]⟩

/-- The class `[a-zA-Z_]`. -/
def identStart : CharClass := ⟨false, [('a', 'z'), ('A', 'Z'), ('_', '_')]⟩

/-- The class `[a-zA-Z0-9_]`. -/
def identCont : CharClass := ⟨false, [('a', 'z'), ('A', 'Z'), ('0', '9'), ('_', '_')]⟩

/-- The pattern `/[^\n]*/` of the comment rules. -/
def lineRE : RE := RE.star (RE.cls notNewline)

/-- The pattern `/[^"\\$]+/` of a literal run of string content. -/
def literalRunRE : RE := RE.plus (RE.cls literalChar)

/-- The pattern `/\d+(\.\d+)?/` of `number`. -/
def numberRE : RE :=
  RE.seq (RE.plus (RE.cls digit)) (RE.opt (RE.seq (RE.chr '.') (RE.plus (RE.cls digit))))

/-- The pattern `/[a-zA-Z_][a-zA-Z0-9_]*/` of `identifier`. -/
def identifierRE : RE := RE.seq (RE.cls identStart) (RE.star (RE.cls identCont))

/-! ## The rule language -/

/-- The rule combinators of the grammar DSL. -/
inductive Rule where
  | str (s : String) : Rule
  | pat (re : RE) : Rule
  | sym (name : String) : Rule
  | seq (rs : List Rule) : Rule
  | choice (rs : List Rule) : Rule
  | rep (r : Rule) : Rule
  | optional (r : Rule) : Rule
  | field (name : String) (r : Rule) : Rule
  | prec (n : Int) (r : Rule) : Rule
  | precLeft (n : Int) (r : Rule) : Rule
  | tokenImmediate (r : Rule) : Rule

mutual
/-- The regular expression of a rule used as the content of a token. -/
def Rule.toRE : Rule → Option RE
  | .str s => some (RE.lit s.toList)
  | .pat re => some re
  | .seq rs => Rule.toREseq rs
  | .choice rs => Rule.toREchoice rs
  | .rep r => r.toRE.map RE.star
  | .optional r => r.toRE.map RE.opt
  | .field _ r => r.toRE
  | .prec _ r => r.toRE
  | .precLeft _ r => r.toRE
  | .tokenImmediate r => r.toRE
  | .sym _ => none
/-- The concatenation of the expressions of a list of rules. -/
def Rule.toREseq : List Rule → Option RE
  | [] => some RE.eps
  | r :: rs => (r.toRE).bind fun a => (Rule.toREseq rs).map fun b => RE.seq a b
/-- The alternation of the expressions of a list of rules. -/
def Rule.toREchoice : List Rule → Option RE
  | [] => some RE.empty
  | r :: rs => (r.toRE).bind fun a => (Rule.toREchoice rs).map fun b => RE.alt a b
end

/-- A grammar: its name and its rules in order. -/
structure Grammar where
  name : String
  rules : List (String × Rule)

/-- The rule of a name. -/
def Grammar.lookup (g : Grammar) (n : String) : Option Rule := g.rules.lookup n

/-- A rule whose name starts with an underscore is hidden: it makes no node of its own. -/
def hidden (n : String) : Bool := n.toList.head? == some '_'

/-! ## Syntax trees -/

/-- Associativity recorded by a precedence marker. -/
inductive Assoc where
  | none : Assoc
  | left : Assoc
  | right : Assoc
deriving DecidableEq, Repr

/-- Concrete syntax trees: token leaves, named nodes, field labels and the precedence
marker of the production that was used. -/
inductive Tree where
  | leaf (text : List Char) : Tree
  | node (kind : String) (children : List Tree) : Tree
  | field (name : String) (child : Tree) : Tree
  | prec (level : Int) (assoc : Assoc) (children : List Tree) : Tree

/-- Text that the default `extras` skip: white space only. -/
def isSkip (ws : List Char) : Bool := ws.all whitespace.mem

/-- The derivation relation: `Derives g r w ts` says that rule `r` of grammar `g` derives
the text `w` with the trees `ts`. It is the relation of the productions: the choice a
lexer makes between tokens that match at the same place (the longest match, token
precedence) is not part of it, so it holds of every parse without error and may hold of
more texts. -/
inductive Derives (g : Grammar) : Rule → List Char → List Tree → Prop where
  | str {s : String} {ws : List Char} :
      isSkip ws = true → Derives g (.str s) (ws ++ s.toList) [.leaf s.toList]
  | pat {re : RE} {ws w : List Char} :
      isSkip ws = true → re.accepts w = true → Derives g (.pat re) (ws ++ w) [.leaf w]
  | tokenImmediate {r : Rule} {re : RE} {w : List Char} :
      r.toRE = some re → re.accepts w = true → Derives g (.tokenImmediate r) w [.leaf w]
  | sym {n : String} {r : Rule} {w : List Char} {ts : List Tree} :
      g.lookup n = some r → Derives g r w ts →
      Derives g (.sym n) w (if hidden n then ts else [.node n ts])
  | seq_nil : Derives g (.seq []) [] []
  | seq_cons {r : Rule} {rs : List Rule} {u v : List Char} {ts us : List Tree} :
      Derives g r u ts → Derives g (.seq rs) v us → Derives g (.seq (r :: rs)) (u ++ v) (ts ++ us)
  | choice {r : Rule} {rs : List Rule} {w : List Char} {ts : List Tree} :
      r ∈ rs → Derives g r w ts → Derives g (.choice rs) w ts
  | rep_nil {r : Rule} : Derives g (.rep r) [] []
  | rep_cons {r : Rule} {u v : List Char} {ts us : List Tree} :
      Derives g r u ts → Derives g (.rep r) v us → Derives g (.rep r) (u ++ v) (ts ++ us)
  | optional_none {r : Rule} : Derives g (.optional r) [] []
  | optional_some {r : Rule} {w : List Char} {ts : List Tree} :
      Derives g r w ts → Derives g (.optional r) w ts
  | field {f : String} {r : Rule} {w : List Char} {ts : List Tree} :
      Derives g r w ts → Derives g (.field f r) w (ts.map (Tree.field f))
  | prec {n : Int} {r : Rule} {w : List Char} {ts : List Tree} :
      Derives g r w ts → Derives g (.prec n r) w [.prec n .none ts]
  | precLeft {n : Int} {r : Rule} {w : List Char} {ts : List Tree} :
      Derives g r w ts → Derives g (.precLeft n r) w [.prec n .left ts]

/-! ## The grammar -/

section GrammarSource
open Rule

/-- The operator table of `binary_expression`: operator and name. -/
def table : List (String × String) :=
  [("==", "equal"),
   ("!=", "not_equal"),
   ("<", "less_than"),
   ("<=", "less_than_equal"),
   (">", "greater_than"),
   (">=", "greater_than_equal"),
   ("+", "add"),
   ("-", "subtract"),
   ("*", "multiply"),
   ("/", "divide")]

/-- The rules of `grammar.js`, in the order of the file. -/
def rules : List (String × Rule) :=
  [("source_file", rep (sym "_definition")),

   ("_definition", choice [
      sym "variable_declaration",
      sym "function_declaration",
      sym "command",
      sym "output",
      sym "error",
      sym "if_statement",
      sym "loop_statement",
      sym "function_call",
      sym "comment",
      sym "multiline_comment"]),

   ("variable_declaration", seq [
      str "conjure",
      field "name" (sym "identifier"),
      str "=",
      field "value" (sym "_expression")]),

   ("function_declaration", seq [
      str "enchant",
      field "name" (sym "identifier"),
      str "(",
      optional (sym "parameter_list"),
      str ")",
      field "body" (sym "block")]),

   ("parameter_list", seq [
      sym "identifier",
      rep (seq [str ",", sym "identifier"])]),

   ("output", seq [
      str "incant",
      field "message" (sym "string")]),

   ("error", seq [
      str "curse",
      field "message" (sym "string")]),

   ("command", seq [
      str "evoke",
      field "command" (choice [sym "string", sym "identifier"])]),

   ("function_call", seq [
      str "cast",
      field "name" (sym "identifier"),
      str "(",
      optional (sym "argument_list"),
      str ")"]),

   ("argument_list", seq [
      sym "_expression",
      rep (seq [str ",", sym "_expression"])]),

   ("if_statement", seq [
      str "if",
      field "condition" (sym "_expression"),
      field "consequence" (sym "block"),
      optional (seq [
        str "else",
        field "alternative" (choice [sym "block", sym "if_statement"])])]),

   ("loop_statement", seq [
      str "loop",
      field "body" (sym "block")]),

   ("block", seq [
      str "\x7b",
      rep (sym "_definition"),
      str "\x7d"]),

   ("_expression", choice [
      sym "string",
      sym "number",
      sym "boolean",
      sym "identifier",
      sym "function_call",
      sym "parenthesized_expression",
      sym "binary_expression"]),

   ("parenthesized_expression", seq [
      str "(",
      sym "_expression",
      str ")"]),

   ("binary_expression", choice (table.map fun (operator, _) =>
      precLeft 1 (seq [
        field "left" (sym "_expression"),
        field "operator" (str operator),
        field "right" (sym "_expression")]))),

   ("comment", seq [
      str "#",
      pat lineRE]),

   ("multiline_comment", seq [
      str "##",
      rep (choice [
        seq [str "#", pat lineRE],
        str "\n"]),
      str "##"]),

   ("string", choice [
      seq [
        str "\"",
        rep (choice [
          sym "_string_content",
          sym "string_interpolation"]),
        str "\""],
      seq [
        str "'",
        rep (sym "_string_content"),
        str "'"]]),

   ("_string_content", choice [
      tokenImmediate (prec 1 (pat literalRunRE)),
      sym "escape_sequence"]),

   ("string_interpolation", choice [
      seq [str "$", sym "identifier"],
      seq [str "$\x7b", sym "identifier", str "\x7d"]]),

   ("escape_sequence", tokenImmediate (seq [
      str "\\",
      choice [
        pat (RE.cls quoteEscapeChar),
        pat (RE.chr 'n'),
        pat (RE.chr 't'),
        pat (RE.chr 'r'),
        pat (RE.chr '0'),
        pat (RE.chr lbrace),
        pat (RE.chr rbrace)]])),

   ("number", pat numberRE),

   ("boolean", choice [str "true", str "false"]),

   ("identifier", pat identifierRE)]

end GrammarSource

/-- The grammar `mage2`. -/
def grammar : Grammar := ⟨"mage2", rules⟩

/-! ## Expression trees -/

/-- The alternative of `binary_expression` built for one operator of the table. -/
def binaryAlternative (operator : String) : Rule :=
  .precLeft 1 (.seq [
    .field "left" (.sym "_expression"),
    .field "operator" (.str operator),
    .field "right" (.sym "_expression")])

/-- The ten operators in the words of the specification:
`== != < <= > >= + - * /`. -/
def specOperators : List String := ["==", "!=", "<", "<=", ">", ">=", "+", "-", "*", "/"]

/-- The tree of a binary expression: the node, the precedence marker of its production and
the three labelled children. -/
def binaryTree (l : List Tree) (op : String) (r : List Tree) : Tree :=
  .node "binary_expression"
    [.prec 1 .left (l.map (Tree.field "left") ++
      ([Tree.field "operator" (.leaf op.toList)] ++ r.map (Tree.field "right")))]

/-- The kinds of the atomic expressions: the alternatives of `_expression` that are a
single token or a string. -/
def atomKinds : List String := ["string", "number", "boolean", "identifier"]

/-- An atomic operand: a node of one of the atomic kinds. -/
def Tree.isAtom : Tree → Bool
  | .node kind _ => decide (kind ∈ atomKinds)
  | _ => false

mutual
/-- The operand and token sequence of a tree: atomic operands and token leaves from left
to right. -/
def Tree.frontier : Tree → List Tree
  | .leaf x => [.leaf x]
  | .node kind cs => if kind ∈ atomKinds then [.node kind cs] else Tree.frontierList cs
  | .field _ t => t.frontier
  | .prec _ _ cs => Tree.frontierList cs
/-- The operand and token sequence of a list of trees. -/
def Tree.frontierList : List Tree → List Tree
  | [] => []
  | t :: ts => t.frontier ++ Tree.frontierList ts
end

/-- The tree under its field labels. -/
def Tree.strip : Tree → Tree
  | .field _ t => t.strip
  | t => t

/-- The precedence marker of the production that built a node, when it has one. -/
def Tree.marker : Tree → Option (Int × Assoc)
  | .node _ [.prec n a _] => some (n, a)
  | _ => none

/-- The rightmost child of a production of precedence `n` and associativity `a`: when the
child is itself built by a marked production of precedence `m`, the parser has shifted
instead of reducing, which it does only when `n < m`, or `n = m` and `a` is right. -/
def rightOK (n : Int) (a : Assoc) (child : Tree) : Bool :=
  match child.strip.marker with
  | some (m, _) => decide (n < m) || (decide (n = m) && decide (a = Assoc.right))
  | none => true

/-- The leftmost child of a production of precedence `n`: when the child is built by a
marked production of precedence `m` and associativity `b`, the parser has reduced it before
shifting, which it does only when `n < m`, or `n = m` and `b` is left. -/
def leftOK (n : Int) (child : Tree) : Bool :=
  match child.strip.marker with
  | some (m, b) => decide (n < m) || (decide (n = m) && decide (b = Assoc.left))
  | none => true

mutual
/-- The trees that the precedence and associativity markers of the grammar leave: every
marked production respects `leftOK` on its first child and `rightOK` on its last. -/
def Tree.precOK : Tree → Bool
  | .leaf _ => true
  | .node _ cs => Tree.precOKList cs
  | .field _ t => t.precOK
  | .prec n a cs =>
    (match cs.head? with
      | some c => leftOK n c
      | none => true) &&
    (match cs.getLast? with
      | some c => rightOK n a c
      | none => true) &&
    Tree.precOKList cs
/-- All trees of a list respect the markers. -/
def Tree.precOKList : List Tree → Bool
  | [] => true
  | t :: ts => t.precOK && Tree.precOKList ts
end

mutual
/-- Trees without any precedence marker. -/
def Tree.markerFree : Tree → Bool
  | .leaf _ => true
  | .node _ cs => Tree.markerFreeList cs
  | .field _ t => t.markerFree
  | .prec _ _ _ => false
/-- Lists of trees without any precedence marker. -/
def Tree.markerFreeList : List Tree → Bool
  | [] => true
  | t :: ts => t.markerFree && Tree.markerFreeList ts
end

/-- The names of the alternatives of `_expression`. -/
def expressionKinds : List String :=
  ["string", "number", "boolean", "identifier", "function_call",
   "parenthesized_expression", "binary_expression"]

/-- The characters that may follow a backslash, in the words of the specification:
the backslash, the two quotes, the dollar, `n`, `t`, `r`, `0` and the two braces. -/
def specEscapable : List Char :=
  [backslash, squote, dquote, dollar, 'n', 't', 'r', '0', lbrace, rbrace]

/-- The tree of an identifier token. -/
def identifierTree (x : List Char) : Tree := .node "identifier" [.leaf x]

/-- The tree of an escape sequence token. -/
def escapeTree (x : List Char) : Tree := .node "escape_sequence" [.leaf x]

/-- The tree of a bare interpolation, `$` and an identifier. -/
def bareInterpolation (x : List Char) : Tree :=
  .node "string_interpolation" [.leaf "$".toList, identifierTree x]

/-- The tree of a braced interpolation, an identifier between two brace tokens. -/
def bracedInterpolation (x : List Char) : Tree :=
  .node "string_interpolation" [.leaf "$\x7b".toList, identifierTree x, .leaf "\x7d".toList]

/-- The tree of a string: the two quote tokens around the content segments. -/
def stringTree (quote : String) (segments : List Tree) : Tree :=
  .node "string" (.leaf quote.toList :: (segments ++ [.leaf quote.toList]))

/-- The content rule of a double-quoted string. -/
def doubleContent : Rule := .rep (.choice [.sym "_string_content", .sym "string_interpolation"])

/-- The content rule of a single-quoted string. -/
def singleContent : Rule := .rep (.sym "_string_content")

/-- The tree of a number token. -/
def numberTree (x : List Char) : Tree := .node "number" [.leaf x]

/-- An input is accepted as a rule when the rule derives it up to skipped text at its
end. -/
def Accepts (g : Grammar) (r : Rule) (w : List Char) (ts : List Tree) : Prop :=
  ∃ u ws, isSkip ws = true ∧ w = u ++ ws ∧ Derives g r u ts

/-- The first character of a text that is not white space. -/
def firstVisible (w : List Char) : Option Char := (w.dropWhile whitespace.mem).head?

/-- The item rule of a multiline comment: a `#` line or a newline token. -/
def commentItem : Rule := .choice [.seq [.str "#", .pat lineRE], .str "\n"]

/-- The text of the arguments after the first: each one after a comma. -/
def restArgsText : List (List Char) → List Char
  | [] => []
  | a :: as => ",".toList ++ a ++ restArgsText as

/-- The text of a comma-separated list of arguments. -/
def argsText : List (List Char) → List Char
  | [] => []
  | a :: as => a ++ restArgsText as

/-- The trees of the arguments after the first: each one after a comma leaf. -/
def restArgsTrees : List Tree → List Tree
  | [] => []
  | t :: ts => .leaf ",".toList :: t :: restArgsTrees ts

/-- The trees of `optional($.argument_list)`: nothing, or one `argument_list` node. -/
def argumentTrees : List Tree → List Tree
  | [] => []
  | t :: ts => [.node "argument_list" (t :: restArgsTrees ts)]

/-- The tree of a function call. -/
def callTree (f : List Char) (args : List Tree) : Tree :=
  .node "function_call" (.leaf "cast".toList :: Tree.field "name" (identifierTree f) ::
    .leaf "(".toList :: (argumentTrees args ++ [.leaf ")".toList]))

/-- The tree of an `incant` statement. -/
def outputTree (message : Tree) : Tree :=
  .node "output" [.leaf "incant".toList, .field "message" message]

/-- The tree of a block. -/
def blockTree (items : List Tree) : Tree :=
  .node "block" (.leaf "\x7b".toList :: (items ++ [.leaf "\x7d".toList]))

/-- The tree of an `if` statement without `else`. -/
def ifTree (condition consequence : Tree) : Tree :=
  .node "if_statement" [.leaf "if".toList, .field "condition" condition,
    .field "consequence" consequence]

/-- The tree of an `if` statement with `else`. -/
def ifElseTree (condition consequence alternative : Tree) : Tree :=
  .node "if_statement" [.leaf "if".toList, .field "condition" condition,
    .field "consequence" consequence, .leaf "else".toList, .field "alternative" alternative]

/-- The names of the alternatives of `_definition`. -/
def definitionKinds : List String :=
  ["variable_declaration", "function_declaration", "command", "output", "error",
   "if_statement", "loop_statement", "function_call", "comment", "multiline_comment"]

/-- The item rule of the content of a double-quoted string. -/
def doubleItem : Rule := .choice [.sym "_string_content", .sym "string_interpolation"]

/-- Scanning a text from the left, every backslash is followed by a character that may be
escaped, which the scan then passes over. -/
def escapesOK : List Char → Bool
  | [] => true
  | [c] => c != backslash
  | c :: d :: rest =>
    if c = backslash then decide (d ∈ specEscapable) && escapesOK rest
    else escapesOK (d :: rest)

mutual
/-- The text of the token leaves of a tree, from left to right: the text the tree covers
without the text that was skipped. -/
def Tree.text : Tree → List Char
  | .leaf x => x
  | .node _ cs => Tree.textList cs
  | .field _ t => t.text
  | .prec _ _ cs => Tree.textList cs
/-- The text of the token leaves of a list of trees. -/
def Tree.textList : List Tree → List Char
  | [] => []
  | t :: ts => t.text ++ Tree.textList ts
end

/-- Longest match between two neighbouring segments of string content: a literal run does
not follow a literal run, and a literal run that follows a bare interpolation does not
start with a character that continues the identifier. -/
def neighboursOK (a b : Tree) : Bool :=
  match a, b with
  | .leaf _, .leaf _ => false
  | .node _ [.leaf _, .node _ _], .leaf (c :: _) => !identCont.mem c
  | _, _ => true

/-- Longest match along the segments of string content. -/
def segmentsLongest : List Tree → Bool
  | [] => true
  | [_] => true
  | a :: b :: rest => neighboursOK a b && segmentsLongest (b :: rest)

/-- An item without skipped text: its text is the text of its leaves. -/
def ItemForm (a : List Char) (as : List Tree) : Prop :=
  (literalRunRE.accepts a = true ∧ as = [.leaf a]) ∨
  (∃ c, c ∈ specEscapable ∧ a = [backslash, c] ∧ as = [escapeTree a]) ∨
  (∃ x, identifierRE.accepts x = true ∧ a = dollar :: x ∧ as = [bareInterpolation x]) ∨
  (∃ x, identifierRE.accepts x = true ∧ a = dollar :: lbrace :: (x ++ [rbrace]) ∧
    as = [bracedInterpolation x])

/-- The content segments of a string node: its children between the two quote tokens. -/
def Tree.segments : Tree → List Tree
  | .node _ cs => cs.tail.dropLast
  | _ => []

/-- The keyword spellings in the words of the specification. -/
def specKeywords : List String :=
  ["conjure", "enchant", "incant", "curse", "evoke", "cast", "if", "else", "loop", "true",
   "false"]

mutual
/-- The string tokens that occur in a rule. -/
def Rule.literals : Rule → List String
  | .str s => [s]
  | .pat _ => []
  | .sym _ => []
  | .seq rs => Rule.literalsList rs
  | .choice rs => Rule.literalsList rs
  | .rep r => r.literals
  | .optional r => r.literals
  | .field _ r => r.literals
  | .prec _ r => r.literals
  | .precLeft _ r => r.literals
  | .tokenImmediate r => r.literals
/-- The string tokens that occur in a list of rules. -/
def Rule.literalsList : List Rule → List String
  | [] => []
  | r :: rs => r.literals ++ Rule.literalsList rs
end

/-- The keyword tokens of the grammar: its string tokens made of identifier characters
only, each once, in the order of the file. -/
def keywordTokens : List String :=
  ((Rule.literalsList (rules.map Prod.snd)).filter
    fun s => s.toList.all identCont.mem).eraseDups

/-- The tree of a variable declaration. -/
def declarationTree (name : List Char) (value : Tree) : Tree :=
  .node "variable_declaration" [.leaf "conjure".toList,
    .field "name" (identifierTree name), .leaf "=".toList, .field "value" value]

/-- A literal-text run as a content segment: a leaf that matches the literal-run
pattern. -/
def isLiteralSegment (t : Tree) : Prop := ∃ x, t = .leaf x ∧ literalRunRE.accepts x = true

/-- An escape sequence as a content segment. -/
def isEscapeSegment (t : Tree) : Prop :=
  ∃ c, c ∈ specEscapable ∧ t = escapeTree [backslash, c]

/-- An interpolation as a content segment, bare or braced. -/
def isInterpolationSegment (t : Tree) : Prop :=
  ∃ x, identifierRE.accepts x = true ∧ (t = bareInterpolation x ∨ t = bracedInterpolation x)

/-- What follows the token `${` in an interpolation: after skipped text an identifier,
and after it and skipped text the closing brace. -/
def bracedOK (r : List Char) : Bool :=
  match r.dropWhile whitespace.mem with
  | d :: r1 => identStart.mem d && (firstVisible (r1.dropWhile identCont.mem) == some rbrace)
  | [] => false

/-- What follows a `$` that begins an interpolation: the opening brace and the rest of a
braced interpolation, or after skipped text the start of an identifier. -/
def startsInterpolation (r : List Char) : Bool :=
  match r with
  | [] => false
  | c :: r1 =>
    if c = lbrace then bracedOK r1
    else
      match firstVisible (c :: r1) with
      | some d => identStart.mem d
      | none => false

/-- Scanning a text from the left, every `$` that is not the second character of an
escape sequence begins an interpolation. -/
def dollarsOK : List Char → Bool
  | [] => true
  | [c] => c != dollar
  | c :: d :: rest =>
    if c = backslash then dollarsOK rest
    else if c = dollar then startsInterpolation (d :: rest) && dollarsOK (d :: rest)
    else dollarsOK (d :: rest)

/-- The characters of a text that are not white space. -/
def visible (w : List Char) : List Char := w.filter fun c => !whitespace.mem c

/-- The text of the parameters after the first: each one after a comma and a space. -/
def restParamsText : List (List Char) → List Char
  | [] => []
  | p :: ps => ", ".toList ++ p ++ restParamsText ps

/-- The text of a parameter list, the names separated by a comma and a space. -/
def paramsText : List (List Char) → List Char
  | [] => []
  | p :: ps => p ++ restParamsText ps

/-- The trees of `optional($.parameter_list)`: nothing, or one `parameter_list` node with
the identifiers and the comma leaves between them. -/
def parameterTrees : List (List Char) → List Tree
  | [] => []
  | p :: ps => [.node "parameter_list" (identifierTree p :: restArgsTrees (ps.map identifierTree))]

/-- The tree of a function declaration. -/
def functionTree (f : List Char) (params : List (List Char)) (body : Tree) : Tree :=
  .node "function_declaration" (.leaf "enchant".toList :: Tree.field "name" (identifierTree f) ::
    .leaf "(".toList :: (parameterTrees params ++ [.leaf ")".toList, .field "body" body]))

/-- An item between the delimiters of a multiline comment: the alternatives of
`choice(seq('#', /[^\n]*/), '\n')`. -/
inductive MultilineItem where
  | hashLine (text : List Char)
  | newlineToken

/-- The leaves of the items of a multiline comment: the token `#` and the text token of
a `#` line, the newline token of a newline item. -/
def itemsTrees : List MultilineItem → List Tree
  | [] => []
  | .hashLine x :: rest => .leaf "#".toList :: .leaf x :: itemsTrees rest
  | .newlineToken :: rest => .leaf "\n".toList :: itemsTrees rest

/-- The characters of the items of a multiline comment that are not white space. -/
def itemsVisible : List MultilineItem → List Char
  | [] => []
  | .hashLine x :: rest => '#' :: (visible x ++ itemsVisible rest)
  | .newlineToken :: rest => itemsVisible rest

/-! # Theorems -/

/-! ## The matcher -/

theorem RE.accepts_nil (r : RE) : r.accepts [] = r.nullable := rfl

theorem RE.accepts_cons (r : RE) (c : Char) (cs : List Char) :
    r.accepts (c :: cs) = (r.deriv c).accepts cs := rfl

theorem RE.accepts_empty (w : List Char) : RE.empty.accepts w = false := by
  induction w with
  | nil => rfl
  | cons c cs ih => simpa [RE.accepts_cons, RE.deriv] using ih

theorem RE.accepts_eps (w : List Char) : RE.eps.accepts w = true ↔ w = [] := by
  cases w with
  | nil => simp [RE.accepts_nil, RE.nullable]
  | cons c cs => simp [RE.accepts_cons, RE.deriv, RE.accepts_empty]

theorem RE.accepts_cls (k : CharClass) (w : List Char) :
    (RE.cls k).accepts w = true ↔ ∃ c, w = [c] ∧ k.mem c = true := by
  cases w with
  | nil => simp [RE.accepts_nil, RE.nullable]
  | cons c cs =>
    by_cases h : k.mem c = true
    · simp only [RE.accepts_cons, RE.deriv, h, ↓reduceIte, RE.accepts_eps]
      constructor
      · intro hcs
        exact ⟨c, by rw [hcs], h⟩
      · rintro ⟨x, hx, _⟩
        simp only [List.cons.injEq] at hx
        exact hx.2
    · simp only [RE.accepts_cons, RE.deriv, h, RE.accepts_empty]
      simp only [Bool.false_eq_true, ↓reduceIte, RE.accepts_empty, false_iff, not_exists, not_and]
      intro x hx hm
      simp only [List.cons.injEq] at hx
      exact h (hx.1 ▸ hm)

theorem RE.accepts_alt (a b : RE) (w : List Char) :
    (RE.alt a b).accepts w = (a.accepts w || b.accepts w) := by
  induction w generalizing a b with
  | nil => rfl
  | cons c cs ih => simp only [RE.accepts_cons, RE.deriv, ih]

theorem RE.accepts_seq (a b : RE) (w : List Char) :
    (RE.seq a b).accepts w = true ↔
      ∃ u v, w = u ++ v ∧ a.accepts u = true ∧ b.accepts v = true := by
  induction w generalizing a with
  | nil =>
    simp only [RE.accepts_nil, RE.nullable, Bool.and_eq_true]
    constructor
    · rintro ⟨ha, hb⟩
      exact ⟨[], [], rfl, ha, hb⟩
    · rintro ⟨u, v, huv, ha, hb⟩
      obtain ⟨hu, hv⟩ := List.append_eq_nil.mp huv.symm
      subst hu; subst hv
      exact ⟨ha, hb⟩
  | cons c cs ih =>
    have key : (RE.seq a b).accepts (c :: cs) = true ↔
        ((RE.seq (a.deriv c) b).accepts cs = true ∨
          (a.nullable = true ∧ (b.deriv c).accepts cs = true)) := by
      by_cases hn : a.nullable = true
      · simp [RE.accepts_cons, RE.deriv, hn, RE.accepts_alt]
      · simp [RE.accepts_cons, RE.deriv, hn]
    rw [key, ih]
    constructor
    · rintro (⟨u, v, huv, ha, hb⟩ | ⟨hn, hb⟩)
      · exact ⟨c :: u, v, by simp [huv], ha, hb⟩
      · exact ⟨[], c :: cs, rfl, hn, hb⟩
    · rintro ⟨u, v, huv, ha, hb⟩
      cases u with
      | nil =>
        right
        simp only [List.nil_append] at huv
        subst huv
        exact ⟨ha, hb⟩
      | cons d u =>
        left
        simp only [List.cons_append, List.cons.injEq] at huv
        obtain ⟨hd, hcs⟩ := huv
        subst hd
        exact ⟨u, v, hcs, ha, hb⟩

theorem RE.accepts_star (a : RE) (w : List Char) :
    (RE.star a).accepts w = true ↔
      w = [] ∨ ∃ c u v, w = c :: u ++ v ∧ a.accepts (c :: u) = true ∧
        (RE.star a).accepts v = true := by
  cases w with
  | nil => simp [RE.accepts_nil, RE.nullable]
  | cons c cs =>
    have h1 : (RE.star a).accepts (c :: cs) = (RE.seq (a.deriv c) (RE.star a)).accepts cs := rfl
    rw [h1, RE.accepts_seq]
    constructor
    · rintro ⟨u, v, huv, ha, hb⟩
      exact Or.inr ⟨c, u, v, by simp [huv], ha, hb⟩
    · rintro (h | ⟨d, u, v, huv, ha, hb⟩)
      · simp at h
      · simp only [List.cons_append, List.cons.injEq] at huv
        obtain ⟨hd, hcs⟩ := huv
        subst hd
        exact ⟨u, v, hcs, ha, hb⟩

theorem RE.accepts_plus (a : RE) (w : List Char) :
    (RE.plus a).accepts w = true ↔
      ∃ u v, w = u ++ v ∧ a.accepts u = true ∧ (RE.star a).accepts v = true := by
  rw [← RE.accepts_seq]
  cases w with
  | nil => simp [RE.accepts_nil, RE.nullable]
  | cons c cs =>
    have h1 : (RE.plus a).accepts (c :: cs) = (RE.seq (a.deriv c) (RE.star a)).accepts cs := rfl
    have h2 : (RE.seq a (RE.star a)).accepts (c :: cs) = true ↔
        ((RE.seq (a.deriv c) (RE.star a)).accepts cs = true ∨
          (a.nullable = true ∧ (RE.seq (a.deriv c) (RE.star a)).accepts cs = true)) := by
      by_cases hn : a.nullable = true
      · simp [RE.accepts_cons, RE.deriv, hn, RE.accepts_alt]
      · simp [RE.accepts_cons, RE.deriv, hn]
    rw [h1, h2]
    tauto

theorem RE.accepts_opt (a : RE) (w : List Char) :
    (RE.opt a).accepts w = true ↔ w = [] ∨ a.accepts w = true := by
  cases w with
  | nil => simp [RE.accepts_nil, RE.nullable]
  | cons c cs => simp [RE.accepts_cons, RE.deriv]

theorem RE.accepts_star_cls (k : CharClass) (w : List Char) :
    (RE.star (RE.cls k)).accepts w = true ↔ ∀ c ∈ w, k.mem c = true := by
  induction w with
  | nil => simp [RE.accepts_nil, RE.nullable]
  | cons c cs ih =>
    rw [RE.accepts_star]
    constructor
    · rintro (h | ⟨d, u, v, huv, ha, hb⟩)
      · simp at h
      · rw [RE.accepts_cls] at ha
        obtain ⟨e, he, hm⟩ := ha
        simp only [List.cons.injEq] at he
        obtain ⟨hde, hu⟩ := he
        subst hde; subst hu
        simp only [List.cons_append, List.nil_append, List.cons.injEq] at huv
        obtain ⟨hcd, hcs⟩ := huv
        subst hcd; subst hcs
        intro x hx
        rcases List.mem_cons.mp hx with hx | hx
        · exact hx ▸ hm
        · exact ih.mp hb x hx
    · intro h
      refine Or.inr ⟨c, [], cs, rfl, ?_, ?_⟩
      · exact (RE.accepts_cls k [c]).mpr ⟨c, rfl, h c (List.mem_cons_self _ _)⟩
      · exact ih.mpr fun x hx => h x (List.mem_cons_of_mem _ hx)

theorem RE.accepts_plus_cls (k : CharClass) (w : List Char) :
    (RE.plus (RE.cls k)).accepts w = true ↔ w ≠ [] ∧ ∀ c ∈ w, k.mem c = true := by
  rw [RE.accepts_plus]
  constructor
  · rintro ⟨u, v, huv, ha, hb⟩
    rw [RE.accepts_cls] at ha
    obtain ⟨e, he, hm⟩ := ha
    subst he; subst huv
    refine ⟨by simp, ?_⟩
    intro x hx
    rcases List.mem_cons.mp hx with hx | hx
    · exact hx ▸ hm
    · exact (RE.accepts_star_cls k v).mp hb x hx
  · rintro ⟨hne, h⟩
    cases w with
    | nil => exact absurd rfl hne
    | cons c cs =>
      refine ⟨[c], cs, rfl, (RE.accepts_cls k [c]).mpr ⟨c, rfl, h c (List.mem_cons_self _ _)⟩, ?_⟩
      exact (RE.accepts_star_cls k cs).mpr fun x hx => h x (List.mem_cons_of_mem _ hx)

/-! ## Skipped text -/

theorem isSkip_nil : isSkip [] = true := rfl

theorem isSkip_cons (c : Char) (ws : List Char) :
    isSkip (c :: ws) = (whitespace.mem c && isSkip ws) := rfl

theorem isSkip_append (a b : List Char) : isSkip (a ++ b) = (isSkip a && isSkip b) := by
  simp [isSkip, List.all_append]

/-- Skipped text in front of a text that starts with a character which is not white space
is determined: it is empty. -/
theorem skip_nil_of_head {ws x y : List Char} {c : Char} (hs : isSkip ws = true)
    (hc : whitespace.mem c = false) (h : ws ++ x = c :: y) : ws = [] ∧ x = c :: y := by
  cases ws with
  | nil => exact ⟨rfl, h⟩
  | cons d ds =>
    simp only [List.cons_append, List.cons.injEq] at h
    rw [isSkip_cons, h.1, hc] at hs
    simp at hs

/-- Two ways of skipping white space in front of a visible character agree. -/
theorem skip_unique {ws ws2 x y : List Char} {c d : Char} (hs : isSkip ws = true)
    (hs2 : isSkip ws2 = true) (hc : whitespace.mem c = false) (hd : whitespace.mem d = false)
    (h : ws ++ c :: x = ws2 ++ d :: y) : ws = ws2 ∧ c = d ∧ x = y := by
  induction ws generalizing ws2 with
  | nil =>
    obtain ⟨h1, h2⟩ := skip_nil_of_head hs2 hc h.symm
    simp only [List.cons.injEq] at h2
    exact ⟨h1.symm, h2.1.symm, h2.2.symm⟩
  | cons e es ih =>
    cases ws2 with
    | nil =>
      obtain ⟨h1, _⟩ := skip_nil_of_head hs hd h
      simp at h1
    | cons f fs =>
      simp only [List.cons_append, List.cons.injEq] at h
      rw [isSkip_cons, Bool.and_eq_true] at hs hs2
      obtain ⟨h1, h2, h3⟩ := ih hs.2 hs2.2 h.2
      exact ⟨by rw [h.1, h1], h2, h3⟩

/-! ## Inversion of derivations -/

variable {g : Grammar}

theorem derives_str {s : String} {w : List Char} {ts : List Tree} :
    Derives g (.str s) w ts ↔
      ∃ ws, isSkip ws = true ∧ w = ws ++ s.toList ∧ ts = [.leaf s.toList] := by
  constructor
  · intro h
    cases h with
    | str hs => exact ⟨_, hs, rfl, rfl⟩
  · rintro ⟨ws, hs, rfl, rfl⟩
    exact .str hs

theorem derives_pat {re : RE} {w : List Char} {ts : List Tree} :
    Derives g (.pat re) w ts ↔
      ∃ ws x, isSkip ws = true ∧ re.accepts x = true ∧ w = ws ++ x ∧ ts = [.leaf x] := by
  constructor
  · intro h
    cases h with
    | pat hs hx => exact ⟨_, _, hs, hx, rfl, rfl⟩
  · rintro ⟨ws, x, hs, hx, rfl, rfl⟩
    exact .pat hs hx

theorem derives_tokenImmediate {r : Rule} {w : List Char} {ts : List Tree} :
    Derives g (.tokenImmediate r) w ts ↔
      ∃ re, r.toRE = some re ∧ re.accepts w = true ∧ ts = [.leaf w] := by
  constructor
  · intro h
    cases h with
    | tokenImmediate hr hx => exact ⟨_, hr, hx, rfl⟩
  · rintro ⟨re, hr, hx, rfl⟩
    exact .tokenImmediate hr hx

theorem derives_sym {n : String} {w : List Char} {ts : List Tree} :
    Derives g (.sym n) w ts ↔
      ∃ r us, g.lookup n = some r ∧ Derives g r w us ∧
        ts = if hidden n then us else [.node n us] := by
  constructor
  · intro h
    cases h with
    | sym hl hd => exact ⟨_, _, hl, hd, rfl⟩
  · rintro ⟨r, us, hl, hd, rfl⟩
    exact .sym hl hd

theorem derives_sym_of {n : String} {r : Rule} (hl : g.lookup n = some r) {w : List Char}
    {ts : List Tree} :
    Derives g (.sym n) w ts ↔
      ∃ us, Derives g r w us ∧ ts = if hidden n then us else [.node n us] := by
  rw [derives_sym]
  constructor
  · rintro ⟨r2, us, hl2, hd, hts⟩
    rw [hl] at hl2
    cases hl2
    exact ⟨us, hd, hts⟩
  · rintro ⟨us, hd, hts⟩
    exact ⟨r, us, hl, hd, hts⟩

theorem derives_seq_nil {w : List Char} {ts : List Tree} :
    Derives g (.seq []) w ts ↔ w = [] ∧ ts = [] := by
  constructor
  · intro h
    cases h with
    | seq_nil => exact ⟨rfl, rfl⟩
  · rintro ⟨rfl, rfl⟩
    exact .seq_nil

theorem derives_seq_cons {r : Rule} {rs : List Rule} {w : List Char} {ts : List Tree} :
    Derives g (.seq (r :: rs)) w ts ↔
      ∃ u v us vs, w = u ++ v ∧ ts = us ++ vs ∧ Derives g r u us ∧ Derives g (.seq rs) v vs := by
  constructor
  · intro h
    cases h with
    | seq_cons h1 h2 => exact ⟨_, _, _, _, rfl, rfl, h1, h2⟩
  · rintro ⟨u, v, us, vs, rfl, rfl, h1, h2⟩
    exact .seq_cons h1 h2

theorem derives_seq_one {r : Rule} {w : List Char} {ts : List Tree} :
    Derives g (.seq [r]) w ts ↔ Derives g r w ts := by
  rw [derives_seq_cons]
  constructor
  · rintro ⟨u, v, us, vs, rfl, rfl, h1, h2⟩
    obtain ⟨rfl, rfl⟩ := derives_seq_nil.mp h2
    simpa using h1
  · intro h
    exact ⟨w, [], ts, [], by simp, by simp, h, .seq_nil⟩

theorem derives_choice {rs : List Rule} {w : List Char} {ts : List Tree} :
    Derives g (.choice rs) w ts ↔ ∃ r, r ∈ rs ∧ Derives g r w ts := by
  constructor
  · intro h
    cases h with
    | choice hm hd => exact ⟨_, hm, hd⟩
  · rintro ⟨r, hm, hd⟩
    exact .choice hm hd

theorem derives_rep {r : Rule} {w : List Char} {ts : List Tree} :
    Derives g (.rep r) w ts ↔
      (w = [] ∧ ts = []) ∨
      ∃ u v us vs, w = u ++ v ∧ ts = us ++ vs ∧ Derives g r u us ∧ Derives g (.rep r) v vs := by
  constructor
  · intro h
    cases h with
    | rep_nil => exact Or.inl ⟨rfl, rfl⟩
    | rep_cons h1 h2 => exact Or.inr ⟨_, _, _, _, rfl, rfl, h1, h2⟩
  · rintro (⟨rfl, rfl⟩ | ⟨u, v, us, vs, rfl, rfl, h1, h2⟩)
    · exact .rep_nil
    · exact .rep_cons h1 h2

theorem derives_cast {r : Rule} {w w2 : List Char} {ts ts2 : List Tree}
    (h : Derives g r w ts) (hw : w = w2) (ht : ts = ts2) : Derives g r w2 ts2 := by
  subst hw
  subst ht
  exact h

/-- A sequence that starts with a string token: skipped text, the token, the rest. -/
theorem derives_seq_str {s : String} {rs : List Rule} {ws v : List Char} {vs : List Tree}
    (hws : isSkip ws = true) (h : Derives g (.seq rs) v vs) :
    Derives g (.seq (.str s :: rs)) (ws ++ (s.toList ++ v)) (.leaf s.toList :: vs) :=
  derives_cast (.seq_cons (.str hws) h) (by simp) rfl

/-- A sequence that ends with a string token. -/
theorem derives_seq_str_last {s : String} {ws : List Char} (hws : isSkip ws = true) :
    Derives g (.seq [.str s]) (ws ++ s.toList) [.leaf s.toList] :=
  derives_seq_one.mpr (.str hws)

/-- Induction over the items of a repetition. -/
theorem rep_induction {r : Rule} {P : List Char → List Tree → Prop} (h0 : P [] [])
    (hstep : ∀ u v us vs, Derives g r u us → Derives g (.rep r) v vs → P v vs →
      P (u ++ v) (us ++ vs))
    {w : List Char} {ts : List Tree} (h : Derives g (.rep r) w ts) : P w ts := by
  generalize hR : Rule.rep r = R at h
  induction h with
  | rep_nil => exact h0
  | rep_cons h1 h2 _ ih2 =>
    cases hR
    exact hstep _ _ _ _ h1 h2 (ih2 rfl)
  | _ => cases hR

theorem derives_optional {r : Rule} {w : List Char} {ts : List Tree} :
    Derives g (.optional r) w ts ↔ (w = [] ∧ ts = []) ∨ Derives g r w ts := by
  constructor
  · intro h
    cases h with
    | optional_none => exact Or.inl ⟨rfl, rfl⟩
    | optional_some h1 => exact Or.inr h1
  · rintro (⟨rfl, rfl⟩ | h1)
    · exact .optional_none
    · exact .optional_some h1

theorem derives_field {f : String} {r : Rule} {w : List Char} {ts : List Tree} :
    Derives g (.field f r) w ts ↔ ∃ us, Derives g r w us ∧ ts = us.map (Tree.field f) := by
  constructor
  · intro h
    cases h with
    | field h1 => exact ⟨_, h1, rfl⟩
  · rintro ⟨us, h1, rfl⟩
    exact .field h1

theorem derives_prec {n : Int} {r : Rule} {w : List Char} {ts : List Tree} :
    Derives g (.prec n r) w ts ↔ ∃ us, Derives g r w us ∧ ts = [.prec n .none us] := by
  constructor
  · intro h
    cases h with
    | prec h1 => exact ⟨_, h1, rfl⟩
  · rintro ⟨us, h1, rfl⟩
    exact .prec h1

theorem derives_precLeft {n : Int} {r : Rule} {w : List Char} {ts : List Tree} :
    Derives g (.precLeft n r) w ts ↔ ∃ us, Derives g r w us ∧ ts = [.prec n .left us] := by
  constructor
  · intro h
    cases h with
    | precLeft h1 => exact ⟨_, h1, rfl⟩
  · rintro ⟨us, h1, rfl⟩
    exact .precLeft h1

/-! ## Expressions -/

theorem lookup_binary_expression :
    grammar.lookup "binary_expression" = some (.choice (specOperators.map binaryAlternative)) :=
  rfl

theorem lookup_expression :
    grammar.lookup "_expression" = some (.choice [
      .sym "string", .sym "number", .sym "boolean", .sym "identifier", .sym "function_call",
      .sym "parenthesized_expression", .sym "binary_expression"]) :=
  rfl

theorem derives_binaryAlternative {op : String} {w : List Char} {ts : List Tree} :
    Derives grammar (binaryAlternative op) w ts ↔
      ∃ wl ws wr l r, isSkip ws = true ∧ w = wl ++ (ws ++ op.toList ++ wr) ∧
        Derives grammar (.sym "_expression") wl l ∧ Derives grammar (.sym "_expression") wr r ∧
        ts = [.prec 1 .left (l.map (Tree.field "left") ++
          ([Tree.field "operator" (.leaf op.toList)] ++ r.map (Tree.field "right")))] := by
  unfold binaryAlternative
  simp only [derives_precLeft, derives_seq_cons, derives_seq_nil, derives_field, derives_str]
  constructor
  · rintro ⟨us, ⟨u, v, us1, vs1, rfl, rfl, ⟨l, hl, rfl⟩, u2, v2, us2, vs2, rfl, rfl,
      ⟨o, ⟨ws, hws, rfl, rfl⟩, rfl⟩, u3, v3, us3, vs3, rfl, rfl, ⟨r, hr, rfl⟩, rfl, rfl⟩, rfl⟩
    exact ⟨u, ws, u3, l, r, hws, by simp, hl, hr, by simp⟩
  · rintro ⟨wl, ws, wr, l, r, hws, rfl, hl, hr, rfl⟩
    exact ⟨_, ⟨wl, _, _, _, rfl, rfl, ⟨l, hl, rfl⟩, ws ++ op.toList, wr ++ [], _, _,
      by simp, rfl, ⟨_, ⟨ws, hws, rfl, rfl⟩, rfl⟩, wr, [], r.map (Tree.field "right"), [],
      rfl, rfl, ⟨r, hr, rfl⟩, rfl, rfl⟩, by simp⟩

theorem derives_binary_expression {w : List Char} {ts : List Tree} :
    Derives grammar (.sym "binary_expression") w ts ↔
      ∃ op wl ws wr l r, op ∈ specOperators ∧ isSkip ws = true ∧
        w = wl ++ (ws ++ op.toList ++ wr) ∧
        Derives grammar (.sym "_expression") wl l ∧ Derives grammar (.sym "_expression") wr r ∧
        ts = [binaryTree l op r] := by
  rw [derives_sym_of lookup_binary_expression]
  simp only [derives_choice, List.mem_map]
  constructor
  · rintro ⟨us, ⟨alt, ⟨op, hop, rfl⟩, hd⟩, hts⟩
    obtain ⟨wl, ws, wr, l, r, hws, hw, hl, hr, rfl⟩ := derives_binaryAlternative.mp hd
    exact ⟨op, wl, ws, wr, l, r, hop, hws, hw, hl, hr, hts⟩
  · rintro ⟨op, wl, ws, wr, l, r, hop, hws, hw, hl, hr, hts⟩
    exact ⟨_, ⟨_, ⟨op, hop, rfl⟩, derives_binaryAlternative.mpr ⟨wl, ws, wr, l, r, hws, hw, hl, hr, rfl⟩⟩,
      hts⟩

/-- C1. The rule `binary_expression` is a choice of exactly ten alternatives, one for each
of the operators `== != < <= > >= + - * /`; every alternative is
`prec.left(1, seq(left, operator, right))`, so all ten carry precedence 1 and left
associativity; and in every tree of the rule the `operator` field holds one of the ten
operator tokens, under a precedence marker of level 1 and left associativity. -/
theorem binary_expression_operators :
    (∃ alts, grammar.lookup "binary_expression" = some (.choice alts) ∧
      alts.length = 10 ∧
      (∀ r, r ∈ alts ↔ ∃ op, op ∈ specOperators ∧
        r = .precLeft 1 (.seq [
          .field "left" (.sym "_expression"),
          .field "operator" (.str op),
          .field "right" (.sym "_expression")]))) ∧
    (table.map Prod.fst = specOperators) ∧
    (∀ w ts, Derives grammar (.sym "binary_expression") w ts →
      ∃ (op : String) (l r : List Tree), op ∈ specOperators ∧
        ts = [.node "binary_expression"
          [.prec 1 .left (l.map (Tree.field "left") ++
            ([Tree.field "operator" (.leaf op.toList)] ++ r.map (Tree.field "right")))]]) := by
  refine ⟨⟨specOperators.map binaryAlternative, rfl, rfl, ?_⟩, rfl, ?_⟩
  · intro r
    simp only [List.mem_map, binaryAlternative]
    constructor
    · rintro ⟨op, hop, rfl⟩
      exact ⟨op, hop, rfl⟩
    · rintro ⟨op, hop, rfl⟩
      exact ⟨op, hop, rfl⟩
  · intro w ts h
    obtain ⟨op, wl, ws, wr, l, r, hop, _, _, _, _, hts⟩ := derives_binary_expression.mp h
    exact ⟨op, l, r, hop, hts⟩

theorem derives_expression {w : List Char} {ts : List Tree} :
    Derives grammar (.sym "_expression") w ts ↔
      ∃ k, k ∈ expressionKinds ∧ Derives grammar (.sym k) w ts := by
  rw [derives_sym_of lookup_expression]
  have hh : hidden "_expression" = true := by decide
  simp only [hh, ↓reduceIte, derives_choice, expressionKinds]
  constructor
  · rintro ⟨us, ⟨r, hr, hd⟩, rfl⟩
    simp only [List.mem_cons, List.mem_singleton, List.not_mem_nil, or_false] at hr
    rcases hr with rfl | rfl | rfl | rfl | rfl | rfl | rfl
    · exact ⟨"string", by simp, hd⟩
    · exact ⟨"number", by simp, hd⟩
    · exact ⟨"boolean", by simp, hd⟩
    · exact ⟨"identifier", by simp, hd⟩
    · exact ⟨"function_call", by simp, hd⟩
    · exact ⟨"parenthesized_expression", by simp, hd⟩
    · exact ⟨"binary_expression", by simp, hd⟩
  · rintro ⟨k, hk, hd⟩
    refine ⟨ts, ⟨.sym k, ?_, hd⟩, rfl⟩
    simp only [List.mem_cons, List.mem_singleton, List.not_mem_nil, or_false] at hk
    rcases hk with rfl | rfl | rfl | rfl | rfl | rfl | rfl <;> simp

/-- A visible symbol derives exactly one node, of its own kind. -/
theorem derives_sym_node {n : String} (hn : hidden n = false) {w : List Char}
    {ts : List Tree} (h : Derives g (.sym n) w ts) :
    ∃ r us, g.lookup n = some r ∧ Derives g r w us ∧ ts = [.node n us] := by
  obtain ⟨r, us, hl, hd, hts⟩ := derives_sym.mp h
  rw [hn] at hts
  exact ⟨r, us, hl, hd, by simpa using hts⟩

theorem lookup_function_call :
    grammar.lookup "function_call" = some (.seq [
      .str "cast", .field "name" (.sym "identifier"), .str "(",
      .optional (.sym "argument_list"), .str ")"]) :=
  rfl

theorem lookup_parenthesized_expression :
    grammar.lookup "parenthesized_expression" = some (.seq [
      .str "(", .sym "_expression", .str ")"]) :=
  rfl

/-- A rule that is a sequence starting with a string token derives trees starting with the
leaf of that token. -/
theorem derives_seq_str_head {s : String} {rs : List Rule} {w : List Char} {ts : List Tree}
    (h : Derives g (.seq (.str s :: rs)) w ts) : ∃ rest, ts = .leaf s.toList :: rest := by
  obtain ⟨u, v, us, vs, _, rfl, h1, _⟩ := derives_seq_cons.mp h
  obtain ⟨ws, _, _, rfl⟩ := derives_str.mp h1
  exact ⟨vs, rfl⟩

theorem frontier_leaf_cons (kind : String) (hk : kind ∉ atomKinds) (x : List Char)
    (rest : List Tree) :
    (Tree.node kind (.leaf x :: rest)).frontier = .leaf x :: Tree.frontierList rest := by
  simp [Tree.frontier, Tree.frontierList, hk]

theorem frontier_binaryTree (tl tr : Tree) (op : String) :
    (binaryTree [tl] op [tr]).frontier = tl.frontier ++ (.leaf op.toList :: tr.frontier) := by
  simp [binaryTree, Tree.frontier, Tree.frontierList, atomKinds]

theorem marker_binaryTree (l r : List Tree) (op : String) :
    (binaryTree l op r).marker = some (1, Assoc.left) := by
  simp [binaryTree, Tree.marker]

theorem precOK_binaryTree (tl tr : Tree) (op : String) :
    (binaryTree [tl] op [tr]).precOK =
      (leftOK 1 tl && rightOK 1 Assoc.left tr && (tl.precOK && tr.precOK)) := by
  simp [binaryTree, Tree.precOK, Tree.precOKList, leftOK, rightOK, Tree.strip]

theorem frontier_of_isAtom {t : Tree} (h : t.isAtom = true) : t.frontier = [t] := by
  cases t with
  | node kind cs =>
    simp only [Tree.isAtom, decide_eq_true_eq] at h
    simp [Tree.frontier, h]
  | leaf x => simp [Tree.isAtom] at h
  | field f t => simp [Tree.isAtom] at h
  | prec n a cs => simp [Tree.isAtom] at h

/-- The three shapes of an expression tree: an atomic operand, a tree that starts with a
token leaf and has no precedence marker (a call or a parenthesized expression), or a binary
expression over two expression trees. -/
theorem expression_tree_cases {w : List Char} {ts : List Tree}
    (h : Derives grammar (.sym "_expression") w ts) :
    ∃ t, ts = [t] ∧
      (t.isAtom = true ∨
       (∃ x rest, t.frontier = .leaf x :: rest ∧ t.marker = none) ∨
       (∃ op wl wr tl tr, op ∈ specOperators ∧ t = binaryTree [tl] op [tr] ∧
          Derives grammar (.sym "_expression") wl [tl] ∧
          Derives grammar (.sym "_expression") wr [tr])) := by
  generalize hn : w.length = n
  induction n using Nat.strong_induction_on generalizing w ts with
  | _ n ih =>
    obtain ⟨k, hk, hd⟩ := derives_expression.mp h
    simp only [expressionKinds, List.mem_cons, List.mem_singleton, List.not_mem_nil,
      or_false] at hk
    rcases hk with rfl | rfl | rfl | rfl | rfl | rfl | rfl
    · obtain ⟨r, us, _, _, rfl⟩ := derives_sym_node (by decide) hd
      exact ⟨_, rfl, Or.inl (by simp [Tree.isAtom, atomKinds])⟩
    · obtain ⟨r, us, _, _, rfl⟩ := derives_sym_node (by decide) hd
      exact ⟨_, rfl, Or.inl (by simp [Tree.isAtom, atomKinds])⟩
    · obtain ⟨r, us, _, _, rfl⟩ := derives_sym_node (by decide) hd
      exact ⟨_, rfl, Or.inl (by simp [Tree.isAtom, atomKinds])⟩
    · obtain ⟨r, us, _, _, rfl⟩ := derives_sym_node (by decide) hd
      exact ⟨_, rfl, Or.inl (by simp [Tree.isAtom, atomKinds])⟩
    · obtain ⟨r, us, hl, hr, rfl⟩ := derives_sym_node (by decide) hd
      rw [lookup_function_call] at hl
      cases hl
      obtain ⟨rest, rfl⟩ := derives_seq_str_head hr
      refine ⟨_, rfl, Or.inr (Or.inl ⟨_, _, frontier_leaf_cons _ (by decide) _ _, ?_⟩)⟩
      simp [Tree.marker]
    · obtain ⟨r, us, hl, hr, rfl⟩ := derives_sym_node (by decide) hd
      rw [lookup_parenthesized_expression] at hl
      cases hl
      obtain ⟨rest, rfl⟩ := derives_seq_str_head hr
      refine ⟨_, rfl, Or.inr (Or.inl ⟨_, _, frontier_leaf_cons _ (by decide) _ _, ?_⟩)⟩
      simp [Tree.marker]
    · obtain ⟨op, wl, ws, wr, l, r, hop, hws, hw, hl, hr, rfl⟩ :=
        derives_binary_expression.mp hd
      have hop0 : op.toList ≠ [] := by
        simp only [specOperators, List.mem_cons, List.mem_singleton, List.not_mem_nil,
          or_false] at hop
        rcases hop with rfl | rfl | rfl | rfl | rfl | rfl | rfl | rfl | rfl | rfl <;> decide
      have hlen : 0 < op.toList.length := List.length_pos.mpr hop0
      obtain ⟨tl, rfl, _⟩ := ih wl.length (by subst hw; subst hn; simp only [List.length_append]; omega) hl rfl
      obtain ⟨tr, rfl, _⟩ := ih wr.length (by subst hw; subst hn; simp only [List.length_append]; omega) hr rfl
      exact ⟨_, rfl, Or.inr (Or.inr ⟨op, wl, wr, tl, tr, hop, rfl, hl, hr⟩)⟩

/-! ## Character classes -/

theorem toNat_eq_iff {a b : Char} : a.toNat = b.toNat ↔ a = b := by
  constructor
  · intro h
    rw [← Char.ofNat_toNat a, ← Char.ofNat_toNat b, h]
  · intro h
    rw [h]

theorem mem_single (c x : Char) : CharClass.mem ⟨false, [(c, c)]⟩ x = true ↔ x = c := by
  simp only [CharClass.mem, List.any_cons, List.any_nil, Bool.or_false, Bool.false_xor,
    decide_eq_true_eq]
  constructor
  · rintro ⟨h1, h2⟩
    exact toNat_eq_iff.mp (Nat.le_antisymm h2 h1)
  · rintro rfl
    exact ⟨Nat.le_refl _, Nat.le_refl _⟩

theorem literalChar_mem (x : Char) :
    literalChar.mem x = true ↔ x ≠ dquote ∧ x ≠ backslash ∧ x ≠ dollar := by
  have h1 := mem_single dquote x
  have h2 := mem_single backslash x
  have h3 := mem_single dollar x
  simp only [CharClass.mem, List.any_cons, List.any_nil, Bool.or_false, Bool.false_xor,
    decide_eq_true_eq] at h1 h2 h3
  simp only [literalChar, CharClass.mem, List.any_cons, List.any_nil, Bool.or_false,
    Bool.true_xor, Bool.not_eq_true', Bool.or_eq_false_iff, decide_eq_false_iff_not, h1, h2, h3]

theorem quoteEscapeChar_mem (x : Char) :
    quoteEscapeChar.mem x = true ↔ x = backslash ∨ x = squote ∨ x = dquote ∨ x = dollar := by
  have h1 := mem_single dquote x
  have h2 := mem_single backslash x
  have h3 := mem_single dollar x
  have h4 := mem_single squote x
  simp only [CharClass.mem, List.any_cons, List.any_nil, Bool.or_false, Bool.false_xor,
    decide_eq_true_eq] at h1 h2 h3 h4
  simp only [quoteEscapeChar, CharClass.mem, List.any_cons, List.any_nil, Bool.or_false,
    Bool.false_xor, Bool.or_eq_true, decide_eq_true_eq, h1, h2, h3, h4]

theorem notNewline_mem (x : Char) : notNewline.mem x = true ↔ x ≠ newline := by
  have h1 := mem_single newline x
  simp only [CharClass.mem, List.any_cons, List.any_nil, Bool.or_false, Bool.false_xor,
    decide_eq_true_eq] at h1
  simp only [notNewline, CharClass.mem, List.any_cons, List.any_nil, Bool.or_false,
    Bool.true_xor, Bool.not_eq_true', decide_eq_false_iff_not, h1]

theorem identCont_of_identStart {x : Char} (h : identStart.mem x = true) :
    identCont.mem x = true := by
  simp only [identStart, identCont, CharClass.mem, List.any_cons, List.any_nil, Bool.or_false,
    Bool.false_xor, Bool.or_eq_true, decide_eq_true_eq] at h ⊢
  tauto

theorem identCont_not_whitespace {x : Char} (h : identCont.mem x = true) :
    whitespace.mem x = false := by
  have e : ('a'.toNat = 97 ∧ 'z'.toNat = 122 ∧ 'A'.toNat = 65 ∧ 'Z'.toNat = 90) ∧
      ('0'.toNat = 48 ∧ '9'.toNat = 57 ∧ '_'.toNat = 95) := by decide
  have e2 : ((Char.ofNat 9).toNat = 9 ∧ (Char.ofNat 13).toNat = 13 ∧ (Char.ofNat 32).toNat = 32) ∧
      ((Char.ofNat 0x85).toNat = 0x85 ∧ (Char.ofNat 0xA0).toNat = 0xA0) ∧
      ((Char.ofNat 0x1680).toNat = 0x1680 ∧ (Char.ofNat 0x2000).toNat = 0x2000 ∧
        (Char.ofNat 0x200A).toNat = 0x200A) ∧
      ((Char.ofNat 0x2028).toNat = 0x2028 ∧ (Char.ofNat 0x2029).toNat = 0x2029 ∧
        (Char.ofNat 0x202F).toNat = 0x202F) ∧
      ((Char.ofNat 0x205F).toNat = 0x205F ∧ (Char.ofNat 0x3000).toNat = 0x3000) := by decide
  obtain ⟨⟨a1, a2, a3, a4⟩, a5, a6, a7⟩ := e
  obtain ⟨⟨b1, b2, b3⟩, ⟨b4, b5⟩, ⟨b6, b7, b8⟩, ⟨b9, b10, b11⟩, b12, b13⟩ := e2
  simp only [identCont, CharClass.mem, List.any_cons, List.any_nil, Bool.or_false,
    Bool.false_xor, Bool.or_eq_true, decide_eq_true_eq, a1, a2, a3, a4, a5, a6, a7] at h
  simp only [whitespace, CharClass.mem, List.any_cons, List.any_nil, Bool.or_false,
    Bool.false_xor, Bool.or_eq_false_iff, decide_eq_false_iff_not, b1, b2, b3, b4, b5, b6, b7,
    b8, b9, b10, b11, b12, b13]
  omega

theorem identStart_not_whitespace {x : Char} (h : identStart.mem x = true) :
    whitespace.mem x = false :=
  identCont_not_whitespace (identCont_of_identStart h)

/-! ## Tokens -/

theorem RE.accepts_chr (c : Char) (w : List Char) : (RE.chr c).accepts w = true ↔ w = [c] := by
  unfold RE.chr
  rw [RE.accepts_cls]
  constructor
  · rintro ⟨x, rfl, hx⟩
    rw [(mem_single c x).mp hx]
  · rintro rfl
    exact ⟨c, rfl, (mem_single c c).mpr rfl⟩

theorem identifierRE_accepts (x : List Char) :
    identifierRE.accepts x = true ↔
      ∃ c cs, x = c :: cs ∧ identStart.mem c = true ∧ ∀ d ∈ cs, identCont.mem d = true := by
  unfold identifierRE
  rw [RE.accepts_seq]
  constructor
  · rintro ⟨u, v, rfl, hu, hv⟩
    obtain ⟨c, rfl, hc⟩ := (RE.accepts_cls _ _).mp hu
    exact ⟨c, v, rfl, hc, (RE.accepts_star_cls _ _).mp hv⟩
  · rintro ⟨c, cs, rfl, hc, hcs⟩
    exact ⟨[c], cs, rfl, (RE.accepts_cls _ _).mpr ⟨c, rfl, hc⟩, (RE.accepts_star_cls _ _).mpr hcs⟩

theorem lookup_identifier : grammar.lookup "identifier" = some (.pat identifierRE) := rfl

theorem derives_identifier {w : List Char} {ts : List Tree} :
    Derives grammar (.sym "identifier") w ts ↔
      ∃ ws x, isSkip ws = true ∧ identifierRE.accepts x = true ∧ w = ws ++ x ∧
        ts = [identifierTree x] := by
  rw [derives_sym_of lookup_identifier]
  have hh : hidden "identifier" = false := by decide
  simp only [hh, derives_pat, identifierTree]
  constructor
  · rintro ⟨us, ⟨ws, x, hws, hx, rfl, rfl⟩, rfl⟩
    exact ⟨ws, x, hws, hx, rfl, by simp⟩
  · rintro ⟨ws, x, hws, hx, rfl, rfl⟩
    exact ⟨_, ⟨ws, x, hws, hx, rfl, rfl⟩, by simp⟩

theorem lookup_escape_sequence :
    grammar.lookup "escape_sequence" = some (.tokenImmediate (.seq [
      .str "\\",
      .choice [
        .pat (RE.cls quoteEscapeChar), .pat (RE.chr 'n'), .pat (RE.chr 't'), .pat (RE.chr 'r'),
        .pat (RE.chr '0'), .pat (RE.chr lbrace), .pat (RE.chr rbrace)]])) :=
  rfl

theorem escape_toRE :
    (Rule.seq [
      .str "\\",
      .choice [
        .pat (RE.cls quoteEscapeChar), .pat (RE.chr 'n'), .pat (RE.chr 't'), .pat (RE.chr 'r'),
        .pat (RE.chr '0'), .pat (RE.chr lbrace), .pat (RE.chr rbrace)]]).toRE =
    some (RE.seq (RE.seq (RE.chr backslash) RE.eps)
      (RE.seq
        (RE.alt (RE.cls quoteEscapeChar) (RE.alt (RE.chr 'n') (RE.alt (RE.chr 't')
          (RE.alt (RE.chr 'r') (RE.alt (RE.chr '0') (RE.alt (RE.chr lbrace)
            (RE.alt (RE.chr rbrace) RE.empty)))))))
        RE.eps)) :=
  rfl

theorem derives_escape_sequence {w : List Char} {ts : List Tree} :
    Derives grammar (.sym "escape_sequence") w ts ↔
      ∃ c, c ∈ specEscapable ∧ w = [backslash, c] ∧ ts = [escapeTree w] := by
  rw [derives_sym_of lookup_escape_sequence]
  have hh : hidden "escape_sequence" = false := by decide
  simp only [hh, derives_tokenImmediate, escape_toRE, Option.some.injEq, escapeTree]
  constructor
  · rintro ⟨us, ⟨re, rfl, hacc, rfl⟩, rfl⟩
    simp only [RE.accepts_seq, RE.accepts_alt, RE.accepts_chr, RE.accepts_eps, RE.accepts_cls,
      RE.accepts_empty, Bool.or_eq_true, decide_eq_true_eq, quoteEscapeChar_mem] at hacc
    obtain ⟨u, v, rfl, ⟨u1, u2, rfl, rfl, rfl⟩, v1, v2, rfl, hv, rfl⟩ := hacc
    have : ∃ c, c ∈ specEscapable ∧ v1 = [c] := by
      simp only [specEscapable, List.mem_cons, List.mem_singleton, List.not_mem_nil, or_false]
      rcases hv with ⟨c, rfl, hc⟩ | rfl | rfl | rfl | rfl | rfl | rfl | h
      · exact ⟨c, by tauto, rfl⟩
      · exact ⟨_, by tauto, rfl⟩
      · exact ⟨_, by tauto, rfl⟩
      · exact ⟨_, by tauto, rfl⟩
      · exact ⟨_, by tauto, rfl⟩
      · exact ⟨_, by tauto, rfl⟩
      · exact ⟨_, by tauto, rfl⟩
      · exact absurd h (by simp)
    obtain ⟨c, hc, rfl⟩ := this
    exact ⟨c, hc, by simp, by simp⟩
  · rintro ⟨c, hc, rfl, rfl⟩
    refine ⟨_, ⟨_, rfl, ?_, rfl⟩, by simp⟩
    simp only [RE.accepts_seq, RE.accepts_alt, RE.accepts_chr, RE.accepts_eps, RE.accepts_cls,
      RE.accepts_empty, Bool.or_eq_true, decide_eq_true_eq, quoteEscapeChar_mem]
    refine ⟨[backslash], [c], rfl, ⟨[backslash], [], rfl, rfl, rfl⟩, [c], [], rfl, ?_, rfl⟩
    simp only [specEscapable, List.mem_cons, List.mem_singleton, List.not_mem_nil, or_false] at hc
    rcases hc with rfl | rfl | rfl | rfl | rfl | rfl | rfl | rfl | rfl | rfl
    · exact Or.inl ⟨_, rfl, Or.inl rfl⟩
    · exact Or.inl ⟨_, rfl, Or.inr (Or.inl rfl)⟩
    · exact Or.inl ⟨_, rfl, Or.inr (Or.inr (Or.inl rfl))⟩
    · exact Or.inl ⟨_, rfl, Or.inr (Or.inr (Or.inr rfl))⟩
    · exact Or.inr (Or.inl rfl)
    · exact Or.inr (Or.inr (Or.inl rfl))
    · exact Or.inr (Or.inr (Or.inr (Or.inl rfl)))
    · exact Or.inr (Or.inr (Or.inr (Or.inr (Or.inl rfl))))
    · exact Or.inr (Or.inr (Or.inr (Or.inr (Or.inr (Or.inl rfl)))))
    · exact Or.inr (Or.inr (Or.inr (Or.inr (Or.inr (Or.inr (Or.inl rfl))))))

/-! ## Strings -/

theorem literalRunRE_accepts (x : List Char) :
    literalRunRE.accepts x = true ↔
      x ≠ [] ∧ ∀ c ∈ x, c ≠ dquote ∧ c ≠ backslash ∧ c ≠ dollar := by
  unfold literalRunRE
  rw [RE.accepts_plus_cls]
  simp only [literalChar_mem]

theorem lookup_string_content :
    grammar.lookup "_string_content" = some (.choice [
      .tokenImmediate (.prec 1 (.pat literalRunRE)), .sym "escape_sequence"]) :=
  rfl

theorem derives_string_content {w : List Char} {ts : List Tree} :
    Derives grammar (.sym "_string_content") w ts ↔
      (literalRunRE.accepts w = true ∧ ts = [.leaf w]) ∨
      (∃ c, c ∈ specEscapable ∧ w = [backslash, c] ∧ ts = [escapeTree w]) := by
  rw [derives_sym_of lookup_string_content]
  have hh : hidden "_string_content" = true := by decide
  have hre : (Rule.prec 1 (.pat literalRunRE)).toRE = some literalRunRE := rfl
  simp only [hh, ↓reduceIte, derives_choice, List.mem_cons, List.mem_singleton,
    List.not_mem_nil, or_false]
  constructor
  · rintro ⟨us, ⟨r, rfl | rfl, hd⟩, rfl⟩
    · obtain ⟨re, h1, h2, rfl⟩ := derives_tokenImmediate.mp hd
      rw [hre] at h1
      cases h1
      exact Or.inl ⟨h2, rfl⟩
    · exact Or.inr (derives_escape_sequence.mp hd)
  · rintro (⟨h, rfl⟩ | h)
    · exact ⟨_, ⟨_, Or.inl rfl, derives_tokenImmediate.mpr ⟨_, hre, h, rfl⟩⟩, rfl⟩
    · exact ⟨_, ⟨_, Or.inr rfl, derives_escape_sequence.mpr h⟩, rfl⟩

theorem lookup_string_interpolation :
    grammar.lookup "string_interpolation" = some (.choice [
      .seq [.str "$", .sym "identifier"],
      .seq [.str "$\x7b", .sym "identifier", .str "\x7d"]]) :=
  rfl

theorem derives_string_interpolation {w : List Char} {ts : List Tree} :
    Derives grammar (.sym "string_interpolation") w ts ↔
      (∃ ws ws2 x, isSkip ws = true ∧ isSkip ws2 = true ∧ identifierRE.accepts x = true ∧
        w = ws ++ ("$".toList ++ (ws2 ++ x)) ∧ ts = [bareInterpolation x]) ∨
      (∃ ws ws2 ws3 x, isSkip ws = true ∧ isSkip ws2 = true ∧ isSkip ws3 = true ∧
        identifierRE.accepts x = true ∧
        w = ws ++ ("$\x7b".toList ++ (ws2 ++ (x ++ (ws3 ++ "\x7d".toList)))) ∧
        ts = [bracedInterpolation x]) := by
  rw [derives_sym_of lookup_string_interpolation]
  have hh : hidden "string_interpolation" = false := by decide
  simp only [hh, derives_choice, List.mem_cons, List.mem_singleton, List.not_mem_nil, or_false,
    bareInterpolation, bracedInterpolation]
  constructor
  · rintro ⟨us, ⟨r, rfl | rfl, hd⟩, rfl⟩
    · left
      simp only [derives_seq_cons, derives_seq_nil, derives_str, derives_identifier] at hd
      obtain ⟨u, v, us, vs, rfl, rfl, ⟨ws, hws, rfl, rfl⟩, u2, v2, us2, vs2, rfl, rfl,
        ⟨ws2, x, hws2, hx, rfl, rfl⟩, rfl, rfl⟩ := hd
      exact ⟨ws, ws2, x, hws, hws2, hx, by simp, by simp⟩
    · right
      simp only [derives_seq_cons, derives_seq_nil, derives_str, derives_identifier] at hd
      obtain ⟨u, v, us, vs, rfl, rfl, ⟨ws, hws, rfl, rfl⟩, u2, v2, us2, vs2, rfl, rfl,
        ⟨ws2, x, hws2, hx, rfl, rfl⟩, u3, v3, us3, vs3, rfl, rfl, ⟨ws3, hws3, rfl, rfl⟩,
        rfl, rfl⟩ := hd
      exact ⟨ws, ws2, ws3, x, hws, hws2, hws3, hx, by simp, by simp⟩
  · rintro (⟨ws, ws2, x, hws, hws2, hx, rfl, rfl⟩ | ⟨ws, ws2, ws3, x, hws, hws2, hws3, hx, rfl, rfl⟩)
    · refine ⟨[.leaf "$".toList, identifierTree x], ⟨_, Or.inl rfl, ?_⟩, ?_⟩
      · exact derives_seq_str hws (derives_seq_one.mpr
          (derives_identifier.mpr ⟨ws2, x, hws2, hx, rfl, rfl⟩))
      · rfl
    · refine ⟨[.leaf "$\x7b".toList, identifierTree x, .leaf "\x7d".toList],
        ⟨_, Or.inr rfl, ?_⟩, ?_⟩
      · exact derives_seq_str hws (derives_cast (.seq_cons
          (derives_identifier.mpr ⟨ws2, x, hws2, hx, rfl, rfl⟩)
          (derives_seq_str_last hws3)) (by simp) rfl)
      · rfl

theorem lookup_string :
    grammar.lookup "string" = some (.choice [
      .seq [.str "\"", doubleContent, .str "\""],
      .seq [.str "'", singleContent, .str "'"]]) :=
  rfl

theorem derives_string {w : List Char} {ts : List Tree} :
    Derives grammar (.sym "string") w ts ↔
      (∃ ws u ws2 us, isSkip ws = true ∧ isSkip ws2 = true ∧ Derives grammar doubleContent u us ∧
        w = ws ++ ("\"".toList ++ (u ++ (ws2 ++ "\"".toList))) ∧ ts = [stringTree "\"" us]) ∨
      (∃ ws u ws2 us, isSkip ws = true ∧ isSkip ws2 = true ∧ Derives grammar singleContent u us ∧
        w = ws ++ ("'".toList ++ (u ++ (ws2 ++ "'".toList))) ∧ ts = [stringTree "'" us]) := by
  rw [derives_sym_of lookup_string]
  have hh : hidden "string" = false := by decide
  simp only [hh, derives_choice, List.mem_cons, List.mem_singleton, List.not_mem_nil, or_false,
    stringTree]
  constructor
  · rintro ⟨us, ⟨r, rfl | rfl, hd⟩, rfl⟩
    · left
      simp only [derives_seq_cons, derives_seq_nil, derives_str] at hd
      obtain ⟨u, v, us, vs, rfl, rfl, ⟨ws, hws, rfl, rfl⟩, u2, v2, us2, vs2, rfl, rfl,
        hc, u3, v3, us3, vs3, rfl, rfl, ⟨ws3, hws3, rfl, rfl⟩, rfl, rfl⟩ := hd
      exact ⟨ws, u2, ws3, us2, hws, hws3, hc, by simp, by simp⟩
    · right
      simp only [derives_seq_cons, derives_seq_nil, derives_str] at hd
      obtain ⟨u, v, us, vs, rfl, rfl, ⟨ws, hws, rfl, rfl⟩, u2, v2, us2, vs2, rfl, rfl,
        hc, u3, v3, us3, vs3, rfl, rfl, ⟨ws3, hws3, rfl, rfl⟩, rfl, rfl⟩ := hd
      exact ⟨ws, u2, ws3, us2, hws, hws3, hc, by simp, by simp⟩
  · rintro (⟨ws, u, ws2, us, hws, hws2, hc, rfl, rfl⟩ | ⟨ws, u, ws2, us, hws, hws2, hc, rfl, rfl⟩)
    · refine ⟨.leaf "\"".toList :: (us ++ [.leaf "\"".toList]), ⟨_, Or.inl rfl, ?_⟩, ?_⟩
      · exact derives_seq_str hws (.seq_cons hc (derives_seq_str_last hws2))
      · rfl
    · refine ⟨.leaf "'".toList :: (us ++ [.leaf "'".toList]), ⟨_, Or.inr rfl, ?_⟩, ?_⟩
      · exact derives_seq_str hws (.seq_cons hc (derives_seq_str_last hws2))
      · rfl

/-! ## Trees without precedence markers -/

mutual
theorem markerFree_precOK : ∀ t : Tree, t.markerFree = true → t.precOK = true
  | .leaf _, _ => by simp [Tree.precOK]
  | .node _ cs, h => by
    simp only [Tree.markerFree] at h
    simp only [Tree.precOK]
    exact markerFreeList_precOKList cs h
  | .field _ t, h => by
    simp only [Tree.markerFree] at h
    simp only [Tree.precOK]
    exact markerFree_precOK t h
  | .prec _ _ _, h => by simp [Tree.markerFree] at h
theorem markerFreeList_precOKList :
    ∀ ts : List Tree, Tree.markerFreeList ts = true → Tree.precOKList ts = true
  | [], _ => by simp [Tree.precOKList]
  | t :: ts, h => by
    simp only [Tree.markerFreeList, Bool.and_eq_true] at h
    simp only [Tree.precOKList, Bool.and_eq_true]
    exact ⟨markerFree_precOK t h.1, markerFreeList_precOKList ts h.2⟩
end

theorem markerFree_marker {t : Tree} (h : t.markerFree = true) : t.marker = none := by
  unfold Tree.marker
  split
  · simp [Tree.markerFree, Tree.markerFreeList] at h
  · rfl

theorem markerFreeList_append (as bs : List Tree) :
    Tree.markerFreeList (as ++ bs) = (Tree.markerFreeList as && Tree.markerFreeList bs) := by
  induction as with
  | nil => simp [Tree.markerFreeList]
  | cons a as ih => simp [Tree.markerFreeList, ih, Bool.and_assoc]

theorem string_content_markerFree {w : List Char} {ts : List Tree}
    (h : Derives grammar (.sym "_string_content") w ts) : Tree.markerFreeList ts = true := by
  rcases derives_string_content.mp h with ⟨_, rfl⟩ | ⟨c, _, _, rfl⟩
  · rfl
  · rfl

theorem string_interpolation_markerFree {w : List Char} {ts : List Tree}
    (h : Derives grammar (.sym "string_interpolation") w ts) :
    Tree.markerFreeList ts = true := by
  rcases derives_string_interpolation.mp h with ⟨_, _, _, _, _, _, _, rfl⟩ |
    ⟨_, _, _, _, _, _, _, _, _, rfl⟩
  · rfl
  · rfl

theorem doubleContent_markerFree {w : List Char} {ts : List Tree}
    (h : Derives grammar doubleContent w ts) : Tree.markerFreeList ts = true := by
  refine rep_induction (P := fun _ ts => Tree.markerFreeList ts = true) rfl ?_ h
  intro u v us vs hu _ ih
  rw [markerFreeList_append, ih, Bool.and_true]
  obtain ⟨r, hr, hd⟩ := derives_choice.mp hu
  simp only [List.mem_cons, List.mem_singleton, List.not_mem_nil, or_false] at hr
  rcases hr with rfl | rfl
  · exact string_content_markerFree hd
  · exact string_interpolation_markerFree hd

theorem singleContent_markerFree {w : List Char} {ts : List Tree}
    (h : Derives grammar singleContent w ts) : Tree.markerFreeList ts = true := by
  refine rep_induction (P := fun _ ts => Tree.markerFreeList ts = true) rfl ?_ h
  intro u v us vs hu _ ih
  rw [markerFreeList_append, ih, Bool.and_true]
  exact string_content_markerFree hu

theorem lookup_number : grammar.lookup "number" = some (.pat numberRE) := rfl

theorem lookup_boolean :
    grammar.lookup "boolean" = some (.choice [.str "true", .str "false"]) := rfl

theorem derives_number {w : List Char} {ts : List Tree} :
    Derives grammar (.sym "number") w ts ↔
      ∃ ws x, isSkip ws = true ∧ numberRE.accepts x = true ∧ w = ws ++ x ∧
        ts = [.node "number" [.leaf x]] := by
  rw [derives_sym_of lookup_number]
  have hh : hidden "number" = false := by decide
  simp only [hh, derives_pat]
  constructor
  · rintro ⟨us, ⟨ws, x, hws, hx, rfl, rfl⟩, rfl⟩
    exact ⟨ws, x, hws, hx, rfl, by simp⟩
  · rintro ⟨ws, x, hws, hx, rfl, rfl⟩
    exact ⟨_, ⟨ws, x, hws, hx, rfl, rfl⟩, by simp⟩

theorem derives_boolean {w : List Char} {ts : List Tree} :
    Derives grammar (.sym "boolean") w ts ↔
      ∃ ws b, isSkip ws = true ∧ (b = "true" ∨ b = "false") ∧ w = ws ++ b.toList ∧
        ts = [.node "boolean" [.leaf b.toList]] := by
  rw [derives_sym_of lookup_boolean]
  have hh : hidden "boolean" = false := by decide
  simp only [hh, derives_choice, List.mem_cons, List.mem_singleton, List.not_mem_nil, or_false]
  constructor
  · rintro ⟨us, ⟨r, hr, hd⟩, rfl⟩
    rcases hr with rfl | rfl
    · obtain ⟨ws, hws, rfl, rfl⟩ := derives_str.mp hd
      exact ⟨ws, "true", hws, Or.inl rfl, rfl, by simp⟩
    · obtain ⟨ws, hws, rfl, rfl⟩ := derives_str.mp hd
      exact ⟨ws, "false", hws, Or.inr rfl, rfl, by simp⟩
  · rintro ⟨ws, b, hws, hb, rfl, rfl⟩
    rcases hb with rfl | rfl
    · exact ⟨_, ⟨_, Or.inl rfl, .str hws⟩, by simp⟩
    · exact ⟨_, ⟨_, Or.inr rfl, .str hws⟩, by simp⟩

/-- An atomic operand carries no precedence marker. -/
theorem atom_markerFree {w : List Char} {t : Tree}
    (h : Derives grammar (.sym "_expression") w [t]) (ha : t.isAtom = true) :
    t.markerFree = true := by
  obtain ⟨k, hk, hd⟩ := derives_expression.mp h
  simp only [expressionKinds, List.mem_cons, List.mem_singleton, List.not_mem_nil,
    or_false] at hk
  rcases hk with rfl | rfl | rfl | rfl | rfl | rfl | rfl
  · rcases derives_string.mp hd with ⟨_, _, _, us, _, _, hc, _, hts⟩ |
      ⟨_, _, _, us, _, _, hc, _, hts⟩
    · simp only [List.cons.injEq, and_true] at hts
      subst hts
      simp [stringTree, Tree.markerFree, Tree.markerFreeList, markerFreeList_append,
        doubleContent_markerFree hc]
    · simp only [List.cons.injEq, and_true] at hts
      subst hts
      simp [stringTree, Tree.markerFree, Tree.markerFreeList, markerFreeList_append,
        singleContent_markerFree hc]
  · obtain ⟨_, _, _, _, _, hts⟩ := derives_number.mp hd
    simp only [List.cons.injEq, and_true] at hts
    subst hts
    rfl
  · obtain ⟨_, _, _, _, _, hts⟩ := derives_boolean.mp hd
    simp only [List.cons.injEq, and_true] at hts
    subst hts
    rfl
  · obtain ⟨_, _, _, _, _, hts⟩ := derives_identifier.mp hd
    simp only [List.cons.injEq, and_true] at hts
    subst hts
    rfl
  · obtain ⟨r, us, _, _, hts⟩ := derives_sym_node (by decide) hd
    simp only [List.cons.injEq, and_true] at hts
    subst hts
    simp [Tree.isAtom, atomKinds] at ha
  · obtain ⟨r, us, _, _, hts⟩ := derives_sym_node (by decide) hd
    simp only [List.cons.injEq, and_true] at hts
    subst hts
    simp [Tree.isAtom, atomKinds] at ha
  · obtain ⟨r, us, _, _, hts⟩ := derives_sym_node (by decide) hd
    simp only [List.cons.injEq, and_true] at hts
    subst hts
    simp [Tree.isAtom, atomKinds] at ha

/-! ## Operator chains -/

theorem rightOK_binaryTree (l r : List Tree) (op : String) :
    rightOK 1 Assoc.left (binaryTree l op r) = false := by
  simp [rightOK, binaryTree, Tree.strip, Tree.marker]

theorem leftOK_binaryTree (l r : List Tree) (op : String) :
    leftOK 1 (binaryTree l op r) = true := by
  simp [leftOK, binaryTree, Tree.strip, Tree.marker]

theorem isAtom_ne_leaf {x : Tree} (hx : x.isAtom = true) (c : List Char) : x ≠ .leaf c := by
  rintro rfl
  simp [Tree.isAtom] at hx

/-- The right operand of a binary expression that respects the markers, in a sequence
without two adjacent token leaves, is an atomic operand. -/
theorem right_operand_atom {wr : List Char} {tr : Tree} {A F : List Tree} {op : String}
    (hr : Derives grammar (.sym "_expression") wr [tr])
    (hok : rightOK 1 Assoc.left tr = true)
    (hF : A ++ (.leaf op.toList :: tr.frontier) = F)
    (hadj : ∀ B C c d, F ≠ B ++ (.leaf c :: .leaf d :: C)) :
    tr.isAtom = true ∧ F = A ++ [.leaf op.toList, tr] := by
  obtain ⟨t, ht, hcases⟩ := expression_tree_cases hr
  simp only [List.cons.injEq, and_true] at ht
  subst ht
  rcases hcases with ha | ⟨c, rest, hfr, _⟩ | ⟨o, _, _, a, b, _, rfl, _, _⟩
  · rw [frontier_of_isAtom ha] at hF
    exact ⟨ha, hF.symm⟩
  · rw [hfr] at hF
    exact absurd hF.symm (hadj _ _ _ _)
  · rw [rightOK_binaryTree] at hok
    exact absurd hok (by simp)

/-- An expression tree whose operand and token sequence is a single atomic operand is that
operand. -/
theorem frontier_singleton {w : List Char} {t x : Tree}
    (h : Derives grammar (.sym "_expression") w [t]) (hx : x.isAtom = true)
    (hF : t.frontier = [x]) : t = x := by
  obtain ⟨t2, ht, hcases⟩ := expression_tree_cases h
  simp only [List.cons.injEq, and_true] at ht
  subst ht
  rcases hcases with ha | ⟨c, rest, hfr, _⟩ | ⟨o, _, _, a, b, _, rfl, _, _⟩
  · rw [frontier_of_isAtom ha] at hF
    simpa using hF
  · rw [hfr] at hF
    simp only [List.cons.injEq] at hF
    exact absurd hF.1.symm (isAtom_ne_leaf hx c)
  · rw [frontier_binaryTree] at hF
    rcases hfa : a.frontier with _ | ⟨p, l⟩
    · rw [hfa] at hF
      simp only [List.nil_append, List.cons.injEq] at hF
      exact absurd hF.1.symm (isAtom_ne_leaf hx _)
    · rw [hfa] at hF
      simp at hF

/-- An expression tree that respects the markers and whose operand and token sequence is
`x op y` is the binary expression of `x` and `y`. -/
theorem frontier_triple {w : List Char} {t x y : Tree} {op : String}
    (h : Derives grammar (.sym "_expression") w [t]) (hx : x.isAtom = true)
    (hy : y.isAtom = true) (hF : t.frontier = [x, .leaf op.toList, y])
    (hok : t.precOK = true) : t = binaryTree [x] op [y] := by
  obtain ⟨t2, ht, hcases⟩ := expression_tree_cases h
  simp only [List.cons.injEq, and_true] at ht
  subst ht
  rcases hcases with ha | ⟨c, rest, hfr, _⟩ | ⟨o, wl, wr, a, b, _, rfl, hl, hr⟩
  · rw [frontier_of_isAtom ha] at hF
    simp at hF
  · rw [hfr] at hF
    simp only [List.cons.injEq] at hF
    exact absurd hF.1.symm (isAtom_ne_leaf hx c)
  · rw [frontier_binaryTree] at hF
    rw [precOK_binaryTree] at hok
    simp only [Bool.and_eq_true] at hok
    obtain ⟨⟨_, hrok⟩, hlok, _⟩ := hok
    have hadj : ∀ B C c d, [x, Tree.leaf op.toList, y] ≠ B ++ (.leaf c :: .leaf d :: C) := by
      intro B C c d hB
      rcases B with _ | ⟨b1, _ | ⟨b2, _ | ⟨b3, B⟩⟩⟩
      · simp only [List.nil_append, List.cons.injEq] at hB
        exact isAtom_ne_leaf hx _ hB.1
      · simp only [List.cons_append, List.nil_append, List.cons.injEq] at hB
        exact isAtom_ne_leaf hy _ hB.2.2.1
      · simp at hB
      · simp at hB
    obtain ⟨hb, hF2⟩ := right_operand_atom hr hrok hF hadj
    rcases hfa : a.frontier with _ | ⟨p, _ | ⟨q, l⟩⟩
    · rw [hfa] at hF2
      simp only [List.nil_append, List.cons.injEq] at hF2
      exact absurd hF2.1 (isAtom_ne_leaf hx _)
    · rw [hfa] at hF2
      simp only [List.cons_append, List.nil_append, List.cons.injEq, Tree.leaf.injEq,
        and_true] at hF2
      obtain ⟨rfl, hop, rfl⟩ := hF2
      have ha := frontier_singleton hl hx hfa
      have hop2 : op = o := String.ext hop
      subst ha
      subst hop2
      rfl
    · rw [hfa] at hF2
      have hlen := congrArg List.length hF2
      simp only [List.length_append, List.length_cons, List.length_nil] at hlen
      omega

/-- The only expression tree that respects the markers and has the operand and token
sequence `x op1 y op2 z` is the one nested to the left. -/
theorem chain_unique {w : List Char} {t x y z : Tree} {op1 op2 : String}
    (h : Derives grammar (.sym "_expression") w [t]) (hx : x.isAtom = true)
    (hy : y.isAtom = true) (hz : z.isAtom = true)
    (hF : t.frontier = [x, .leaf op1.toList, y, .leaf op2.toList, z])
    (hok : t.precOK = true) : t = binaryTree [binaryTree [x] op1 [y]] op2 [z] := by
  obtain ⟨t2, ht, hcases⟩ := expression_tree_cases h
  simp only [List.cons.injEq, and_true] at ht
  subst ht
  rcases hcases with ha | ⟨c, rest, hfr, _⟩ | ⟨o, wl, wr, a, b, _, rfl, hl, hr⟩
  · rw [frontier_of_isAtom ha] at hF
    simp at hF
  · rw [hfr] at hF
    simp only [List.cons.injEq] at hF
    exact absurd hF.1.symm (isAtom_ne_leaf hx c)
  · rw [frontier_binaryTree] at hF
    rw [precOK_binaryTree] at hok
    simp only [Bool.and_eq_true] at hok
    obtain ⟨⟨_, hrok⟩, hlok, _⟩ := hok
    have hadj : ∀ B C c d,
        [x, Tree.leaf op1.toList, y, Tree.leaf op2.toList, z] ≠
          B ++ (.leaf c :: .leaf d :: C) := by
      intro B C c d hB
      rcases B with _ | ⟨b1, _ | ⟨b2, _ | ⟨b3, _ | ⟨b4, _ | ⟨b5, B⟩⟩⟩⟩⟩
      · simp only [List.nil_append, List.cons.injEq] at hB
        exact isAtom_ne_leaf hx _ hB.1
      · simp only [List.cons_append, List.nil_append, List.cons.injEq] at hB
        exact isAtom_ne_leaf hy _ hB.2.2.1
      · simp only [List.cons_append, List.nil_append, List.cons.injEq] at hB
        exact isAtom_ne_leaf hy _ hB.2.2.1
      · simp only [List.cons_append, List.nil_append, List.cons.injEq] at hB
        exact isAtom_ne_leaf hz _ hB.2.2.2.2.1
      · simp at hB
      · simp at hB
    obtain ⟨hb, hF2⟩ := right_operand_atom hr hrok hF hadj
    rcases hfa : a.frontier with _ | ⟨p1, _ | ⟨p2, _ | ⟨p3, _ | ⟨p4, l⟩⟩⟩⟩
    · rw [hfa] at hF2
      simp only [List.nil_append, List.cons.injEq] at hF2
      exact absurd hF2.1 (isAtom_ne_leaf hx _)
    · rw [hfa] at hF2
      simp at hF2
    · rw [hfa] at hF2
      simp at hF2
    · rw [hfa] at hF2
      simp only [List.cons_append, List.nil_append, List.cons.injEq, Tree.leaf.injEq,
        and_true] at hF2
      obtain ⟨rfl, rfl, rfl, hop, rfl⟩ := hF2
      have ha := frontier_triple hl hx hy hfa hlok
      have hop2 : op2 = o := String.ext hop
      subst ha
      subst hop2
      rfl
    · rw [hfa] at hF2
      have hlen := congrArg List.length hF2
      simp only [List.length_append, List.length_cons, List.length_nil] at hlen
      omega

theorem derives_binary (op : String) (ws : List Char) {wl wr : List Char} {tl tr : Tree}
    (hop : op ∈ specOperators) (hws : isSkip ws = true)
    (hl : Derives grammar (.sym "_expression") wl [tl])
    (hr : Derives grammar (.sym "_expression") wr [tr]) :
    Derives grammar (.sym "_expression") (wl ++ (ws ++ op.toList ++ wr))
      [binaryTree [tl] op [tr]] :=
  derives_expression.mpr ⟨"binary_expression", by simp [expressionKinds],
    derives_binary_expression.mpr ⟨op, wl, ws, wr, [tl], [tr], hop, hws, rfl, hl, hr, rfl⟩⟩

theorem strip_of_isAtom {t : Tree} (h : t.isAtom = true) : t.strip = t := by
  cases t with
  | node kind cs => rfl
  | leaf x => rfl
  | field f t => simp [Tree.isAtom] at h
  | prec n a cs => rfl

theorem atom_operand_ok {w : List Char} {t : Tree}
    (h : Derives grammar (.sym "_expression") w [t]) (ha : t.isAtom = true) :
    leftOK 1 t = true ∧ rightOK 1 Assoc.left t = true ∧ t.precOK = true := by
  have hm := atom_markerFree h ha
  have hk := markerFree_marker hm
  refine ⟨?_, ?_, markerFree_precOK t hm⟩
  · simp [leftOK, strip_of_isAtom ha, hk]
  · simp [rightOK, strip_of_isAtom ha, hk]

/-- C2. For operators `op1`, `op2` of the ten and atomic operands `x`, `y`, `z` (string,
number, boolean or identifier nodes), the text `x op1 y op2 z` is derived by `_expression`
with the tree nested to the left, `(x op1 y) op2 z`, which respects the precedence markers;
every expression tree with the operand and token sequence `x op1 y op2 z` that respects the
markers is that tree; the productions also derive the tree nested to the right, and that
tree is the one the markers (level 1, left associative on all ten operators) exclude. -/
theorem binary_chain_left_nested (op1 op2 : String) (x y z : Tree)
    (wx wy wz s1 s2 : List Char)
    (h1 : op1 ∈ specOperators) (h2 : op2 ∈ specOperators)
    (hx : x.isAtom = true) (hy : y.isAtom = true) (hz : z.isAtom = true)
    (dx : Derives grammar (.sym "_expression") wx [x])
    (dy : Derives grammar (.sym "_expression") wy [y])
    (dz : Derives grammar (.sym "_expression") wz [z])
    (hs1 : isSkip s1 = true) (hs2 : isSkip s2 = true) :
    (Derives grammar (.sym "_expression")
        ((wx ++ (s1 ++ op1.toList ++ wy)) ++ (s2 ++ op2.toList ++ wz))
        [binaryTree [binaryTree [x] op1 [y]] op2 [z]] ∧
      (binaryTree [binaryTree [x] op1 [y]] op2 [z]).frontier =
        [x, .leaf op1.toList, y, .leaf op2.toList, z] ∧
      (binaryTree [binaryTree [x] op1 [y]] op2 [z]).precOK = true) ∧
    (∀ w t, Derives grammar (.sym "_expression") w [t] →
      t.frontier = [x, .leaf op1.toList, y, .leaf op2.toList, z] →
      t.precOK = true → t = binaryTree [binaryTree [x] op1 [y]] op2 [z]) ∧
    (Derives grammar (.sym "_expression")
        (wx ++ (s1 ++ op1.toList ++ (wy ++ (s2 ++ op2.toList ++ wz))))
        [binaryTree [x] op1 [binaryTree [y] op2 [z]]] ∧
      (binaryTree [x] op1 [binaryTree [y] op2 [z]]).precOK = false) := by
  obtain ⟨lx, rx, px⟩ := atom_operand_ok dx hx
  obtain ⟨ly, ry, py⟩ := atom_operand_ok dy hy
  obtain ⟨lz, rz, pz⟩ := atom_operand_ok dz hz
  refine ⟨⟨?_, ?_, ?_⟩, ?_, ?_, ?_⟩
  · exact derives_binary _ _ h2 hs2 (derives_binary _ _ h1 hs1 dx dy) dz
  · simp [frontier_binaryTree, frontier_of_isAtom hx, frontier_of_isAtom hy,
      frontier_of_isAtom hz]
  · simp [precOK_binaryTree, leftOK_binaryTree, lx, ry, rz, px, py, pz]
  · intro w t h hF hok
    exact chain_unique h hx hy hz hF hok
  · exact derives_binary _ _ h1 hs1 dx (derives_binary _ _ h2 hs2 dy dz)
  · simp [precOK_binaryTree, rightOK_binaryTree]

theorem derives_number_expression (ws x : List Char) (hws : isSkip ws = true)
    (hx : numberRE.accepts x = true) :
    Derives grammar (.sym "_expression") (ws ++ x) [numberTree x] :=
  derives_expression.mpr ⟨"number", by simp [expressionKinds],
    derives_number.mpr ⟨ws, x, hws, hx, rfl, rfl⟩⟩

theorem derives_identifier_expression (ws x : List Char) (hws : isSkip ws = true)
    (hx : identifierRE.accepts x = true) :
    Derives grammar (.sym "_expression") (ws ++ x) [identifierTree x] :=
  derives_expression.mpr ⟨"identifier", by simp [expressionKinds],
    derives_identifier.mpr ⟨ws, x, hws, hx, rfl, rfl⟩⟩

theorem lookup_variable_declaration :
    grammar.lookup "variable_declaration" = some (.seq [
      .str "conjure", .field "name" (.sym "identifier"), .str "=",
      .field "value" (.sym "_expression")]) :=
  rfl

/-- A variable declaration from its parts. -/
theorem derives_variable_declaration (ws1 ws2 ws3 x : List Char) {wv : List Char}
    {v : List Tree}
    (h1 : isSkip ws1 = true) (h2 : isSkip ws2 = true) (h3 : isSkip ws3 = true)
    (hx : identifierRE.accepts x = true) (hv : Derives grammar (.sym "_expression") wv v) :
    Derives grammar (.sym "variable_declaration")
      (ws1 ++ ("conjure".toList ++ ((ws2 ++ x) ++ (ws3 ++ ("=".toList ++ wv)))))
      [.node "variable_declaration" (.leaf "conjure".toList ::
        (Tree.field "name" (identifierTree x) ::
          (.leaf "=".toList :: v.map (Tree.field "value"))))] := by
  refine (derives_sym_of lookup_variable_declaration).mpr ⟨_, ?_, rfl⟩
  refine derives_seq_str h1 (derives_cast (.seq_cons
    (.field (derives_identifier.mpr ⟨ws2, x, h2, hx, rfl, rfl⟩))
    (derives_seq_str h3 (derives_seq_one.mpr (.field hv)))) rfl rfl)

/-- C2, at `1 + 2 * 3` and `a - b - c`: the declaration `conjure x = 1 + 2 * 3` has the
value `(1 + 2) * 3`, no other tree over `1 + 2 * 3` respects the markers, and `a - b - c`
is `(a - b) - c`. -/
theorem binary_chain_left_nested_witness :
    Derives grammar (.sym "variable_declaration") "conjure x = 1 + 2 * 3".toList
      [.node "variable_declaration" [.leaf "conjure".toList,
        .field "name" (identifierTree "x".toList),
        .leaf "=".toList,
        .field "value" (binaryTree
          [binaryTree [numberTree "1".toList] "+" [numberTree "2".toList]] "*"
          [numberTree "3".toList])]] ∧
    (∀ w t, Derives grammar (.sym "_expression") w [t] →
      t.frontier = [numberTree "1".toList, .leaf "+".toList, numberTree "2".toList,
        .leaf "*".toList, numberTree "3".toList] →
      t.precOK = true →
      t = binaryTree [binaryTree [numberTree "1".toList] "+" [numberTree "2".toList]] "*"
        [numberTree "3".toList]) ∧
    Derives grammar (.sym "_expression") "a - b - c".toList
      [binaryTree [binaryTree [identifierTree "a".toList] "-" [identifierTree "b".toList]] "-"
        [identifierTree "c".toList]] := by
  have T := binary_chain_left_nested "+" "*" (numberTree "1".toList) (numberTree "2".toList)
    (numberTree "3".toList) " 1".toList " 2".toList " 3".toList " ".toList " ".toList
    (by decide) (by decide) rfl rfl rfl
    (derives_number_expression " ".toList _ (by decide) (by decide))
    (derives_number_expression " ".toList _ (by decide) (by decide))
    (derives_number_expression " ".toList _ (by decide) (by decide))
    (by decide) (by decide)
  have U := binary_chain_left_nested "-" "-" (identifierTree "a".toList)
    (identifierTree "b".toList) (identifierTree "c".toList) "a".toList " b".toList " c".toList
    " ".toList " ".toList (by decide) (by decide) rfl rfl rfl
    (derives_identifier_expression [] _ (by decide) (by decide))
    (derives_identifier_expression " ".toList _ (by decide) (by decide))
    (derives_identifier_expression " ".toList _ (by decide) (by decide))
    (by decide) (by decide)
  refine ⟨?_, T.2.1, ?_⟩
  · exact derives_cast
      (derives_variable_declaration [] " ".toList " ".toList "x".toList
        (by decide) (by decide) (by decide) (by decide) T.1.1)
      (by decide) rfl
  · exact derives_cast U.1.1 (by decide) rfl

/-! ## Single-quoted strings -/

/-- The closing token of a rule, after a text that ends with a visible character, has no
skipped text in front of it. -/
theorem close_token_split {u ws2 body : List Char} {q last : Char}
    (hws2 : isSkip ws2 = true) (hlast : whitespace.mem last = false)
    (h : u ++ (ws2 ++ [q]) = body ++ [last, q]) : ws2 = [] ∧ u = body ++ [last] := by
  have h2 : (u ++ ws2) ++ [q] = (body ++ [last]) ++ [q] := by simpa using h
  have h3 : u ++ ws2 = body ++ [last] := List.append_cancel_right h2
  rcases List.eq_nil_or_concat ws2 with rfl | ⟨ws3, x, rfl⟩
  · exact ⟨rfl, by simpa using h3⟩
  · have h4 : (u ++ ws3) ++ [x] = body ++ [last] := by simpa using h3
    have h5 := List.append_inj_right' h4 rfl
    simp only [List.cons.injEq, and_true] at h5
    rw [List.concat_eq_append, isSkip_append, isSkip_cons, h5, hlast] at hws2
    simp at hws2

/-- In the content of a single-quoted string the first of the characters `"`, `\` and `$`,
when there is one, is not `$`: a literal run holds none of the three and an escape sequence
starts with the backslash. -/
theorem singleContent_no_dollar {u : List Char} {us : List Tree}
    (h : Derives grammar singleContent u us) :
    ∀ pre post, u = pre ++ dollar :: post →
      (∀ c ∈ pre, c ≠ dquote ∧ c ≠ backslash ∧ c ≠ dollar) → False := by
  refine rep_induction
    (P := fun u _ => ∀ pre post, u = pre ++ dollar :: post →
      (∀ c ∈ pre, c ≠ dquote ∧ c ≠ backslash ∧ c ≠ dollar) → False) ?_ ?_ h
  · intro pre post h0 _
    simp at h0
  · intro a v as vs ha _ ih pre post hpre hclean
    rcases derives_string_content.mp ha with ⟨hlit, _⟩ | ⟨c, _, rfl, _⟩
    · obtain ⟨_, hall⟩ := (literalRunRE_accepts a).mp hlit
      rcases List.append_eq_append_iff.mp hpre with ⟨m, rfl, hv⟩ | ⟨m, rfl, hm⟩
      · exact ih m post hv fun c hc => hclean c (List.mem_append_right _ hc)
      · cases m with
        | nil =>
          simp only [List.nil_append] at hm
          exact ih [] post hm.symm (by simp)
        | cons d m =>
          simp only [List.cons_append, List.cons.injEq] at hm
          have := hall d (by simp)
          exact this.2.2 hm.1.symm
    · cases pre with
      | nil =>
        simp only [List.cons_append, List.nil_append, List.cons.injEq] at hpre
        exact absurd hpre.1 (by decide)
      | cons d pre =>
        simp only [List.cons_append, List.nil_append, List.cons.injEq] at hpre
        exact (hclean d (by simp)).2.1 hpre.1.symm

/-- C3, at the input of the specification: the string rule derives no tree at all for
`'literal $name'`. The literal run of string content is the pattern `[^"\\$]+` for both
kinds of string: it is a non-empty text without `"`, backslash and `$`, and it does take
`'`. So a single-quoted string cannot hold a `$` that is not escaped. -/
theorem single_quoted_dollar_rejected :
    (¬ ∃ ts, Derives grammar (.sym "string") "'literal $name'".toList ts) ∧
    (∀ x, literalRunRE.accepts x = true ↔
      x ≠ [] ∧ ∀ c ∈ x, c ≠ dquote ∧ c ≠ backslash ∧ c ≠ dollar) ∧
    literalRunRE.accepts "literal name'".toList = true := by
  refine ⟨?_, literalRunRE_accepts, by decide⟩
  rintro ⟨ts, h⟩
  have e : "'literal $name'".toList = squote :: ("literal $nam".toList ++ ['e', squote]) := by
    decide
  rw [e] at h
  rcases derives_string.mp h with ⟨ws, u, ws2, us, hws, hws2, hc, hw, _⟩ |
    ⟨ws, u, ws2, us, hws, hws2, hc, hw, _⟩
  · obtain ⟨_, h2⟩ := skip_nil_of_head hws (by decide) hw.symm
    have e2 : "\"".toList = [dquote] := by decide
    rw [e2] at h2
    simp only [List.cons_append, List.nil_append, List.cons.injEq] at h2
    exact absurd h2.1 (by decide)
  · obtain ⟨_, h2⟩ := skip_nil_of_head hws (by decide) hw.symm
    have e2 : "'".toList = [squote] := by decide
    rw [e2] at h2
    simp only [List.cons_append, List.nil_append, List.cons.injEq, true_and] at h2
    obtain ⟨_, hu⟩ := close_token_split hws2 (by decide) h2
    have e3 : "literal $nam".toList ++ ['e'] = "literal ".toList ++ dollar :: "name".toList := by
      decide
    rw [e3] at hu
    refine singleContent_no_dollar hc _ _ hu ?_
    decide

/-! ## Comments -/

theorem firstVisible_skip {ws : List Char} (hws : isSkip ws = true) (x : List Char) :
    firstVisible (ws ++ x) = firstVisible x := by
  induction ws with
  | nil => rfl
  | cons c cs ih =>
    rw [isSkip_cons, Bool.and_eq_true] at hws
    simp only [firstVisible, List.cons_append, List.dropWhile_cons, hws.1, ↓reduceIte]
    exact ih hws.2

theorem firstVisible_cons {c : Char} (hc : whitespace.mem c = false) (x : List Char) :
    firstVisible (c :: x) = some c := by
  simp [firstVisible, List.dropWhile_cons, hc]

theorem firstVisible_append {x : List Char} {c : Char} (h : firstVisible x = some c)
    (y : List Char) : firstVisible (x ++ y) = some c := by
  induction x with
  | nil => simp [firstVisible] at h
  | cons d ds ih =>
    by_cases hd : whitespace.mem d = true
    · simp only [firstVisible, List.dropWhile_cons, hd, ↓reduceIte, List.cons_append] at h ⊢
      exact ih h
    · simp only [firstVisible, List.dropWhile_cons, hd, Bool.false_eq_true, ↓reduceIte,
        List.head?_cons, List.cons_append] at h ⊢
      exact h

theorem lookup_comment :
    grammar.lookup "comment" = some (.seq [.str "#", .pat lineRE]) := rfl

theorem lookup_multiline_comment :
    grammar.lookup "multiline_comment" = some (.seq [
      .str "##", .rep commentItem, .str "##"]) :=
  rfl

theorem lineRE_accepts (x : List Char) :
    lineRE.accepts x = true ↔ ∀ c ∈ x, c ≠ newline := by
  unfold lineRE
  rw [RE.accepts_star_cls]
  simp only [notNewline_mem]

/-- The leaves a multiline comment can hold between its delimiters. -/
theorem derives_commentItem {u : List Char} {us : List Tree} :
    Derives grammar commentItem u us ↔
      (∃ ws ws2 x, isSkip ws = true ∧ isSkip ws2 = true ∧ lineRE.accepts x = true ∧
        u = ws ++ ("#".toList ++ (ws2 ++ x)) ∧ us = [.leaf "#".toList, .leaf x]) ∨
      (∃ ws, isSkip ws = true ∧ u = ws ++ "\n".toList ∧ us = [.leaf "\n".toList]) := by
  unfold commentItem
  simp only [derives_choice, List.mem_cons, List.mem_singleton, List.not_mem_nil, or_false]
  constructor
  · rintro ⟨r, rfl | rfl, hd⟩
    · left
      simp only [derives_seq_cons, derives_seq_nil, derives_str, derives_pat] at hd
      obtain ⟨u1, v1, us1, vs1, rfl, rfl, ⟨ws, hws, rfl, rfl⟩, u2, v2, us2, vs2, rfl, rfl,
        ⟨ws2, x, hws2, hx, rfl, rfl⟩, rfl, rfl⟩ := hd
      exact ⟨ws, ws2, x, hws, hws2, hx, by simp, by simp⟩
    · right
      obtain ⟨ws, hws, rfl, rfl⟩ := derives_str.mp hd
      exact ⟨ws, hws, rfl, rfl⟩
  · rintro (⟨ws, ws2, x, hws, hws2, hx, rfl, rfl⟩ | ⟨ws, hws, rfl, rfl⟩)
    · exact ⟨_, Or.inl rfl, derives_seq_str hws (derives_seq_one.mpr (.pat hws2 hx))⟩
    · exact ⟨_, Or.inr rfl, .str hws⟩

/-- After the items of a multiline comment the first visible character is still `#` when
it is `#` in what follows: an item starts with `#` or is white space only. -/
theorem commentItems_firstVisible {u : List Char} {us : List Tree}
    (h : Derives grammar (.rep commentItem) u us) :
    (∀ tail, firstVisible tail = some '#' → firstVisible (u ++ tail) = some '#') ∧
    (∀ t ∈ us, ∃ x, t = .leaf x ∧
      (x = "#".toList ∨ x = "\n".toList ∨ lineRE.accepts x = true)) := by
  refine rep_induction
    (P := fun u us =>
      (∀ tail, firstVisible tail = some '#' → firstVisible (u ++ tail) = some '#') ∧
      (∀ t ∈ us, ∃ x, t = .leaf x ∧
        (x = "#".toList ∨ x = "\n".toList ∨ lineRE.accepts x = true))) ?_ ?_ h
  · exact ⟨fun tail ht => ht, by simp⟩
  · intro a v as vs ha _ ih
    rcases derives_commentItem.mp ha with ⟨ws, ws2, x, hws, _, hx, rfl, rfl⟩ |
      ⟨ws, hws, rfl, rfl⟩
    · refine ⟨fun tail _ => ?_, ?_⟩
      · have e : ws ++ ("#".toList ++ (ws2 ++ x)) ++ v ++ tail =
            ws ++ ('#' :: (ws2 ++ x ++ v ++ tail)) := by
          have : "#".toList = ['#'] := by decide
          simp [this]
        rw [List.append_assoc, ← List.append_assoc _ v] at *
        rw [e, firstVisible_skip hws, firstVisible_cons (by decide)]
      · intro t ht
        simp only [List.cons_append, List.nil_append, List.mem_cons] at ht
        rcases ht with rfl | rfl | ht
        · exact ⟨_, rfl, Or.inl rfl⟩
        · exact ⟨_, rfl, Or.inr (Or.inr hx)⟩
        · exact ih.2 t ht
    · refine ⟨fun tail ht => ?_, ?_⟩
      · have hs : isSkip (ws ++ "\n".toList) = true := by
          rw [isSkip_append, hws]
          decide
        rw [List.append_assoc, firstVisible_skip hs]
        exact ih.1 tail ht
      · intro t ht
        simp only [List.cons_append, List.nil_append, List.mem_cons] at ht
        rcases ht with rfl | ht
        · exact ⟨_, rfl, Or.inr (Or.inl rfl)⟩
        · exact ih.2 t ht

theorem derives_multiline_comment {w : List Char} {ts : List Tree} :
    Derives grammar (.sym "multiline_comment") w ts ↔
      ∃ ws u ws2 us, isSkip ws = true ∧ isSkip ws2 = true ∧
        Derives grammar (.rep commentItem) u us ∧
        w = ws ++ ("##".toList ++ (u ++ (ws2 ++ "##".toList))) ∧
        ts = [.node "multiline_comment" (.leaf "##".toList :: (us ++ [.leaf "##".toList]))] := by
  rw [derives_sym_of lookup_multiline_comment]
  have hh : hidden "multiline_comment" = false := by decide
  simp only [hh]
  constructor
  · rintro ⟨us, hd, rfl⟩
    simp only [derives_seq_cons, derives_seq_nil, derives_str] at hd
    obtain ⟨u, v, us, vs, rfl, rfl, ⟨ws, hws, rfl, rfl⟩, u2, v2, us2, vs2, rfl, rfl,
      hc, u3, v3, us3, vs3, rfl, rfl, ⟨ws3, hws3, rfl, rfl⟩, rfl, rfl⟩ := hd
    exact ⟨ws, u2, ws3, us2, hws, hws3, hc, by simp, by simp⟩
  · rintro ⟨ws, u, ws2, us, hws, hws2, hc, rfl, rfl⟩
    refine ⟨.leaf "##".toList :: (us ++ [.leaf "##".toList]), ?_, ?_⟩
    · exact derives_seq_str hws (.seq_cons hc (derives_seq_str_last hws2))
    · rfl

/-- C4, the input of the specification: `## a # b ## ` is not accepted as a
multiline comment, because after the opening `##` the grammar admits only `#` lines and
newline tokens and the next visible character is `a`. -/
theorem multiline_comment_example_rejected :
    ¬ ∃ ts, Accepts grammar (.sym "multiline_comment") "## a # b ## ".toList ts := by
  rintro ⟨ts, u, ws, hws, hw, hd⟩
  obtain ⟨ws0, it, ws2, us, hws0, hws2, hit, rfl, _⟩ := derives_multiline_comment.mp hd
  have e : "## a # b ## ".toList = '#' :: ("#".toList ++ " a # b ## ".toList) := by decide
  have e2 : "##".toList = '#' :: "#".toList := by decide
  rw [e, e2] at hw
  have hw2 : ws0 ++ ('#' :: ("#".toList ++ (it ++ (ws2 ++ ('#' :: "#".toList) ++ ws)))) =
      '#' :: ("#".toList ++ " a # b ## ".toList) := by
    rw [hw]
    simp
  obtain ⟨_, h2⟩ := skip_nil_of_head hws0 (by decide) hw2
  simp only [List.cons.injEq, true_and] at h2
  have h3 := List.append_cancel_left h2
  have h4 := (commentItems_firstVisible hit).1 (ws2 ++ ('#' :: "#".toList) ++ ws) (by
    rw [List.append_assoc, firstVisible_skip hws2]
    exact firstVisible_cons (by decide) _)
  rw [h3] at h4
  exact absurd h4 (by decide)

/-! ## The start of an expression -/

theorem numberRE_head {x : List Char} (h : numberRE.accepts x = true) :
    ∃ d r, x = d :: r ∧ digit.mem d = true := by
  unfold numberRE at h
  obtain ⟨u, v, rfl, hu, _⟩ := (RE.accepts_seq _ _ _).mp h
  obtain ⟨hne, hall⟩ := (RE.accepts_plus_cls _ _).mp hu
  cases u with
  | nil => exact absurd rfl hne
  | cons d u => exact ⟨d, u ++ v, rfl, hall d (List.mem_cons_self _ _)⟩

theorem digit_not_whitespace {x : Char} (h : digit.mem x = true) : whitespace.mem x = false := by
  apply identCont_not_whitespace
  simp only [digit, identCont, CharClass.mem, List.any_cons, List.any_nil, Bool.or_false,
    Bool.false_xor, Bool.or_eq_true, decide_eq_true_eq] at h ⊢
  tauto

theorem digit_not_identStart {x : Char} (h : digit.mem x = true) : identStart.mem x = false := by
  have e : ('a'.toNat = 97 ∧ 'z'.toNat = 122 ∧ 'A'.toNat = 65 ∧ 'Z'.toNat = 90) ∧
      ('0'.toNat = 48 ∧ '9'.toNat = 57 ∧ '_'.toNat = 95) := by decide
  obtain ⟨⟨a1, a2, a3, a4⟩, a5, a6, a7⟩ := e
  simp only [digit, CharClass.mem, List.any_cons, List.any_nil, Bool.or_false,
    Bool.false_xor, decide_eq_true_eq, a5, a6] at h
  simp only [identStart, CharClass.mem, List.any_cons, List.any_nil, Bool.or_false,
    Bool.false_xor, Bool.or_eq_false_iff, decide_eq_false_iff_not, a1, a2, a3, a4, a7]
  omega

/-- Every text of an expression has a first visible character, and when that character
can start an identifier the character after it is not an opening parenthesis. -/
theorem expression_start {w : List Char} {ts : List Tree}
    (h : Derives grammar (.sym "_expression") w ts) :
    ∃ ws c rest, isSkip ws = true ∧ w = ws ++ c :: rest ∧ whitespace.mem c = false ∧
      (c = dquote ∨ c = squote ∨ digit.mem c = true ∨ identStart.mem c = true ∨ c = '(') ∧
      (identStart.mem c = true → rest.head? ≠ some '(') := by
  generalize hn : w.length = n
  induction n using Nat.strong_induction_on generalizing w ts with
  | _ n ih =>
    obtain ⟨k, hk, hd⟩ := derives_expression.mp h
    simp only [expressionKinds, List.mem_cons, List.mem_singleton, List.not_mem_nil,
      or_false] at hk
    rcases hk with rfl | rfl | rfl | rfl | rfl | rfl | rfl
    · rcases derives_string.mp hd with ⟨ws, u, ws2, us, hws, _, _, rfl, _⟩ |
        ⟨ws, u, ws2, us, hws, _, _, rfl, _⟩
      · exact ⟨ws, dquote, u ++ (ws2 ++ "\"".toList), hws, rfl, by decide, Or.inl rfl,
          fun hc => absurd hc (by decide)⟩
      · exact ⟨ws, squote, u ++ (ws2 ++ "'".toList), hws, rfl, by decide, Or.inr (Or.inl rfl),
          fun hc => absurd hc (by decide)⟩
    · obtain ⟨ws, x, hws, hx, rfl, _⟩ := derives_number.mp hd
      obtain ⟨d, r, rfl, hdg⟩ := numberRE_head hx
      exact ⟨ws, d, r, hws, rfl, digit_not_whitespace hdg, Or.inr (Or.inr (Or.inl hdg)),
        fun hc => absurd hc (by simp [digit_not_identStart hdg])⟩
    · obtain ⟨ws, b, hws, hb, rfl, _⟩ := derives_boolean.mp hd
      rcases hb with rfl | rfl
      · exact ⟨ws, 't', "rue".toList, hws, rfl, by decide,
          Or.inr (Or.inr (Or.inr (Or.inl (by decide)))), fun _ => by decide⟩
      · exact ⟨ws, 'f', "alse".toList, hws, rfl, by decide,
          Or.inr (Or.inr (Or.inr (Or.inl (by decide)))), fun _ => by decide⟩
    · obtain ⟨ws, x, hws, hx, rfl, _⟩ := derives_identifier.mp hd
      obtain ⟨c, cs, rfl, hc, hcs⟩ := (identifierRE_accepts x).mp hx
      refine ⟨ws, c, cs, hws, rfl, identStart_not_whitespace hc,
        Or.inr (Or.inr (Or.inr (Or.inl hc))), fun _ hh => ?_⟩
      cases cs with
      | nil => simp at hh
      | cons d cs =>
        simp only [List.head?_cons, Option.some.injEq] at hh
        have := hcs d (List.mem_cons_self _ _)
        rw [hh] at this
        exact absurd this (by decide)
    · obtain ⟨us, hr, _⟩ := (derives_sym_of lookup_function_call).mp hd
      obtain ⟨u, v, us1, vs1, rfl, _, h1, _⟩ := derives_seq_cons.mp hr
      obtain ⟨ws, hws, rfl, _⟩ := derives_str.mp h1
      exact ⟨ws, 'c', "ast".toList ++ v, hws, by simp, by decide,
        Or.inr (Or.inr (Or.inr (Or.inl (by decide)))), fun _ => by simp⟩
    · obtain ⟨us, hr, _⟩ := (derives_sym_of lookup_parenthesized_expression).mp hd
      obtain ⟨u, v, us1, vs1, rfl, _, h1, _⟩ := derives_seq_cons.mp hr
      obtain ⟨ws, hws, rfl, _⟩ := derives_str.mp h1
      exact ⟨ws, '(', v, hws, by simp, by decide,
        Or.inr (Or.inr (Or.inr (Or.inr rfl))), fun hc => absurd hc (by decide)⟩
    · obtain ⟨op, wl, ws2, wr, l, r, hop, hws2, hw, hl, hr, _⟩ :=
        derives_binary_expression.mp hd
      have hop0 : ∃ o os, op.toList = o :: os ∧ o ≠ '(' ∧ whitespace.mem o = false := by
        simp only [specOperators, List.mem_cons, List.mem_singleton, List.not_mem_nil,
          or_false] at hop
        rcases hop with rfl | rfl | rfl | rfl | rfl | rfl | rfl | rfl | rfl | rfl <;>
          exact ⟨_, _, rfl, by decide, by decide⟩
      obtain ⟨o, os, hoe, ho1, ho2⟩ := hop0
      obtain ⟨ws, c, rest, hws, hwl, hc, hstart, hnext⟩ :=
        ih wl.length (by subst hw; subst hn; simp only [List.length_append, hoe,
          List.length_cons]; omega) hl rfl
      refine ⟨ws, c, rest ++ (ws2 ++ op.toList ++ wr), hws, by rw [hw, hwl]; simp, hc, hstart,
        fun hi hh => ?_⟩
      cases rest with
      | cons d rest => exact hnext hi (by simpa using hh)
      | nil =>
        rw [hoe] at hh
        cases ws2 with
        | nil =>
          simp only [List.nil_append, List.cons_append, List.head?_cons,
            Option.some.injEq] at hh
          exact ho1 hh
        | cons e ws2 =>
          simp only [List.nil_append, List.cons_append, List.head?_cons,
            Option.some.injEq] at hh
          rw [isSkip_cons, hh, Bool.and_eq_true] at hws2
          exact absurd hws2.1 (by decide)

/-! ## Function calls -/

/-- No expression, even followed by skipped text, is an identifier-like start directly
followed by an opening parenthesis. -/
theorem not_call_text {u ws : List Char} (pre tail : List Char) {c : Char} {ts : List Tree}
    (hd : Derives grammar (.sym "_expression") u ts) (hws : isSkip ws = true)
    (hpre : isSkip pre = true) (hc : identStart.mem c = true)
    (h : u ++ ws = pre ++ c :: '(' :: tail) : False := by
  obtain ⟨ws0, d, rest, hws0, rfl, hd0, _, hnext⟩ := expression_start hd
  have h2 : ws0 ++ d :: (rest ++ ws) = pre ++ c :: '(' :: tail := by simpa using h
  obtain ⟨_, rfl, h3⟩ := skip_unique hws0 hpre hd0 (identStart_not_whitespace hc) h2
  cases rest with
  | nil =>
    simp only [List.nil_append] at h3
    rw [h3, isSkip_cons, Bool.and_eq_true] at hws
    exact absurd hws.1 (by decide)
  | cons e rest =>
    simp only [List.cons_append, List.cons.injEq] at h3
    exact hnext hc (by simp [h3.1])

theorem variable_declaration_inv {w : List Char} {ts : List Tree}
    (h : Derives grammar (.sym "variable_declaration") w ts) :
    ∃ ws1 ws2 ws3 x wv v, isSkip ws1 = true ∧ isSkip ws2 = true ∧ isSkip ws3 = true ∧
      identifierRE.accepts x = true ∧ Derives grammar (.sym "_expression") wv v ∧
      w = ws1 ++ ("conjure".toList ++ ((ws2 ++ x) ++ (ws3 ++ ("=".toList ++ wv)))) ∧
      ts = [.node "variable_declaration" (.leaf "conjure".toList ::
        (Tree.field "name" (identifierTree x) ::
          (.leaf "=".toList :: v.map (Tree.field "value"))))] := by
  obtain ⟨us, hr, hts⟩ := (derives_sym_of lookup_variable_declaration).mp h
  simp only [derives_seq_cons, derives_seq_nil, derives_str, derives_field,
    derives_identifier] at hr
  obtain ⟨u1, v1, us1, vs1, rfl, rfl, ⟨ws1, hws1, rfl, rfl⟩, u2, v2, us2, vs2, rfl, rfl,
    ⟨n, ⟨ws2, x, hws2, hx, rfl, rfl⟩, rfl⟩, u3, v3, us3, vs3, rfl, rfl,
    ⟨ws3, hws3, rfl, rfl⟩, u4, v4, us4, vs4, rfl, rfl, ⟨v, hv, rfl⟩, rfl, rfl⟩ := hr
  refine ⟨ws1, ws2, ws3, x, u4, v, hws1, hws2, hws3, hx, hv, by simp, ?_⟩
  have hh : hidden "variable_declaration" = false := by decide
  rw [hts, hh]
  simp

/-- Identifier characters in front of a character that cannot continue an identifier:
there are none. -/
theorem ident_tail_split {cs y z : List Char} {e : Char}
    (hcs : ∀ d ∈ cs, identCont.mem d = true) (he : identCont.mem e = false)
    (h : cs ++ y = e :: z) : cs = [] ∧ y = e :: z := by
  cases cs with
  | nil => exact ⟨rfl, h⟩
  | cons d cs =>
    simp only [List.cons_append, List.cons.injEq] at h
    have := hcs d (List.mem_cons_self _ _)
    rw [h.1, he] at this
    exact absurd this (by simp)

/-- C5, the input of the claim: without the keyword `cast` the text `f(1)` is no
expression at all, and `conjure x = f(1)` is no variable declaration. -/
theorem call_without_cast_rejected :
    (¬ ∃ ts, Accepts grammar (.sym "_expression") "f(1)".toList ts) ∧
    (¬ ∃ ts, Accepts grammar (.sym "function_call") "f(1)".toList ts) ∧
    (¬ ∃ ts, Accepts grammar (.sym "variable_declaration") "conjure x = f(1)".toList ts) := by
  refine ⟨?_, ?_, ?_⟩
  · rintro ⟨ts, u, ws, hws, hw, hd⟩
    exact not_call_text [] "1)".toList hd hws rfl
      (by decide : identStart.mem 'f' = true) hw.symm
  · rintro ⟨ts, u, ws, hws, hw, hd⟩
    obtain ⟨us, hr, _⟩ := (derives_sym_of lookup_function_call).mp hd
    obtain ⟨u1, v1, us1, vs1, rfl, _, h1, _⟩ := derives_seq_cons.mp hr
    obtain ⟨ws1, hws1, rfl, _⟩ := derives_str.mp h1
    have e : "f(1)".toList = 'f' :: "(1)".toList := by decide
    have e2 : "cast".toList = 'c' :: "ast".toList := by decide
    rw [e, e2] at hw
    have hw2 : ws1 ++ ('c' :: ("ast".toList ++ v1 ++ ws)) = 'f' :: "(1)".toList := by
      rw [hw]
      simp
    obtain ⟨_, h2⟩ := skip_nil_of_head hws1 (by decide) hw2
    simp only [List.cons.injEq] at h2
    exact absurd h2.1 (by decide)
  · rintro ⟨ts, u, ws, hws, hw, hd⟩
    obtain ⟨ws1, ws2, ws3, x, wv, v, hws1, hws2, hws3, hx, hv, rfl, _⟩ :=
      variable_declaration_inv hd
    obtain ⟨c, cs, rfl, hc, hcs⟩ := (identifierRE_accepts x).mp hx
    have e : "conjure x = f(1)".toList = 'c' :: ("onjure".toList ++ " x = f(1)".toList) := by
      decide
    have e2 : "conjure".toList = 'c' :: "onjure".toList := by decide
    have e3 : "=".toList = ['='] := by decide
    rw [e, e2, e3] at hw
    have hw2 : ws1 ++ ('c' :: ("onjure".toList ++
        (ws2 ++ c :: (cs ++ (ws3 ++ '=' :: (wv ++ ws)))))) =
        'c' :: ("onjure".toList ++ " x = f(1)".toList) := by
      rw [hw]
      simp
    obtain ⟨_, h2⟩ := skip_nil_of_head hws1 (by decide) hw2
    simp only [List.cons.injEq, true_and] at h2
    have h3 := List.append_cancel_left h2
    have e4 : " x = f(1)".toList = " ".toList ++ 'x' :: " = f(1)".toList := by decide
    rw [e4] at h3
    obtain ⟨_, _, h4⟩ := skip_unique hws2 (by decide) (identStart_not_whitespace hc)
      (by decide) h3
    have e5 : " = f(1)".toList = ' ' :: ("= f(1)".toList) := by decide
    rw [e5] at h4
    obtain ⟨_, h5⟩ := ident_tail_split hcs (by decide) h4
    have e6 : ' ' :: "= f(1)".toList = " ".toList ++ '=' :: " f(1)".toList := by decide
    rw [e6] at h5
    obtain ⟨_, _, h6⟩ := skip_unique hws3 (by decide) (by decide) (by decide) h5
    exact not_call_text " ".toList "1)".toList hv hws (by decide)
      (by decide : identStart.mem 'f' = true) h6

theorem lookup_argument_list :
    grammar.lookup "argument_list" = some (.seq [
      .sym "_expression", .rep (.seq [.str ",", .sym "_expression"])]) :=
  rfl

theorem derives_rest_args (args : List (List Char × Tree))
    (hargs : ∀ a ∈ args, Derives grammar (.sym "_expression") a.1 [a.2]) :
    Derives grammar (.rep (.seq [.str ",", .sym "_expression"]))
      (restArgsText (args.map Prod.fst)) (restArgsTrees (args.map Prod.snd)) := by
  induction args with
  | nil => exact .rep_nil
  | cons a as ih =>
    have ha := hargs a (List.mem_cons_self _ _)
    have item : Derives grammar (.seq [.str ",", .sym "_expression"])
        ([] ++ (",".toList ++ a.1)) (.leaf ",".toList :: [a.2]) :=
      derives_seq_str rfl (derives_seq_one.mpr ha)
    exact derives_cast
      (.rep_cons item (ih fun b hb => hargs b (List.mem_cons_of_mem _ hb)))
      (by simp [restArgsText]) (by simp [restArgsTrees])

theorem derives_optional_arguments (args : List (List Char × Tree))
    (hargs : ∀ a ∈ args, Derives grammar (.sym "_expression") a.1 [a.2]) :
    Derives grammar (.optional (.sym "argument_list"))
      (argsText (args.map Prod.fst)) (argumentTrees (args.map Prod.snd)) := by
  cases args with
  | nil => exact .optional_none
  | cons a as =>
    have ha := hargs a (List.mem_cons_self _ _)
    have hrest := derives_rest_args as fun b hb => hargs b (List.mem_cons_of_mem _ hb)
    refine .optional_some ((derives_sym_of lookup_argument_list).mpr
      ⟨a.2 :: restArgsTrees (as.map Prod.snd), ?_, rfl⟩)
    exact derives_cast (.seq_cons ha (derives_seq_one.mpr hrest)) rfl rfl

/-- A function call from its parts. -/
theorem derives_call (ws f : List Char) (args : List (List Char × Tree))
    (hws : isSkip ws = true) (hf : identifierRE.accepts f = true)
    (hargs : ∀ a ∈ args, Derives grammar (.sym "_expression") a.1 [a.2]) :
    Derives grammar (.sym "function_call")
      (ws ++ ("cast".toList ++ ((" ".toList ++ f) ++
        ("(".toList ++ (argsText (args.map Prod.fst) ++ ")".toList)))))
      [callTree f (args.map Prod.snd)] := by
  refine (derives_sym_of lookup_function_call).mpr ⟨_, ?_, rfl⟩
  refine derives_seq_str hws (.seq_cons
    (.field (derives_identifier.mpr ⟨" ".toList, f, by decide, hf, rfl, rfl⟩)) ?_)
  exact derives_cast (derives_seq_str (rfl : isSkip [] = true)
    (.seq_cons (derives_optional_arguments args hargs)
      (derives_seq_str_last (rfl : isSkip [] = true)))) rfl rfl

/-- A function call starts with the keyword `cast`. -/
theorem function_call_starts_with_cast {w : List Char} {ts : List Tree}
    (h : Derives grammar (.sym "function_call") w ts) :
    ∃ ws rest children, isSkip ws = true ∧ w = ws ++ ("cast".toList ++ rest) ∧
      ts = [.node "function_call" (.leaf "cast".toList :: children)] := by
  obtain ⟨us, hr, hts⟩ := (derives_sym_of lookup_function_call).mp h
  obtain ⟨u, v, us1, vs1, rfl, rfl, h1, _⟩ := derives_seq_cons.mp hr
  obtain ⟨ws, hws, rfl, rfl⟩ := derives_str.mp h1
  have hh : hidden "function_call" = false := by decide
  rw [hh] at hts
  exact ⟨ws, v, vs1, hws, by simp, by simpa using hts⟩

/-- C5, amended: the alternatives of `_expression` are string, number, boolean,
identifier, function call, parenthesized expression and binary expression; a function call
starts with the keyword `cast`; and for every identifier `f` and every list of expressions
`args`, the text `cast f(args)` with the arguments separated by commas is an expression,
with the tree of a function call named `f` over the trees of the arguments. -/
theorem cast_call_accepted (ws f : List Char) (args : List (List Char × Tree))
    (hws : isSkip ws = true) (hf : identifierRE.accepts f = true)
    (hargs : ∀ a ∈ args, Derives grammar (.sym "_expression") a.1 [a.2]) :
    Derives grammar (.sym "_expression")
      (ws ++ ("cast".toList ++ ((" ".toList ++ f) ++
        ("(".toList ++ (argsText (args.map Prod.fst) ++ ")".toList)))))
      [callTree f (args.map Prod.snd)] ∧
    (∀ w ts, Derives grammar (.sym "_expression") w ts ↔
      ∃ k, k ∈ ["string", "number", "boolean", "identifier", "function_call",
        "parenthesized_expression", "binary_expression"] ∧ Derives grammar (.sym k) w ts) ∧
    (∀ w ts, Derives grammar (.sym "function_call") w ts →
      ∃ ws rest children, isSkip ws = true ∧ w = ws ++ ("cast".toList ++ rest) ∧
        ts = [.node "function_call" (.leaf "cast".toList :: children)]) := by
  refine ⟨?_, fun w ts => derives_expression, fun w ts h => function_call_starts_with_cast h⟩
  exact derives_expression.mpr ⟨"function_call", by simp [expressionKinds],
    derives_call ws f args hws hf hargs⟩

/-- C5, amended, at `conjure x = cast f(1)` and at `cast f()`. -/
theorem cast_call_accepted_witness :
    Derives grammar (.sym "variable_declaration") "conjure x = cast f(1)".toList
      [.node "variable_declaration" [.leaf "conjure".toList,
        .field "name" (identifierTree "x".toList),
        .leaf "=".toList,
        .field "value" (.node "function_call" [.leaf "cast".toList,
          .field "name" (identifierTree "f".toList),
          .leaf "(".toList,
          .node "argument_list" [numberTree "1".toList],
          .leaf ")".toList])]] ∧
    Derives grammar (.sym "_expression") "cast f()".toList
      [.node "function_call" [.leaf "cast".toList,
        .field "name" (identifierTree "f".toList), .leaf "(".toList, .leaf ")".toList]] := by
  have T := (cast_call_accepted " ".toList "f".toList [("1".toList, numberTree "1".toList)]
    (by decide) (by decide) (by
      intro a ha
      simp only [List.mem_singleton] at ha
      subst ha
      exact derives_number_expression [] _ rfl (by decide))).1
  have U := (cast_call_accepted [] "f".toList [] rfl (by decide) (by simp)).1
  refine ⟨?_, derives_cast U (by decide) rfl⟩
  exact derives_cast
    (derives_variable_declaration [] " ".toList " ".toList "x".toList
      (by decide) (by decide) (by decide) (by decide) T)
    (by decide) rfl

/-! ## Statements -/

theorem lookup_definition :
    grammar.lookup "_definition" = some (.choice (definitionKinds.map Rule.sym)) := rfl

theorem lookup_output :
    grammar.lookup "output" = some (.seq [.str "incant", .field "message" (.sym "string")]) :=
  rfl

theorem lookup_block :
    grammar.lookup "block" = some (.seq [
      .str "\x7b", .rep (.sym "_definition"), .str "\x7d"]) :=
  rfl

theorem lookup_if_statement :
    grammar.lookup "if_statement" = some (.seq [
      .str "if",
      .field "condition" (.sym "_expression"),
      .field "consequence" (.sym "block"),
      .optional (.seq [
        .str "else",
        .field "alternative" (.choice [.sym "block", .sym "if_statement"])])]) :=
  rfl

theorem derives_definition {w : List Char} {ts : List Tree} :
    Derives grammar (.sym "_definition") w ts ↔
      ∃ k, k ∈ definitionKinds ∧ Derives grammar (.sym k) w ts := by
  rw [derives_sym_of lookup_definition]
  have hh : hidden "_definition" = true := by decide
  simp only [hh, ↓reduceIte, derives_choice, List.mem_map]
  constructor
  · rintro ⟨us, ⟨r, ⟨k, hk, rfl⟩, hd⟩, rfl⟩
    exact ⟨k, hk, hd⟩
  · rintro ⟨k, hk, hd⟩
    exact ⟨ts, ⟨_, ⟨k, hk, rfl⟩, hd⟩, rfl⟩

/-- A literal run alone is a content of a double-quoted string. -/
theorem doubleContent_literal {u : List Char} (h : literalRunRE.accepts u = true) :
    Derives grammar doubleContent u [.leaf u] :=
  derives_cast (.rep_cons (.choice (List.mem_cons_self _ _)
    (derives_string_content.mpr (Or.inl ⟨h, rfl⟩))) .rep_nil) (by simp) rfl

/-- A block that holds the one statement `incant "s"`. -/
theorem derives_incant_block (s : List Char) (hs : literalRunRE.accepts s = true) :
    Derives grammar (.sym "block")
      (" ".toList ++ ("\x7b".toList ++ ((" ".toList ++ ("incant".toList ++
        (" ".toList ++ ("\"".toList ++ (s ++ ([] ++ "\"".toList)))))) ++
          (" ".toList ++ "\x7d".toList))))
      [blockTree [outputTree (stringTree "\"" [.leaf s])]] := by
  have hstr : Derives grammar (.sym "string")
      (" ".toList ++ ("\"".toList ++ (s ++ ([] ++ "\"".toList))))
      [stringTree "\"" [.leaf s]] :=
    derives_string.mpr (Or.inl ⟨" ".toList, s, [], _, by decide, rfl,
      doubleContent_literal hs, rfl, rfl⟩)
  have hout : Derives grammar (.sym "output")
      (" ".toList ++ ("incant".toList ++ (" ".toList ++ ("\"".toList ++
        (s ++ ([] ++ "\"".toList))))))
      [outputTree (stringTree "\"" [.leaf s])] :=
    (derives_sym_of lookup_output).mpr ⟨_, derives_seq_str (by decide)
      (derives_seq_one.mpr (.field hstr)), rfl⟩
  have hdef := derives_definition.mpr ⟨"output", by simp [definitionKinds], hout⟩
  refine (derives_sym_of lookup_block).mpr
    ⟨Tree.leaf "\x7b".toList :: ([outputTree (stringTree "\"" [.leaf s])] ++
      [Tree.leaf "\x7d".toList]), ?_, ?_⟩
  · exact derives_seq_str (by decide) (.seq_cons
      (derives_cast (.rep_cons hdef .rep_nil) (List.append_nil _) rfl)
      (derives_seq_str_last (by decide)))
  · rfl

/-- An `if` statement with an `else` branch from its parts. -/
theorem derives_if_else {wc wb wa : List Char} {c b a : Tree} (ws : List Char) (k : String)
    (hws : isSkip ws = true) (hk : k = "block" ∨ k = "if_statement")
    (hc : Derives grammar (.sym "_expression") wc [c])
    (hb : Derives grammar (.sym "block") wb [b])
    (ha : Derives grammar (.sym k) wa [a]) :
    Derives grammar (.sym "if_statement")
      (ws ++ ("if".toList ++ (wc ++ (wb ++ (" ".toList ++ ("else".toList ++ wa))))))
      [ifElseTree c b a] := by
  refine (derives_sym_of lookup_if_statement).mpr ⟨_, ?_, rfl⟩
  refine derives_seq_str hws (.seq_cons (.field hc) (.seq_cons (.field hb)
    (derives_seq_one.mpr (.optional_some (derives_seq_str (by decide)
      (derives_seq_one.mpr (.field (.choice ?_ ha))))))))
  rcases hk with rfl | rfl <;> simp

/-- The shape of every `if` statement: the `alternative` field holds a block or an `if`
statement. -/
theorem if_statement_alternative {w : List Char} {ts : List Tree}
    (h : Derives grammar (.sym "if_statement") w ts) :
    ∃ children, ts = [.node "if_statement" children] ∧
      ∀ t, Tree.field "alternative" t ∈ children →
        ∃ k cs, (k = "block" ∨ k = "if_statement") ∧ t = .node k cs := by
  obtain ⟨us, hr, hts⟩ := (derives_sym_of lookup_if_statement).mp h
  have hh : hidden "if_statement" = false := by decide
  rw [hh] at hts
  refine ⟨us, by simpa using hts, ?_⟩
  simp only [derives_seq_cons, derives_seq_nil, derives_str, derives_field, derives_optional,
    derives_choice] at hr
  obtain ⟨u1, v1, us1, vs1, _, rfl, ⟨ws1, _, _, rfl⟩, u2, v2, us2, vs2, _, rfl,
    ⟨c, _, rfl⟩, u3, v3, us3, vs3, _, rfl, ⟨b, _, rfl⟩, u4, v4, us4, vs4, _, rfl, hopt,
    _, rfl⟩ := hr
  intro t ht
  simp only [List.append_nil, List.cons_append, List.nil_append, List.mem_cons,
    List.mem_append, List.mem_map, Tree.field.injEq, reduceCtorEq, false_or] at ht
  rcases ht with ⟨x, _, hx, _⟩ | ⟨x, _, hx, _⟩ | ht
  · exact absurd hx (by decide)
  · exact absurd hx (by decide)
  · rcases hopt with ⟨_, rfl⟩ | ⟨u5, v5, us5, vs5, _, rfl, ⟨ws5, _, _, rfl⟩, u6, v6, us6, vs6,
      _, rfl, ⟨alt, ⟨r, hr, hd⟩, rfl⟩, _, rfl⟩
    · simp at ht
    · simp only [List.append_nil, List.cons_append, List.nil_append, List.mem_cons,
        List.mem_map, Tree.field.injEq, reduceCtorEq, false_or, true_and] at ht
      obtain ⟨x, hx, rfl⟩ := ht
      simp only [List.mem_cons, List.mem_singleton, List.not_mem_nil, or_false] at hr
      rcases hr with rfl | rfl
      · obtain ⟨_, cs, _, _, rfl⟩ := derives_sym_node (by decide) hd
        simp only [List.mem_singleton] at hx
        exact ⟨"block", cs, Or.inl rfl, hx⟩
      · obtain ⟨_, cs, _, _, rfl⟩ := derives_sym_node (by decide) hd
        simp only [List.mem_singleton] at hx
        exact ⟨"if_statement", cs, Or.inr rfl, hx⟩

/-- C6. In every `if` statement the `alternative` field, when present, holds a block or
an `if` statement; and the chain
`if a > b { incant "big" } else if a == b { incant "eq" } else { incant "small" }` is
derived as an `if` statement whose alternative is an `if` statement whose own alternative
is a block. -/
theorem else_if_nesting :
    (∀ w ts, Derives grammar (.sym "if_statement") w ts →
      ∃ children, ts = [.node "if_statement" children] ∧
        ∀ t, Tree.field "alternative" t ∈ children →
          ∃ k cs, (k = "block" ∨ k = "if_statement") ∧ t = .node k cs) ∧
    Derives grammar (.sym "if_statement")
      ("if a > b \x7b incant \"big\" \x7d else if a == b \x7b incant \"eq\" \x7d " ++
        "else \x7b incant \"small\" \x7d").toList
      [.node "if_statement" [
        .leaf "if".toList,
        .field "condition" (binaryTree [identifierTree "a".toList] ">"
          [identifierTree "b".toList]),
        .field "consequence" (blockTree [outputTree (stringTree "\"" [.leaf "big".toList])]),
        .leaf "else".toList,
        .field "alternative" (.node "if_statement" [
          .leaf "if".toList,
          .field "condition" (binaryTree [identifierTree "a".toList] "=="
            [identifierTree "b".toList]),
          .field "consequence" (blockTree [outputTree (stringTree "\"" [.leaf "eq".toList])]),
          .leaf "else".toList,
          .field "alternative"
            (blockTree [outputTree (stringTree "\"" [.leaf "small".toList])])])]] := by
  refine ⟨fun w ts h => if_statement_alternative h, ?_⟩
  have ha := derives_identifier_expression " ".toList "a".toList (by decide) (by decide)
  have hb := derives_identifier_expression " ".toList "b".toList (by decide) (by decide)
  have c1 := derives_binary ">" " ".toList (by decide) (by decide) ha hb
  have c2 := derives_binary "==" " ".toList (by decide) (by decide) ha hb
  have inner := derives_if_else " ".toList "block" (by decide) (Or.inl rfl) c2
    (derives_incant_block "eq".toList (by decide))
    (derives_incant_block "small".toList (by decide))
  have outer := derives_if_else [] "if_statement" rfl (Or.inr rfl) c1
    (derives_incant_block "big".toList (by decide)) inner
  exact derives_cast outer (by decide) rfl

/-! ## Interpolated strings -/

theorem doubleItem_literal (u : List Char) (h : literalRunRE.accepts u = true) :
    Derives grammar doubleItem u [.leaf u] :=
  .choice (List.mem_cons_self _ _) (derives_string_content.mpr (Or.inl ⟨h, rfl⟩))

theorem doubleItem_bare (x : List Char) (h : identifierRE.accepts x = true) :
    Derives grammar doubleItem ([] ++ ("$".toList ++ ([] ++ x))) [bareInterpolation x] :=
  .choice (List.mem_cons_of_mem _ (List.mem_cons_self _ _))
    (derives_string_interpolation.mpr (Or.inl ⟨[], [], x, rfl, rfl, h, rfl, rfl⟩))

theorem doubleItem_braced (x : List Char) (h : identifierRE.accepts x = true) :
    Derives grammar doubleItem
      ([] ++ ("$\x7b".toList ++ ([] ++ (x ++ ([] ++ "\x7d".toList)))))
      [bracedInterpolation x] :=
  .choice (List.mem_cons_of_mem _ (List.mem_cons_self _ _))
    (derives_string_interpolation.mpr (Or.inr ⟨[], [], [], x, rfl, rfl, rfl, h, rfl, rfl⟩))

/-! ## Escape sequences -/

theorem escapesOK_cons_clean {c : Char} (hc : c ≠ backslash) (y : List Char) :
    escapesOK (c :: y) = escapesOK y := by
  cases y with
  | nil => simp [escapesOK, hc]
  | cons d rest => simp [escapesOK, hc]

theorem escapesOK_append_clean {a : List Char} (ha : ∀ c ∈ a, c ≠ backslash) (y : List Char) :
    escapesOK (a ++ y) = escapesOK y := by
  induction a with
  | nil => rfl
  | cons c a ih =>
    rw [List.cons_append, escapesOK_cons_clean (ha c (List.mem_cons_self _ _))]
    exact ih fun d hd => ha d (List.mem_cons_of_mem _ hd)

theorem escapesOK_escape {c : Char} (hc : c ∈ specEscapable) (y : List Char) :
    escapesOK ([backslash, c] ++ y) = escapesOK y := by
  simp [escapesOK, hc]

theorem escapesOK_bad {pre post : List Char} {c : Char} (hpre : ∀ d ∈ pre, d ≠ backslash)
    (hc : c ∉ specEscapable) : escapesOK (pre ++ backslash :: c :: post) = false := by
  rw [escapesOK_append_clean hpre]
  simp [escapesOK, hc]

theorem skip_clean {ws : List Char} (hws : isSkip ws = true) : ∀ c ∈ ws, c ≠ backslash := by
  intro c hc hcb
  have := List.all_eq_true.mp hws c hc
  rw [hcb] at this
  exact absurd this (by decide)

theorem identifier_clean {x : List Char} (hx : identifierRE.accepts x = true) :
    ∀ c ∈ x, c ≠ backslash := by
  obtain ⟨d, ds, rfl, hd, hds⟩ := (identifierRE_accepts x).mp hx
  intro c hc hcb
  have hcont : identCont.mem c = true := by
    rcases List.mem_cons.mp hc with rfl | hc
    · exact identCont_of_identStart hd
    · exact hds c hc
  rw [hcb] at hcont
  exact absurd hcont (by decide)

/-- An item of string content keeps the scan of escapes: a literal run and an
interpolation hold no backslash, and an escape sequence is a backslash and a character that
may be escaped. -/
theorem doubleItem_escapesOK {a : List Char} {as : List Tree}
    (h : Derives grammar doubleItem a as) (y : List Char) :
    escapesOK (a ++ y) = escapesOK y := by
  obtain ⟨r, hr, hd⟩ := derives_choice.mp h
  simp only [List.mem_cons, List.mem_singleton, List.not_mem_nil, or_false] at hr
  rcases hr with rfl | rfl
  · rcases derives_string_content.mp hd with ⟨hlit, _⟩ | ⟨c, hc, rfl, _⟩
    · obtain ⟨_, hall⟩ := (literalRunRE_accepts a).mp hlit
      exact escapesOK_append_clean (fun c hc => (hall c hc).2.1) y
    · exact escapesOK_escape hc y
  · have hd1 : ∀ c ∈ "$".toList, c ≠ backslash := by decide
    have hd2 : ∀ c ∈ "$\x7b".toList, c ≠ backslash := by decide
    have hd3 : ∀ c ∈ "\x7d".toList, c ≠ backslash := by decide
    rcases derives_string_interpolation.mp hd with ⟨ws, ws2, x, hws, hws2, hx, rfl, _⟩ |
      ⟨ws, ws2, ws3, x, hws, hws2, hws3, hx, rfl, _⟩
    · apply escapesOK_append_clean
      intro c hc
      simp only [List.mem_append] at hc
      rcases hc with hc | hc | hc | hc
      · exact skip_clean hws c hc
      · exact hd1 c hc
      · exact skip_clean hws2 c hc
      · exact identifier_clean hx c hc
    · apply escapesOK_append_clean
      intro c hc
      simp only [List.mem_append] at hc
      rcases hc with hc | hc | hc | hc | hc | hc
      · exact skip_clean hws c hc
      · exact hd2 c hc
      · exact skip_clean hws2 c hc
      · exact identifier_clean hx c hc
      · exact skip_clean hws3 c hc
      · exact hd3 c hc

theorem doubleContent_escapesOK {u : List Char} {us : List Tree}
    (h : Derives grammar doubleContent u us) :
    ∀ y, escapesOK (u ++ y) = escapesOK y := by
  refine rep_induction (P := fun u _ => ∀ y, escapesOK (u ++ y) = escapesOK y) ?_ ?_ h
  · intro y
    rfl
  · intro a v as vs ha _ ih y
    rw [List.append_assoc, doubleItem_escapesOK ha, ih]

theorem singleContent_escapesOK {u : List Char} {us : List Tree}
    (h : Derives grammar singleContent u us) :
    ∀ y, escapesOK (u ++ y) = escapesOK y := by
  refine rep_induction (P := fun u _ => ∀ y, escapesOK (u ++ y) = escapesOK y) ?_ ?_ h
  · intro y
    rfl
  · intro a v as vs ha _ ih y
    rw [List.append_assoc,
      doubleItem_escapesOK (.choice (List.mem_cons_self _ _) ha : Derives grammar doubleItem a as),
      ih]

/-- In every text of the string rule each backslash starts an escape sequence. -/
theorem string_escapesOK {w : List Char} {ts : List Tree}
    (h : Derives grammar (.sym "string") w ts) : escapesOK w = true := by
  rcases derives_string.mp h with ⟨ws, u, ws2, us, hws, hws2, hc, rfl, _⟩ |
    ⟨ws, u, ws2, us, hws, hws2, hc, rfl, _⟩
  · rw [escapesOK_append_clean (skip_clean hws),
      escapesOK_append_clean (by decide : ∀ c ∈ "\"".toList, c ≠ backslash),
      doubleContent_escapesOK hc, escapesOK_append_clean (skip_clean hws2)]
    decide
  · rw [escapesOK_append_clean (skip_clean hws),
      escapesOK_append_clean (by decide : ∀ c ∈ "'".toList, c ≠ backslash),
      singleContent_escapesOK hc, escapesOK_append_clean (skip_clean hws2)]
    decide

/-- C8. The token `escape_sequence` derives exactly the two-character texts of a
backslash followed by one of the ten characters `\`, `'`, `"`, `$`, `n`, `t`, `r`, `0`,
`{`, `}`; a backslash followed by any other character is not an escape sequence; a literal
run holds no backslash; and the string rule rejects every text in which a backslash that
starts an escape is followed by another character: in the texts it derives each backslash,
scanning from the left, is followed by one of the ten. -/
theorem escape_sequence_exact :
    (∀ w, (∃ ts, Derives grammar (.sym "escape_sequence") w ts) ↔
      ∃ c, c ∈ specEscapable ∧ w = [backslash, c]) ∧
    (specEscapable.length = 10 ∧ specEscapable.Nodup) ∧
    (∀ c, c ∉ specEscapable →
      ¬ ∃ ts, Derives grammar (.sym "escape_sequence") [backslash, c] ts) ∧
    (∀ x, literalRunRE.accepts x = true → backslash ∉ x) ∧
    (∀ w ts, Derives grammar (.sym "string") w ts → escapesOK w = true) ∧
    (∀ pre post c, backslash ∉ pre → c ∉ specEscapable →
      ¬ ∃ ts, Derives grammar (.sym "string") (pre ++ backslash :: c :: post) ts) ∧
    (¬ ∃ ts, Derives grammar (.sym "string") "\"a\\qb\"".toList ts) := by
  refine ⟨?_, ⟨rfl, by decide⟩, ?_, ?_, fun w ts h => string_escapesOK h, ?_, ?_⟩
  · intro w
    constructor
    · rintro ⟨ts, h⟩
      obtain ⟨c, hc, hw, _⟩ := derives_escape_sequence.mp h
      exact ⟨c, hc, hw⟩
    · rintro ⟨c, hc, hw⟩
      exact ⟨_, derives_escape_sequence.mpr ⟨c, hc, hw, rfl⟩⟩
  · rintro c hc ⟨ts, h⟩
    obtain ⟨d, hd, hw, _⟩ := derives_escape_sequence.mp h
    simp only [List.cons.injEq, and_true, true_and] at hw
    exact hc (hw ▸ hd)
  · intro x hx hb
    exact ((literalRunRE_accepts x).mp hx).2 backslash hb |>.2.1 rfl
  · rintro pre post c hpre hc ⟨ts, h⟩
    have h1 := string_escapesOK h
    rw [escapesOK_bad (fun d hd hdb => hpre (hdb ▸ hd)) hc] at h1
    exact absurd h1 (by simp)
  · rintro ⟨ts, h⟩
    have h1 := string_escapesOK h
    exact absurd h1 (by decide)

/-! ## Interpolations -/

/-- An accepted interpolation that opens with `${` is the braced form: an identifier and a
closing brace follow, with skipped text at most between the tokens. -/
theorem braced_interpolation_inv {rest : List Char} {ts : List Tree}
    (h : Accepts grammar (.sym "string_interpolation") (dollar :: lbrace :: rest) ts) :
    ∃ ws2 x ws3 ws4, isSkip ws2 = true ∧ isSkip ws3 = true ∧ isSkip ws4 = true ∧
      identifierRE.accepts x = true ∧ rest = ws2 ++ (x ++ (ws3 ++ (rbrace :: ws4))) ∧
      ts = [bracedInterpolation x] := by
  obtain ⟨u, ws4, hws4, hw, hd⟩ := h
  have e1 : "$".toList = [dollar] := by decide
  have e2 : "$\x7b".toList = [dollar, lbrace] := by decide
  have e3 : "\x7d".toList = [rbrace] := by decide
  rcases derives_string_interpolation.mp hd with ⟨ws, ws2, x, hws, hws2, hx, rfl, _⟩ |
    ⟨ws, ws2, ws3, x, hws, hws2, hws3, hx, rfl, hts⟩
  · obtain ⟨c, cs, rfl, hc, _⟩ := (identifierRE_accepts x).mp hx
    rw [e1] at hw
    have hw2 : ws ++ (dollar :: (ws2 ++ c :: (cs ++ ws4))) = dollar :: lbrace :: rest := by
      rw [hw]
      simp
    obtain ⟨_, h2⟩ := skip_nil_of_head hws (by decide) hw2
    simp only [List.cons.injEq, true_and] at h2
    obtain ⟨_, h3⟩ := skip_nil_of_head hws2 (by decide) h2
    simp only [List.cons.injEq] at h3
    rw [h3.1] at hc
    exact absurd hc (by decide)
  · rw [e2, e3] at hw
    have hw2 : ws ++ (dollar :: lbrace :: (ws2 ++ (x ++ (ws3 ++ (rbrace :: ws4))))) =
        dollar :: lbrace :: rest := by
      rw [hw]
      simp
    obtain ⟨_, h2⟩ := skip_nil_of_head hws (by decide) hw2
    simp only [List.cons.injEq, true_and] at h2
    exact ⟨ws2, x, ws3, ws4, hws2, hws3, hws4, hx, h2.symm, hts⟩

/-- What follows `${` in an accepted interpolation: its first visible character starts an
identifier, and it holds a closing brace after that character. -/
theorem braced_interpolation_needs {rest : List Char} {ts : List Tree}
    (h : Accepts grammar (.sym "string_interpolation") (dollar :: lbrace :: rest) ts) :
    ∃ c tail, firstVisible rest = some c ∧ identStart.mem c = true ∧
      rest.dropWhile whitespace.mem = c :: tail ∧ rbrace ∈ tail := by
  obtain ⟨ws2, x, ws3, ws4, hws2, _, _, hx, rfl, _⟩ := braced_interpolation_inv h
  obtain ⟨c, cs, rfl, hc, _⟩ := (identifierRE_accepts x).mp hx
  have hdrop : ∀ (ws y : List Char), isSkip ws = true →
      (ws ++ c :: y).dropWhile whitespace.mem = c :: y := by
    intro ws y hws
    induction ws with
    | nil => simp [List.dropWhile_cons, identStart_not_whitespace hc]
    | cons d ds ih =>
      rw [isSkip_cons, Bool.and_eq_true] at hws
      simp only [List.cons_append, List.dropWhile_cons, hws.1, ↓reduceIte]
      exact ih hws.2
  refine ⟨c, cs ++ (ws3 ++ (rbrace :: ws4)), ?_, hc, ?_, by simp⟩
  · rw [List.cons_append, firstVisible_skip hws2,
      firstVisible_cons (identStart_not_whitespace hc)]
  · rw [List.cons_append]
    exact hdrop ws2 _ hws2

/-- C9. An interpolation is the token `$` and an identifier, or the token `${`, an
identifier and the token `}`, and nothing else (skipped text may stand in front of a
token, as everywhere in the grammar). For every identifier `i` both `$i` and `${i}` are
derived; an accepted text that opens with `${` continues with an identifier and a closing
brace; `${}`, `${i` and `${1}` are not accepted. -/
theorem string_interpolation_forms :
    (∀ w ts, Derives grammar (.sym "string_interpolation") w ts ↔
      (∃ ws ws2 x, isSkip ws = true ∧ isSkip ws2 = true ∧ identifierRE.accepts x = true ∧
        w = ws ++ ("$".toList ++ (ws2 ++ x)) ∧
        ts = [.node "string_interpolation" [.leaf "$".toList,
          .node "identifier" [.leaf x]]]) ∨
      (∃ ws ws2 ws3 x, isSkip ws = true ∧ isSkip ws2 = true ∧ isSkip ws3 = true ∧
        identifierRE.accepts x = true ∧
        w = ws ++ ("$\x7b".toList ++ (ws2 ++ (x ++ (ws3 ++ "\x7d".toList)))) ∧
        ts = [.node "string_interpolation" [.leaf "$\x7b".toList,
          .node "identifier" [.leaf x], .leaf "\x7d".toList]])) ∧
    (∀ i, identifierRE.accepts i = true →
      Derives grammar (.sym "string_interpolation") ("$".toList ++ i)
        [bareInterpolation i] ∧
      Derives grammar (.sym "string_interpolation") ("$\x7b".toList ++ (i ++ "\x7d".toList))
        [bracedInterpolation i]) ∧
    (∀ rest ts, Accepts grammar (.sym "string_interpolation") (dollar :: lbrace :: rest) ts →
      ∃ ws2 x ws3 ws4, isSkip ws2 = true ∧ isSkip ws3 = true ∧ isSkip ws4 = true ∧
        identifierRE.accepts x = true ∧ rest = ws2 ++ (x ++ (ws3 ++ (rbrace :: ws4))) ∧
        ts = [bracedInterpolation x]) ∧
    (¬ ∃ ts, Accepts grammar (.sym "string_interpolation") "$\x7b\x7d".toList ts) ∧
    (¬ ∃ ts, Accepts grammar (.sym "string_interpolation") "$\x7bi".toList ts) ∧
    (¬ ∃ ts, Accepts grammar (.sym "string_interpolation") "$\x7b1\x7d".toList ts) := by
  refine ⟨fun w ts => derives_string_interpolation, ?_,
    fun rest ts h => braced_interpolation_inv h, ?_, ?_, ?_⟩
  · intro i hi
    constructor
    · exact derives_string_interpolation.mpr (Or.inl ⟨[], [], i, rfl, rfl, hi, rfl, rfl⟩)
    · exact derives_string_interpolation.mpr
        (Or.inr ⟨[], [], [], i, rfl, rfl, rfl, hi, rfl, rfl⟩)
  · rintro ⟨ts, h⟩
    have e : "$\x7b\x7d".toList = dollar :: lbrace :: "\x7d".toList := by decide
    rw [e] at h
    obtain ⟨c, tail, h1, h2, _, _⟩ := braced_interpolation_needs h
    have h3 : firstVisible "\x7d".toList = some rbrace := by decide
    rw [h3] at h1
    simp only [Option.some.injEq] at h1
    rw [← h1] at h2
    exact absurd h2 (by decide)
  · rintro ⟨ts, h⟩
    have e : "$\x7bi".toList = dollar :: lbrace :: "i".toList := by decide
    rw [e] at h
    obtain ⟨c, tail, _, _, h3, h4⟩ := braced_interpolation_needs h
    have h5 : "i".toList.dropWhile whitespace.mem = ['i'] := by decide
    rw [h5] at h3
    simp only [List.cons.injEq] at h3
    rw [← h3.2] at h4
    simp at h4
  · rintro ⟨ts, h⟩
    have e : "$\x7b1\x7d".toList = dollar :: lbrace :: "1\x7d".toList := by decide
    rw [e] at h
    obtain ⟨c, tail, h1, h2, _, _⟩ := braced_interpolation_needs h
    have h3 : firstVisible "1\x7d".toList = some '1' := by decide
    rw [h3] at h1
    simp only [Option.some.injEq] at h1
    rw [← h1] at h2
    exact absurd h2 (by decide)

/-! ## Numbers -/

theorem digit_mem_iff (c : Char) : digit.mem c = true ↔ c ∈ "0123456789".toList := by
  constructor
  · intro h
    have e : '0'.toNat = 48 ∧ '9'.toNat = 57 := by decide
    simp only [digit, CharClass.mem, List.any_cons, List.any_nil, Bool.or_false,
      Bool.false_xor, decide_eq_true_eq, e.1, e.2] at h
    obtain ⟨h1, h2⟩ := h
    have hc : c = Char.ofNat c.toNat := (Char.ofNat_toNat c).symm
    generalize c.toNat = n at h1 h2 hc
    subst hc
    interval_cases n <;> decide
  · intro h
    have : ∀ d ∈ "0123456789".toList, digit.mem d = true := by decide
    exact this c h

theorem numberRE_accepts (w : List Char) :
    numberRE.accepts w = true ↔
      ∃ ds, ds ≠ [] ∧ (∀ c ∈ ds, digit.mem c = true) ∧
        (w = ds ∨ ∃ fs, fs ≠ [] ∧ (∀ c ∈ fs, digit.mem c = true) ∧ w = ds ++ '.' :: fs) := by
  unfold numberRE
  simp only [RE.accepts_seq, RE.accepts_plus_cls, RE.accepts_opt, RE.accepts_chr]
  constructor
  · rintro ⟨u, v, rfl, ⟨hu, hud⟩, rfl | ⟨p, q, rfl, rfl, hq, hqd⟩⟩
    · exact ⟨u, hu, hud, Or.inl (by simp)⟩
    · exact ⟨u, hu, hud, Or.inr ⟨q, hq, hqd, by simp⟩⟩
  · rintro ⟨ds, hds, hdd, hw | ⟨fs, hfs, hfd, rfl⟩⟩
    · exact ⟨ds, [], by simp [hw], ⟨hds, hdd⟩, Or.inl rfl⟩
    · exact ⟨ds, '.' :: fs, rfl, ⟨hds, hdd⟩, Or.inr ⟨['.'], fs, rfl, rfl, hfs, hfd⟩⟩

/-- C10. The rule `number` is the pattern `\d+(\.\d+)?`, and the pattern matches a text
if and only if the text is one or more decimal digits, optionally followed by `.` and one
or more decimal digits. So `1.`, `.5`, `1e5` and `-1` are no number tokens, while `42`
and `1.5` are; the node of a number is that token after skipped text. -/
theorem number_token_exact :
    grammar.lookup "number" = some (.pat numberRE) ∧
    (∀ w, numberRE.accepts w = true ↔
      ∃ ds, ds ≠ [] ∧ (∀ c ∈ ds, c ∈ "0123456789".toList) ∧
        (w = ds ∨
          ∃ fs, fs ≠ [] ∧ (∀ c ∈ fs, c ∈ "0123456789".toList) ∧ w = ds ++ '.' :: fs)) ∧
    (numberRE.accepts "1.".toList = false ∧ numberRE.accepts ".5".toList = false ∧
      numberRE.accepts "1e5".toList = false ∧ numberRE.accepts "-1".toList = false) ∧
    (numberRE.accepts "42".toList = true ∧ numberRE.accepts "1.5".toList = true) ∧
    (∀ w ts, Derives grammar (.sym "number") w ts ↔
      ∃ ws x, isSkip ws = true ∧ numberRE.accepts x = true ∧ w = ws ++ x ∧
        ts = [.node "number" [.leaf x]]) := by
  refine ⟨rfl, ?_, ⟨by decide, by decide, by decide, by decide⟩, ⟨by decide, by decide⟩,
    fun w ts => derives_number⟩
  intro w
  rw [numberRE_accepts]
  simp only [digit_mem_iff]

/-! ## Longest match in string content -/

theorem textList_append (as bs : List Tree) :
    Tree.textList (as ++ bs) = Tree.textList as ++ Tree.textList bs := by
  induction as with
  | nil => rfl
  | cons a as ih => simp [Tree.textList, ih]

/-- The forms of an item of string content and the text of its leaves. -/
theorem doubleItem_forms {a : List Char} {as : List Tree}
    (h : Derives grammar doubleItem a as) :
    (literalRunRE.accepts a = true ∧ as = [.leaf a]) ∨
    (∃ c, c ∈ specEscapable ∧ a = [backslash, c] ∧ as = [escapeTree a]) ∨
    (∃ ws ws2 x, isSkip ws = true ∧ isSkip ws2 = true ∧ identifierRE.accepts x = true ∧
      a = ws ++ (dollar :: (ws2 ++ x)) ∧ as = [bareInterpolation x]) ∨
    (∃ ws ws2 ws3 x, isSkip ws = true ∧ isSkip ws2 = true ∧ isSkip ws3 = true ∧
      identifierRE.accepts x = true ∧
      a = ws ++ (dollar :: lbrace :: (ws2 ++ (x ++ (ws3 ++ [rbrace])))) ∧
      as = [bracedInterpolation x]) := by
  obtain ⟨r, hr, hd⟩ := derives_choice.mp h
  simp only [List.mem_cons, List.mem_singleton, List.not_mem_nil, or_false] at hr
  rcases hr with rfl | rfl
  · rcases derives_string_content.mp hd with ⟨hlit, hts⟩ | ⟨c, hc, ha, hts⟩
    · exact Or.inl ⟨hlit, hts⟩
    · exact Or.inr (Or.inl ⟨c, hc, ha, hts⟩)
  · rcases derives_string_interpolation.mp hd with ⟨ws, ws2, x, hws, hws2, hx, ha, hts⟩ |
      ⟨ws, ws2, ws3, x, hws, hws2, hws3, hx, ha, hts⟩
    · exact Or.inr (Or.inr (Or.inl ⟨ws, ws2, x, hws, hws2, hx, ha, hts⟩))
    · exact Or.inr (Or.inr (Or.inr ⟨ws, ws2, ws3, x, hws, hws2, hws3, hx, ha, hts⟩))

theorem text_bareInterpolation (x : List Char) :
    Tree.textList [bareInterpolation x] = dollar :: x := by
  have e1 : "$".toList = [dollar] := by decide
  simp only [bareInterpolation, identifierTree, Tree.textList, Tree.text, e1,
    List.append_nil, List.cons_append, List.nil_append]

theorem text_bracedInterpolation (x : List Char) :
    Tree.textList [bracedInterpolation x] = dollar :: lbrace :: (x ++ [rbrace]) := by
  have e1 : "$\x7b".toList = [dollar, lbrace] := by decide
  have e2 : "\x7d".toList = [rbrace] := by decide
  simp only [bracedInterpolation, identifierTree, Tree.textList, Tree.text, e1, e2,
    List.append_nil, List.cons_append, List.nil_append]

theorem doubleItem_text {a : List Char} {as : List Tree}
    (h : Derives grammar doubleItem a as) :
    (Tree.textList as).length ≤ a.length ∧
    ((Tree.textList as).length = a.length → ItemForm a as ∧ Tree.textList as = a) := by
  rcases doubleItem_forms h with ⟨hlit, rfl⟩ | ⟨c, hc, ha, rfl⟩ |
    ⟨ws, ws2, x, hws, hws2, hx, rfl, rfl⟩ | ⟨ws, ws2, ws3, x, hws, hws2, hws3, hx, rfl, rfl⟩
  · have e : Tree.textList [Tree.leaf a] = a := by simp [Tree.textList, Tree.text]
    rw [e]
    exact ⟨Nat.le_refl _, fun _ => ⟨Or.inl ⟨hlit, rfl⟩, rfl⟩⟩
  · have e : Tree.textList [escapeTree a] = a := by
      simp [escapeTree, Tree.textList, Tree.text]
    rw [e]
    exact ⟨Nat.le_refl _, fun _ => ⟨Or.inr (Or.inl ⟨c, hc, ha, rfl⟩), rfl⟩⟩
  · rw [text_bareInterpolation]
    refine ⟨by simp only [List.length_append, List.length_cons]; omega, fun hlen => ?_⟩
    simp only [List.length_append, List.length_cons] at hlen
    have h1 : ws = [] := List.length_eq_zero.mp (by omega)
    have h2 : ws2 = [] := List.length_eq_zero.mp (by omega)
    subst h1
    subst h2
    exact ⟨Or.inr (Or.inr (Or.inl ⟨x, hx, rfl, rfl⟩)), rfl⟩
  · rw [text_bracedInterpolation]
    refine ⟨by simp only [List.length_append, List.length_cons, List.length_nil]; omega,
      fun hlen => ?_⟩
    simp only [List.length_append, List.length_cons, List.length_nil] at hlen
    have h1 : ws = [] := List.length_eq_zero.mp (by omega)
    have h2 : ws2 = [] := List.length_eq_zero.mp (by omega)
    have h3 : ws3 = [] := List.length_eq_zero.mp (by omega)
    subst h1
    subst h2
    subst h3
    exact ⟨Or.inr (Or.inr (Or.inr ⟨x, hx, rfl, rfl⟩)), rfl⟩

theorem doubleContent_text_le {u : List Char} {us : List Tree}
    (h : Derives grammar doubleContent u us) : (Tree.textList us).length ≤ u.length := by
  refine rep_induction (P := fun u us => (Tree.textList us).length ≤ u.length) ?_ ?_ h
  · exact Nat.le_refl _
  · intro a v as vs ha _ ih
    have := (doubleItem_text ha).1
    rw [textList_append]
    simp only [List.length_append]
    omega

/-- When no text is skipped in an item and what follows it, the item has one of the forms
without skipped text. -/
theorem doubleContent_split {a v : List Char} {as vs : List Tree}
    (ha : Derives grammar doubleItem a as) (hv : Derives grammar doubleContent v vs)
    (ht : Tree.textList (as ++ vs) = a ++ v) :
    ItemForm a as ∧ Tree.textList as = a ∧ Tree.textList vs = v := by
  have h1 := doubleItem_text ha
  have h2 := doubleContent_text_le hv
  rw [textList_append] at ht
  have hlen := congrArg List.length ht
  simp only [List.length_append] at hlen
  obtain ⟨hf, he⟩ := h1.2 (by omega)
  rw [he] at ht
  exact ⟨hf, he, List.append_cancel_left ht⟩

theorem itemForm_ne_nil {a : List Char} {as : List Tree} (h : ItemForm a as) : a ≠ [] := by
  rcases h with ⟨hlit, _⟩ | ⟨c, _, rfl, _⟩ | ⟨x, _, rfl, _⟩ | ⟨x, _, rfl, _⟩
  · exact ((literalRunRE_accepts a).mp hlit).1
  · simp
  · simp
  · simp

theorem identCont_literal {d : Char} (h : identCont.mem d = true) :
    d ≠ dquote ∧ d ≠ backslash ∧ d ≠ dollar := by
  refine ⟨?_, ?_, ?_⟩ <;>
  · rintro rfl
    exact absurd h (by decide)

/-- Content without skipped text that starts with a character of a literal run starts
with a literal segment. -/
theorem head_literal_leaf {v : List Char} {vs : List Tree} {d : Char} {rest : List Char}
    (hv : Derives grammar doubleContent v vs) (ht : Tree.textList vs = v)
    (hd : v = d :: rest) (hlit : d ≠ dquote ∧ d ≠ backslash ∧ d ≠ dollar) :
    ∃ y ys, vs = .leaf (d :: y) :: ys := by
  rcases derives_rep.mp hv with ⟨hnil, _⟩ | ⟨a, v2, as, vs2, hv2, rfl, ha, hv3⟩
  · rw [hnil] at hd
    simp at hd
  · rw [hv2] at ht
    obtain ⟨hf, _, _⟩ := doubleContent_split ha hv3 ht
    rw [hd] at hv2
    rcases hf with ⟨_, rfl⟩ | ⟨c, _, rfl, _⟩ | ⟨x, _, rfl, _⟩ | ⟨x, _, rfl, _⟩
    · cases a with
      | nil => exact absurd rfl (itemForm_ne_nil (Or.inl ⟨by assumption, rfl⟩))
      | cons e a =>
        simp only [List.cons_append, List.cons.injEq] at hv2
        rw [← hv2.1]
        exact ⟨a, vs2, rfl⟩
    · simp only [List.cons_append, List.cons.injEq] at hv2
      exact absurd hv2.1 hlit.2.1
    · simp only [List.cons_append, List.cons.injEq] at hv2
      exact absurd hv2.1 hlit.2.2
    · simp only [List.cons_append, List.cons.injEq] at hv2
      exact absurd hv2.1 hlit.2.2

theorem segmentsLongest_tail {t : Tree} {ts : List Tree}
    (h : segmentsLongest (t :: ts) = true) : segmentsLongest ts = true := by
  cases ts with
  | nil => rfl
  | cons b rest =>
    simp only [segmentsLongest, Bool.and_eq_true] at h
    exact h.2

theorem segmentsLongest_leaf_leaf {x y : List Char} {ts : List Tree} :
    segmentsLongest (.leaf x :: .leaf y :: ts) = false := by
  simp [segmentsLongest, neighboursOK]

theorem segmentsLongest_bare_leaf {x y : List Char} {d : Char} {ts : List Tree}
    (hd : identCont.mem d = true) :
    segmentsLongest (bareInterpolation x :: .leaf (d :: y) :: ts) = false := by
  simp [segmentsLongest, neighboursOK, bareInterpolation, identifierTree, hd]

/-- Under longest match and without skipped text the first item of string content is
determined by the text. -/
theorem first_item_unique {a a2 v v2 : List Char} {as as2 vs vs2 : List Tree}
    (hf : ItemForm a as) (hf2 : ItemForm a2 as2) (he : a ++ v = a2 ++ v2)
    (hv : Derives grammar doubleContent v vs) (ht : Tree.textList vs = v)
    (hl : segmentsLongest (as ++ vs) = true)
    (hv2 : Derives grammar doubleContent v2 vs2) (ht2 : Tree.textList vs2 = v2)
    (hl2 : segmentsLongest (as2 ++ vs2) = true) : a = a2 ∧ as = as2 := by
  rcases hf with ⟨hlit, rfl⟩ | ⟨c, hc, rfl, rfl⟩ | ⟨x, hx, rfl, rfl⟩ | ⟨x, hx, rfl, rfl⟩ <;>
  rcases hf2 with ⟨hlit2, rfl⟩ | ⟨c2, hc2, rfl, rfl⟩ | ⟨x2, hx2, rfl, rfl⟩ |
    ⟨x2, hx2, rfl, rfl⟩
  · -- literal, literal
    obtain ⟨_, hall⟩ := (literalRunRE_accepts a).mp hlit
    obtain ⟨_, hall2⟩ := (literalRunRE_accepts a2).mp hlit2
    rcases List.append_eq_append_iff.mp he with ⟨m, rfl, hm⟩ | ⟨m, rfl, hm⟩
    · cases m with
      | nil => simp
      | cons d m =>
        obtain ⟨y, ys, rfl⟩ := head_literal_leaf hv ht hm (hall2 d (by simp))
        rw [List.singleton_append, segmentsLongest_leaf_leaf] at hl
        exact absurd hl (by simp)
    · cases m with
      | nil => simp
      | cons d m =>
        obtain ⟨y, ys, rfl⟩ := head_literal_leaf hv2 ht2 hm (hall d (by simp))
        rw [List.singleton_append, segmentsLongest_leaf_leaf] at hl2
        exact absurd hl2 (by simp)
  · -- literal, escape
    obtain ⟨hne, hall⟩ := (literalRunRE_accepts a).mp hlit
    cases a with
    | nil => exact absurd rfl hne
    | cons e a =>
      simp only [List.cons_append, List.cons.injEq] at he
      exact absurd he.1 (hall e (by simp)).2.1
  · obtain ⟨hne, hall⟩ := (literalRunRE_accepts a).mp hlit
    cases a with
    | nil => exact absurd rfl hne
    | cons e a =>
      simp only [List.cons_append, List.cons.injEq] at he
      exact absurd he.1 (hall e (by simp)).2.2
  · obtain ⟨hne, hall⟩ := (literalRunRE_accepts a).mp hlit
    cases a with
    | nil => exact absurd rfl hne
    | cons e a =>
      simp only [List.cons_append, List.cons.injEq] at he
      exact absurd he.1 (hall e (by simp)).2.2
  · -- escape, literal
    obtain ⟨hne, hall⟩ := (literalRunRE_accepts a2).mp hlit2
    cases a2 with
    | nil => exact absurd rfl hne
    | cons e a2 =>
      simp only [List.cons_append, List.cons.injEq] at he
      exact absurd he.1.symm (hall e (by simp)).2.1
  · -- escape, escape
    simp only [List.cons_append, List.nil_append, List.cons.injEq, true_and] at he
    rw [he.1]
    exact ⟨rfl, rfl⟩
  · simp only [List.cons_append, List.cons.injEq] at he
    exact absurd he.1 (by decide)
  · simp only [List.cons_append, List.cons.injEq] at he
    exact absurd he.1 (by decide)
  · -- bare, literal
    obtain ⟨hne, hall⟩ := (literalRunRE_accepts a2).mp hlit2
    cases a2 with
    | nil => exact absurd rfl hne
    | cons e a2 =>
      simp only [List.cons_append, List.cons.injEq] at he
      exact absurd he.1.symm (hall e (by simp)).2.2
  · simp only [List.cons_append, List.cons.injEq] at he
    exact absurd he.1 (by decide)
  · -- bare, bare
    obtain ⟨_, _, _, _, hcs⟩ := (identifierRE_accepts x).mp hx
    obtain ⟨_, _, _, _, hcs2⟩ := (identifierRE_accepts x2).mp hx2
    have hid : ∀ d ∈ x, identCont.mem d = true := by
      obtain ⟨c, cs, rfl, hc, hcs⟩ := (identifierRE_accepts x).mp hx
      intro d hd
      rcases List.mem_cons.mp hd with rfl | hd
      · exact identCont_of_identStart hc
      · exact hcs d hd
    have hid2 : ∀ d ∈ x2, identCont.mem d = true := by
      obtain ⟨c, cs, rfl, hc, hcs⟩ := (identifierRE_accepts x2).mp hx2
      intro d hd
      rcases List.mem_cons.mp hd with rfl | hd
      · exact identCont_of_identStart hc
      · exact hcs d hd
    simp only [List.cons_append, List.cons.injEq, true_and] at he
    rcases List.append_eq_append_iff.mp he with ⟨m, rfl, hm⟩ | ⟨m, rfl, hm⟩
    · cases m with
      | nil => simp
      | cons d m =>
        have hd := hid2 d (by simp)
        obtain ⟨y, ys, rfl⟩ := head_literal_leaf hv ht hm (identCont_literal hd)
        rw [List.singleton_append, segmentsLongest_bare_leaf hd] at hl
        exact absurd hl (by simp)
    · cases m with
      | nil => simp
      | cons d m =>
        have hd := hid d (by simp)
        obtain ⟨y, ys, rfl⟩ := head_literal_leaf hv2 ht2 hm (identCont_literal hd)
        rw [List.singleton_append, segmentsLongest_bare_leaf hd] at hl2
        exact absurd hl2 (by simp)
  · -- bare, braced
    obtain ⟨c, cs, rfl, hc, _⟩ := (identifierRE_accepts x).mp hx
    simp only [List.cons_append, List.cons.injEq, true_and] at he
    rw [he.1] at hc
    exact absurd hc (by decide)
  · -- braced, literal
    obtain ⟨hne, hall⟩ := (literalRunRE_accepts a2).mp hlit2
    cases a2 with
    | nil => exact absurd rfl hne
    | cons e a2 =>
      simp only [List.cons_append, List.cons.injEq] at he
      exact absurd he.1.symm (hall e (by simp)).2.2
  · simp only [List.cons_append, List.cons.injEq] at he
    exact absurd he.1 (by decide)
  · -- braced, bare
    obtain ⟨c, cs, rfl, hc, _⟩ := (identifierRE_accepts x2).mp hx2
    simp only [List.cons_append, List.cons.injEq, true_and] at he
    rw [← he.1] at hc
    exact absurd hc (by decide)
  · -- braced, braced
    have hid : ∀ d ∈ x, identCont.mem d = true := by
      obtain ⟨c, cs, rfl, hc, hcs⟩ := (identifierRE_accepts x).mp hx
      intro d hd
      rcases List.mem_cons.mp hd with rfl | hd
      · exact identCont_of_identStart hc
      · exact hcs d hd
    have hid2 : ∀ d ∈ x2, identCont.mem d = true := by
      obtain ⟨c, cs, rfl, hc, hcs⟩ := (identifierRE_accepts x2).mp hx2
      intro d hd
      rcases List.mem_cons.mp hd with rfl | hd
      · exact identCont_of_identStart hc
      · exact hcs d hd
    simp only [List.cons_append, List.cons.injEq, true_and, List.append_assoc,
      List.nil_append] at he
    rcases List.append_eq_append_iff.mp he with ⟨m, rfl, hm⟩ | ⟨m, rfl, hm⟩
    · cases m with
      | nil => simp
      | cons d m =>
        simp only [List.cons_append, List.cons.injEq] at hm
        have hd := hid2 d (by simp)
        rw [← hm.1] at hd
        exact absurd hd (by decide)
    · cases m with
      | nil => simp
      | cons d m =>
        simp only [List.cons_append, List.cons.injEq] at hm
        have hd := hid d (by simp)
        rw [← hm.1] at hd
        exact absurd hd (by decide)

/-- Under longest match and without skipped text the segments of string content are
determined by the text. -/
theorem longest_match_unique {u : List Char} {us : List Tree}
    (h : Derives grammar doubleContent u us) :
    Tree.textList us = u → segmentsLongest us = true →
    ∀ us2, Derives grammar doubleContent u us2 → Tree.textList us2 = u →
      segmentsLongest us2 = true → us = us2 := by
  refine rep_induction
    (P := fun u us => Tree.textList us = u → segmentsLongest us = true →
      ∀ us2, Derives grammar doubleContent u us2 → Tree.textList us2 = u →
        segmentsLongest us2 = true → us = us2) ?_ ?_ h
  · intro _ _ us2 h2 ht2 _
    rcases derives_rep.mp h2 with ⟨_, hnil⟩ | ⟨a, v, as, vs, he, rfl, ha, hv⟩
    · exact hnil.symm
    · rw [he] at ht2
      obtain ⟨hf, _, _⟩ := doubleContent_split ha hv ht2
      obtain ⟨h1, _⟩ := List.append_eq_nil.mp he.symm
      exact absurd h1 (itemForm_ne_nil hf)
  · intro a v as vs ha hv ih ht hl us2 h2 ht2 hl2
    obtain ⟨hf, _, htv⟩ := doubleContent_split ha hv ht
    rcases derives_rep.mp h2 with ⟨hnil, _⟩ | ⟨a2, v2, as2, vs2, he, rfl, ha2, hv2⟩
    · obtain ⟨h1, _⟩ := List.append_eq_nil.mp hnil
      exact absurd h1 (itemForm_ne_nil hf)
    · rw [he] at ht2
      obtain ⟨hf2, _, htv2⟩ := doubleContent_split ha2 hv2 ht2
      obtain ⟨haa, hasas⟩ := first_item_unique hf hf2 he hv htv hl hv2 htv2 hl2
      subst haa
      subst hasas
      have hvv : v = v2 := List.append_cancel_left he
      subst hvv
      have hsingle : ∃ t, as = [t] := by
        rcases hf with ⟨_, rfl⟩ | ⟨_, _, _, rfl⟩ | ⟨_, _, _, rfl⟩ | ⟨_, _, _, rfl⟩ <;>
          exact ⟨_, rfl⟩
      obtain ⟨t, rfl⟩ := hsingle
      rw [List.singleton_append] at hl hl2
      rw [ih htv (segmentsLongest_tail hl) vs2 hv2 htv2 (segmentsLongest_tail hl2)]

/-- The content of the example string and its five segments. -/
theorem example_content :
    Derives grammar doubleContent "hello $name, you are $\x7bage\x7d years old".toList
      [.leaf "hello ".toList, bareInterpolation "name".toList, .leaf ", you are ".toList,
        bracedInterpolation "age".toList, .leaf " years old".toList] :=
  derives_cast
    (.rep_cons (doubleItem_literal "hello ".toList (by decide))
      (.rep_cons (doubleItem_bare "name".toList (by decide))
        (.rep_cons (doubleItem_literal ", you are ".toList (by decide))
          (.rep_cons (doubleItem_braced "age".toList (by decide))
            (.rep_cons (doubleItem_literal " years old".toList (by decide)) .rep_nil)))))
    (by decide) rfl

/-- A double-quoted string whose leaves cover all of its text and whose segments respect
longest match: the segments are the ones of any such derivation of its content. -/
theorem string_longest_unique {content : List Char} {segs : List Tree} {t : Tree}
    (hc : Derives grammar doubleContent content segs)
    (hcs : Tree.textList segs = content) (hcl : segmentsLongest segs = true)
    (h : Derives grammar (.sym "string") (dquote :: (content ++ [dquote])) [t])
    (ht : t.text = dquote :: (content ++ [dquote]))
    (hl : segmentsLongest t.segments = true) : t = stringTree "\"" segs := by
  have e1 : "\"".toList = [dquote] := by decide
  have e2 : "'".toList = [squote] := by decide
  rcases derives_string.mp h with ⟨ws, u, ws2, us, hws, hws2, hu, hw, hts⟩ |
    ⟨ws, u, ws2, us, hws, hws2, hu, hw, hts⟩
  · simp only [List.cons.injEq, and_true] at hts
    subst hts
    have hseg : (stringTree "\"" us).segments = us := by
      simp [stringTree, Tree.segments]
    have htext : (stringTree "\"" us).text = dquote :: (Tree.textList us ++ [dquote]) := by
      simp only [stringTree, Tree.text, Tree.textList, textList_append, e1, List.append_nil,
        List.cons_append, List.nil_append]
    rw [hseg] at hl
    rw [htext] at ht
    rw [e1] at hw
    have hle := doubleContent_text_le hu
    simp only [List.cons.injEq, true_and] at ht
    have ht2 := List.append_cancel_right ht
    have hlen := congrArg List.length hw
    simp only [List.length_append, List.length_cons, List.length_nil] at hlen
    rw [← ht2] at hlen
    have h1 : ws = [] := List.length_eq_zero.mp (by omega)
    have h2 : ws2 = [] := List.length_eq_zero.mp (by omega)
    subst h1
    subst h2
    simp only [List.nil_append, List.cons_append, List.cons.injEq, true_and] at hw
    have hu2 : content = u := List.append_cancel_right hw
    subst hu2
    rw [longest_match_unique hc hcs hcl us hu ht2 hl]
  · rw [e2] at hw
    obtain ⟨_, h2⟩ := skip_nil_of_head hws (by decide) hw.symm
    simp only [List.cons_append, List.nil_append, List.cons.injEq] at h2
    exact absurd h2.1 (by decide)

/-- C7. The string `"hello $name, you are ${age} years old"` is derived by the string
rule with five content segments in this order: the literal `hello `, the interpolation of
`name`, the literal `, you are `, the interpolation of `age` and the literal ` years old`.
Each literal run is maximal: the pattern of a literal run rejects it extended by the
character that follows it. And this is the only tree of the string rule for the text whose
leaves cover all of the text (nothing is skipped) and whose segments respect longest match
(no literal run follows a literal run, and none that starts with an identifier character
follows a bare interpolation). -/
theorem interpolated_string_segments :
    Derives grammar (.sym "string")
      "\"hello $name, you are $\x7bage\x7d years old\"".toList
      [.node "string" [
        .leaf "\"".toList,
        .leaf "hello ".toList,
        .node "string_interpolation" [.leaf "$".toList,
          .node "identifier" [.leaf "name".toList]],
        .leaf ", you are ".toList,
        .node "string_interpolation" [.leaf "$\x7b".toList,
          .node "identifier" [.leaf "age".toList], .leaf "\x7d".toList],
        .leaf " years old".toList,
        .leaf "\"".toList]] ∧
    (literalRunRE.accepts "hello $".toList = false ∧
      literalRunRE.accepts ", you are $".toList = false ∧
      literalRunRE.accepts " years old\"".toList = false) ∧
    (∀ t, Derives grammar (.sym "string")
        "\"hello $name, you are $\x7bage\x7d years old\"".toList [t] →
      t.text = "\"hello $name, you are $\x7bage\x7d years old\"".toList →
      segmentsLongest t.segments = true →
      t = .node "string" [
        .leaf "\"".toList,
        .leaf "hello ".toList,
        .node "string_interpolation" [.leaf "$".toList,
          .node "identifier" [.leaf "name".toList]],
        .leaf ", you are ".toList,
        .node "string_interpolation" [.leaf "$\x7b".toList,
          .node "identifier" [.leaf "age".toList], .leaf "\x7d".toList],
        .leaf " years old".toList,
        .leaf "\"".toList]) := by
  refine ⟨?_, ⟨by decide, by decide, by decide⟩, ?_⟩
  · exact derives_string.mpr (Or.inl ⟨[], _, [], _, rfl, rfl, example_content, by decide, rfl⟩)
  · intro t h ht hl
    have e : "\"hello $name, you are $\x7bage\x7d years old\"".toList =
        dquote :: ("hello $name, you are $\x7bage\x7d years old".toList ++ [dquote]) := by
      decide
    rw [e] at h ht
    exact string_longest_unique example_content (by decide) (by decide) h ht hl

/-! ## Identifiers and keywords -/

theorem keywordTokens_eq : keywordTokens = specKeywords := by decide

theorem identStart_mem_iff (c : Char) :
    identStart.mem c = true ↔
      c ∈ "abcdefghijklmnopqrstuvwxyzABCDEFGHIJKLMNOPQRSTUVWXYZ_".toList := by
  constructor
  · intro h
    have e : ('a'.toNat = 97 ∧ 'z'.toNat = 122 ∧ 'A'.toNat = 65 ∧ 'Z'.toNat = 90) ∧
        '_'.toNat = 95 := by decide
    obtain ⟨⟨a1, a2, a3, a4⟩, a5⟩ := e
    simp only [identStart, CharClass.mem, List.any_cons, List.any_nil, Bool.or_false,
      Bool.false_xor, Bool.or_eq_true, decide_eq_true_eq, a1, a2, a3, a4, a5] at h
    have hc : c = Char.ofNat c.toNat := (Char.ofNat_toNat c).symm
    generalize c.toNat = n at h hc
    subst hc
    rcases h with ⟨h1, h2⟩ | ⟨h1, h2⟩ | ⟨h1, h2⟩
    · interval_cases n <;> decide
    · interval_cases n <;> decide
    · interval_cases n
      decide
  · intro h
    have : ∀ d ∈ "abcdefghijklmnopqrstuvwxyzABCDEFGHIJKLMNOPQRSTUVWXYZ_".toList,
        identStart.mem d = true := by decide
    exact this c h

theorem identCont_mem_iff (c : Char) :
    identCont.mem c = true ↔
      c ∈ "abcdefghijklmnopqrstuvwxyzABCDEFGHIJKLMNOPQRSTUVWXYZ0123456789_".toList := by
  constructor
  · intro h
    have e : ('a'.toNat = 97 ∧ 'z'.toNat = 122 ∧ 'A'.toNat = 65 ∧ 'Z'.toNat = 90) ∧
        ('0'.toNat = 48 ∧ '9'.toNat = 57 ∧ '_'.toNat = 95) := by decide
    obtain ⟨⟨a1, a2, a3, a4⟩, a5, a6, a7⟩ := e
    simp only [identCont, CharClass.mem, List.any_cons, List.any_nil, Bool.or_false,
      Bool.false_xor, Bool.or_eq_true, decide_eq_true_eq, a1, a2, a3, a4, a5, a6, a7] at h
    have hc : c = Char.ofNat c.toNat := (Char.ofNat_toNat c).symm
    generalize c.toNat = n at h hc
    subst hc
    rcases h with ⟨h1, h2⟩ | ⟨h1, h2⟩ | ⟨h1, h2⟩ | ⟨h1, h2⟩
    · interval_cases n <;> decide
    · interval_cases n <;> decide
    · interval_cases n <;> decide
    · interval_cases n
      decide
  · intro h
    have : ∀ d ∈ "abcdefghijklmnopqrstuvwxyzABCDEFGHIJKLMNOPQRSTUVWXYZ0123456789_".toList,
        identCont.mem d = true := by decide
    exact this c h

theorem keyword_is_identifier : ∀ k ∈ specKeywords, identifierRE.accepts k.toList = true := by
  decide

/-- No keyword is the start of another keyword. -/
theorem keyword_not_extended :
    ∀ k ∈ specKeywords, ∀ k2 ∈ specKeywords,
      k2.toList.take k.toList.length = k.toList → k = k2 := by
  decide

theorem identifier_append {x s : List Char} (hx : identifierRE.accepts x = true)
    (hs : ∀ c ∈ s, identCont.mem c = true) : identifierRE.accepts (x ++ s) = true := by
  obtain ⟨c, cs, rfl, hc, hcs⟩ := (identifierRE_accepts x).mp hx
  refine (identifierRE_accepts _).mpr ⟨c, cs ++ s, rfl, hc, ?_⟩
  intro d hd
  rcases List.mem_append.mp hd with hd | hd
  · exact hcs d hd
  · exact hs d hd

/-- The declaration `conjure x = 1` for a name `x`. -/
theorem derives_declaration_one (x : List Char) (hx : identifierRE.accepts x = true) :
    Derives grammar (.sym "variable_declaration")
      ("conjure ".toList ++ (x ++ " = 1".toList))
      [declarationTree x (numberTree "1".toList)] := by
  have e1 : "conjure ".toList = "conjure".toList ++ " ".toList := by decide
  have e2 : " = 1".toList = " ".toList ++ ("=".toList ++ (" ".toList ++ "1".toList)) := by
    decide
  refine derives_cast
    (derives_variable_declaration [] " ".toList " ".toList x rfl (by decide) (by decide) hx
      (derives_number_expression " ".toList "1".toList (by decide) (by decide)))
    ?_ rfl
  rw [e1, e2]
  simp only [List.nil_append, List.append_assoc]

/-- C11. The rule `identifier` is the pattern `[a-zA-Z_][a-zA-Z0-9_]*`: its texts are a
letter or underscore followed by letters, digits and underscores. For a keyword `k` and a
non-empty text `s` of letters, digits and underscores, the spelling `k` followed by `s`
matches the pattern, is no keyword token of the grammar, is derived by `identifier` as one
identifier node, and stands as the name in a declaration `conjure ks = 1`. -/
theorem keyword_with_suffix_is_identifier (k : String) (s : List Char)
    (hk : k ∈ specKeywords) (hs : s ≠ [])
    (hcs : ∀ c ∈ s,
      c ∈ "abcdefghijklmnopqrstuvwxyzABCDEFGHIJKLMNOPQRSTUVWXYZ0123456789_".toList) :
    (grammar.lookup "identifier" = some (.pat identifierRE) ∧
      ∀ x, identifierRE.accepts x = true ↔
        ∃ c cs, x = c :: cs ∧
          c ∈ "abcdefghijklmnopqrstuvwxyzABCDEFGHIJKLMNOPQRSTUVWXYZ_".toList ∧
          ∀ d ∈ cs,
            d ∈ "abcdefghijklmnopqrstuvwxyzABCDEFGHIJKLMNOPQRSTUVWXYZ0123456789_".toList) ∧
    identifierRE.accepts (k.toList ++ s) = true ∧
    (keywordTokens = specKeywords ∧ ∀ k2 ∈ keywordTokens, k.toList ++ s ≠ k2.toList) ∧
    Derives grammar (.sym "identifier") (k.toList ++ s) [identifierTree (k.toList ++ s)] ∧
    Derives grammar (.sym "variable_declaration")
      ("conjure ".toList ++ ((k.toList ++ s) ++ " = 1".toList))
      [declarationTree (k.toList ++ s) (numberTree "1".toList)] := by
  have hacc : identifierRE.accepts (k.toList ++ s) = true :=
    identifier_append (keyword_is_identifier k hk) fun c hc => (identCont_mem_iff c).mpr (hcs c hc)
  refine ⟨⟨rfl, fun x => ?_⟩, hacc, ⟨keywordTokens_eq, ?_⟩, ?_, derives_declaration_one _ hacc⟩
  · rw [identifierRE_accepts]
    simp only [identStart_mem_iff, identCont_mem_iff]
  · intro k2 hk2 he
    rw [keywordTokens_eq] at hk2
    have h1 := keyword_not_extended k hk k2 hk2 (by rw [← he]; simp)
    subst h1
    have h2 := congrArg List.length he
    simp only [List.length_append] at h2
    exact hs (List.length_eq_zero.mp (by omega))
  · exact derives_identifier.mpr ⟨[], _, rfl, hacc, rfl, rfl⟩

/-- C11, at `iffy`, `castle` and `true_1`. -/
theorem keyword_with_suffix_is_identifier_witness :
    identifierRE.accepts "iffy".toList = true ∧
    identifierRE.accepts "castle".toList = true ∧
    identifierRE.accepts "true_1".toList = true ∧
    Derives grammar (.sym "variable_declaration") "conjure iffy = 1".toList
      [declarationTree "iffy".toList (numberTree "1".toList)] := by
  have T := keyword_with_suffix_is_identifier "if" "fy".toList (by decide) (by decide)
    (by decide)
  have U := keyword_with_suffix_is_identifier "cast" "le".toList (by decide) (by decide)
    (by decide)
  have V := keyword_with_suffix_is_identifier "true" "_1".toList (by decide) (by decide)
    (by decide)
  exact ⟨T.2.1, U.2.1, V.2.1, T.2.2.2.2⟩

/-- C17. Keywords are not reserved: a keyword spelling matches the pattern of
`identifier`, is derived by `identifier` as an identifier node, and for a keyword `k` the
text `conjure k = 1` is derived as a variable declaration whose name is the identifier
`k`. -/
theorem keyword_as_name (k : String) (hk : k ∈ specKeywords) :
    keywordTokens = specKeywords ∧
    identifierRE.accepts k.toList = true ∧
    Derives grammar (.sym "identifier") k.toList [identifierTree k.toList] ∧
    Derives grammar (.sym "variable_declaration")
      ("conjure ".toList ++ (k.toList ++ " = 1".toList))
      [.node "variable_declaration" [.leaf "conjure".toList,
        .field "name" (.node "identifier" [.leaf k.toList]), .leaf "=".toList,
        .field "value" (.node "number" [.leaf "1".toList])]] := by
  have hacc := keyword_is_identifier k hk
  exact ⟨keywordTokens_eq, hacc, derives_identifier.mpr ⟨[], _, rfl, hacc, rfl, rfl⟩,
    derives_declaration_one _ hacc⟩

/-- C17, at `conjure if = 1`. -/
theorem keyword_as_name_witness :
    Derives grammar (.sym "variable_declaration") "conjure if = 1".toList
      [.node "variable_declaration" [.leaf "conjure".toList,
        .field "name" (.node "identifier" [.leaf "if".toList]), .leaf "=".toList,
        .field "value" (.node "number" [.leaf "1".toList])]] :=
  (keyword_as_name "if" (by decide)).2.2.2

/-! ## Booleans -/

theorem derives_boolean_expression (ws : List Char) (b : String) (hws : isSkip ws = true)
    (hb : b = "true" ∨ b = "false") :
    Derives grammar (.sym "_expression") (ws ++ b.toList) [.node "boolean" [.leaf b.toList]] :=
  derives_expression.mpr ⟨"boolean", by simp [expressionKinds],
    derives_boolean.mpr ⟨ws, b, hws, hb, rfl, rfl⟩⟩

/-- A declaration `conjure x = v` for a value `v` that is an expression after one space. -/
theorem derives_declaration_x {wv : List Char} {v : Tree}
    (hv : Derives grammar (.sym "_expression") wv [v]) :
    Derives grammar (.sym "variable_declaration") ("conjure x =".toList ++ wv)
      [declarationTree "x".toList v] := by
  have e1 : "conjure x =".toList =
      "conjure".toList ++ ((" ".toList ++ "x".toList) ++ (" ".toList ++ "=".toList)) := by
    decide
  refine derives_cast
    (derives_variable_declaration [] " ".toList " ".toList "x".toList rfl (by decide)
      (by decide) (by decide) hv) ?_ rfl
  rw [e1]
  simp only [List.nil_append, List.append_assoc]

/-- C18. The productions do not decide between Boolean and Identifier: the texts `true`
and `false` are derived by `_expression` as a boolean node and also as an identifier
node, and `conjure x = true` has two distinct derivation trees. -/
theorem boolean_identifier_ambiguous :
    (Derives grammar (.sym "_expression") "true".toList
        [.node "boolean" [.leaf "true".toList]] ∧
      Derives grammar (.sym "_expression") "true".toList
        [.node "identifier" [.leaf "true".toList]]) ∧
    (Derives grammar (.sym "_expression") "false".toList
        [.node "boolean" [.leaf "false".toList]] ∧
      Derives grammar (.sym "_expression") "false".toList
        [.node "identifier" [.leaf "false".toList]]) ∧
    (Derives grammar (.sym "variable_declaration") "conjure x = true".toList
        [declarationTree "x".toList (.node "boolean" [.leaf "true".toList])] ∧
      Derives grammar (.sym "variable_declaration") "conjure x = true".toList
        [declarationTree "x".toList (.node "identifier" [.leaf "true".toList])] ∧
      declarationTree "x".toList (.node "boolean" [.leaf "true".toList]) ≠
        declarationTree "x".toList (.node "identifier" [.leaf "true".toList])) := by
  refine ⟨⟨?_, ?_⟩, ⟨?_, ?_⟩, ?_, ?_, ?_⟩
  · exact derives_boolean_expression [] "true" rfl (Or.inl rfl)
  · exact derives_identifier_expression [] "true".toList rfl (by decide)
  · exact derives_boolean_expression [] "false" rfl (Or.inr rfl)
  · exact derives_identifier_expression [] "false".toList rfl (by decide)
  · exact derives_cast
      (derives_declaration_x (derives_boolean_expression " ".toList "true" (by decide)
        (Or.inl rfl))) (by decide) rfl
  · exact derives_cast
      (derives_declaration_x (derives_identifier_expression " ".toList "true".toList
        (by decide) (by decide))) (by decide) rfl
  · simp [declarationTree]

/-! ## No unary operator -/

/-- The value of an accepted declaration `conjure x = …`: what follows the `=` is the
text of an expression and skipped text. -/
theorem declaration_x_value {v : List Char} {ts : List Tree}
    (h : Accepts grammar (.sym "variable_declaration") ("conjure x =".toList ++ v) ts) :
    ∃ wv ws vs, isSkip ws = true ∧ Derives grammar (.sym "_expression") wv vs ∧
      wv ++ ws = v := by
  obtain ⟨u, ws, hws, hw, hd⟩ := h
  obtain ⟨ws1, ws2, ws3, x, wv, vs, hws1, hws2, hws3, hx, hv, rfl, _⟩ :=
    variable_declaration_inv hd
  obtain ⟨c, cs, rfl, hc, hcs⟩ := (identifierRE_accepts x).mp hx
  have e : "conjure x =".toList =
      'c' :: ("onjure".toList ++ (" ".toList ++ 'x' :: (" ".toList ++ ['=']))) := by
    decide
  have e2 : "conjure".toList = 'c' :: "onjure".toList := by decide
  have e3 : "=".toList = ['='] := by decide
  rw [e, e2, e3] at hw
  have hw2 : ws1 ++ ('c' :: ("onjure".toList ++
      (ws2 ++ c :: (cs ++ (ws3 ++ '=' :: (wv ++ ws)))))) =
      'c' :: ("onjure".toList ++ (" ".toList ++ 'x' :: (" ".toList ++ '=' :: v))) := by
    have hw3 := hw.symm
    simp only [List.append_assoc, List.cons_append, List.nil_append] at hw3 ⊢
    exact hw3
  obtain ⟨_, h2⟩ := skip_nil_of_head hws1 (by decide) hw2
  simp only [List.cons.injEq, true_and] at h2
  have h3 := List.append_cancel_left h2
  obtain ⟨_, _, h4⟩ := skip_unique hws2 (by decide) (identStart_not_whitespace hc)
    (by decide) h3
  have h4b : cs ++ (ws3 ++ '=' :: (wv ++ ws)) = ' ' :: ('=' :: v) := h4
  obtain ⟨_, h5⟩ := ident_tail_split hcs (by decide) h4b
  have h6 : ws3 ++ '=' :: (wv ++ ws) = " ".toList ++ '=' :: v := h5
  obtain ⟨_, _, h7⟩ := skip_unique hws3 (by decide) (by decide) (by decide) h6
  exact ⟨wv, ws, vs, hws, hv, h7⟩

/-- C19. There is no unary operator. Every text of an expression has, after skipped
text, a first character that is a quote, a decimal digit, a letter or underscore (of an
identifier, a boolean or the keyword `cast`) or an opening parenthesis; so no expression
begins with `-`, and `conjure x = -1` is not accepted as a variable declaration. -/
theorem no_unary_operator :
    (∀ w ts, Derives grammar (.sym "_expression") w ts →
      ∃ ws c rest, isSkip ws = true ∧ w = ws ++ c :: rest ∧
        (c = dquote ∨ c = squote ∨ c ∈ "0123456789".toList ∨
          c ∈ "abcdefghijklmnopqrstuvwxyzABCDEFGHIJKLMNOPQRSTUVWXYZ_".toList ∨ c = '(')) ∧
    (∀ w ts, Derives grammar (.sym "_expression") w ts → firstVisible w ≠ some '-') ∧
    (¬ ∃ ts, Accepts grammar (.sym "_expression") "-1".toList ts) ∧
    (¬ ∃ ts, Accepts grammar (.sym "variable_declaration") "conjure x = -1".toList ts) := by
  have hminus : ¬ (('-' : Char) = dquote ∨ '-' = squote ∨ digit.mem '-' = true ∨
      identStart.mem '-' = true ∨ '-' = '(') := by decide
  have key : ∀ (wv ws pre tail : List Char) (vs : List Tree), isSkip ws = true →
      isSkip pre = true → Derives grammar (.sym "_expression") wv vs →
      wv ++ ws = pre ++ '-' :: tail → False := by
    intro wv ws pre tail vs hws hpre hv he
    obtain ⟨ws0, c, rest, hws0, rfl, hc, hstart, _⟩ := expression_start hv
    have he2 : ws0 ++ c :: (rest ++ ws) = pre ++ '-' :: tail := by simpa using he
    obtain ⟨_, hc2, _⟩ := skip_unique hws0 hpre hc (by decide) he2
    rw [hc2] at hstart
    exact hminus hstart
  refine ⟨?_, ?_, ?_, ?_⟩
  · intro w ts h
    obtain ⟨ws, c, rest, hws, hw, _, hstart, _⟩ := expression_start h
    refine ⟨ws, c, rest, hws, hw, ?_⟩
    simpa only [digit_mem_iff, identStart_mem_iff] using hstart
  · intro w ts h hf
    obtain ⟨ws, c, rest, hws, rfl, hc, hstart, _⟩ := expression_start h
    rw [firstVisible_skip hws, firstVisible_cons hc] at hf
    simp only [Option.some.injEq] at hf
    rw [hf] at hstart
    exact hminus hstart
  · rintro ⟨ts, u, ws, hws, hw, hd⟩
    exact key u ws [] "1".toList ts hws rfl hd hw.symm
  · rintro ⟨ts, h⟩
    have e : "conjure x = -1".toList = "conjure x =".toList ++ " -1".toList := by decide
    rw [e] at h
    obtain ⟨wv, ws, vs, hws, hv, he⟩ := declaration_x_value h
    exact key wv ws " ".toList "1".toList vs hws (by decide) hv he

/-! ## The segments of the two kinds of string -/

theorem string_content_segment {u : List Char} {us : List Tree}
    (h : Derives grammar (.sym "_string_content") u us) :
    ∃ t, us = [t] ∧ (isLiteralSegment t ∨ isEscapeSegment t) := by
  rcases derives_string_content.mp h with ⟨hlit, rfl⟩ | ⟨c, hc, rfl, rfl⟩
  · exact ⟨_, rfl, Or.inl ⟨u, rfl, hlit⟩⟩
  · exact ⟨_, rfl, Or.inr ⟨c, hc, rfl⟩⟩

theorem singleContent_segments {u : List Char} {us : List Tree}
    (h : Derives grammar singleContent u us) :
    ∀ t ∈ us, isLiteralSegment t ∨ isEscapeSegment t := by
  refine rep_induction
    (P := fun _ us => ∀ t ∈ us, isLiteralSegment t ∨ isEscapeSegment t) ?_ ?_ h
  · intro t ht
    simp at ht
  · intro a v as vs ha _ ih t ht
    obtain ⟨s, rfl, hs⟩ := string_content_segment ha
    rcases List.mem_append.mp ht with ht | ht
    · simp only [List.mem_singleton] at ht
      rw [ht]
      exact hs
    · exact ih t ht

theorem doubleContent_segments {u : List Char} {us : List Tree}
    (h : Derives grammar doubleContent u us) :
    ∀ t ∈ us, isLiteralSegment t ∨ isEscapeSegment t ∨ isInterpolationSegment t := by
  refine rep_induction
    (P := fun _ us => ∀ t ∈ us,
      isLiteralSegment t ∨ isEscapeSegment t ∨ isInterpolationSegment t) ?_ ?_ h
  · intro t ht
    simp at ht
  · intro a v as vs ha _ ih t ht
    rcases List.mem_append.mp ht with ht | ht
    · rcases doubleItem_forms ha with ⟨hlit, rfl⟩ | ⟨c, hc, rfl, rfl⟩ |
        ⟨_, _, x, _, _, hx, _, rfl⟩ | ⟨_, _, _, x, _, _, _, hx, _, rfl⟩
      · simp only [List.mem_singleton] at ht
        exact Or.inl ⟨a, ht, hlit⟩
      · simp only [List.mem_singleton] at ht
        exact Or.inr (Or.inl ⟨c, hc, ht⟩)
      · simp only [List.mem_singleton] at ht
        exact Or.inr (Or.inr ⟨x, hx, Or.inl ht⟩)
      · simp only [List.mem_singleton] at ht
        exact Or.inr (Or.inr ⟨x, hx, Or.inr ht⟩)
    · exact ih t ht

theorem not_interpolation_node {t : Tree} (h : isLiteralSegment t ∨ isEscapeSegment t) :
    ∀ cs, t ≠ .node "string_interpolation" cs := by
  intro cs
  rcases h with ⟨x, rfl, _⟩ | ⟨c, _, rfl⟩
  · simp
  · simp [escapeTree]

/-- C13. Every tree of the string rule is a string node around content segments between
two equal quote tokens. When the quotes are single, each segment is a literal-text run or
an escape sequence and none is a `string_interpolation` node: the single-quoted
alternative of the rule repeats `_string_content` only. When they are double, each segment
is a literal-text run, an escape sequence or an interpolation, and all three occur. -/
theorem single_quoted_segments :
    (∀ w ts, Derives grammar (.sym "string") w ts →
      (∃ segs, ts = [.node "string" (.leaf "'".toList :: (segs ++ [.leaf "'".toList]))] ∧
        (∀ t ∈ segs, isLiteralSegment t ∨ isEscapeSegment t) ∧
        (∀ t ∈ segs, ∀ cs, t ≠ .node "string_interpolation" cs)) ∨
      (∃ segs, ts = [.node "string" (.leaf "\"".toList :: (segs ++ [.leaf "\"".toList]))] ∧
        (∀ t ∈ segs, isLiteralSegment t ∨ isEscapeSegment t ∨ isInterpolationSegment t))) ∧
    grammar.lookup "string" = some (.choice [
      .seq [.str "\"",
        .rep (.choice [.sym "_string_content", .sym "string_interpolation"]), .str "\""],
      .seq [.str "'", .rep (.sym "_string_content"), .str "'"]]) ∧
    Derives grammar (.sym "string") "\"a\\n$b\"".toList
      [.node "string" [.leaf "\"".toList, .leaf "a".toList,
        .node "escape_sequence" [.leaf "\\n".toList],
        .node "string_interpolation" [.leaf "$".toList,
          .node "identifier" [.leaf "b".toList]],
        .leaf "\"".toList]] := by
  refine ⟨?_, ?_, ?_⟩
  · intro w ts h
    rcases derives_string.mp h with ⟨_, u, _, us, _, _, hc, _, rfl⟩ |
      ⟨_, u, _, us, _, _, hc, _, rfl⟩
    · exact Or.inr ⟨us, rfl, doubleContent_segments hc⟩
    · exact Or.inl ⟨us, rfl, singleContent_segments hc,
        fun t ht => not_interpolation_node (singleContent_segments hc t ht)⟩
  · rfl
  · have hesc : Derives grammar doubleItem "\\n".toList [escapeTree "\\n".toList] :=
      .choice (List.mem_cons_self _ _)
        (derives_string_content.mpr (Or.inr ⟨'n', by decide, by decide, rfl⟩))
    have content : Derives grammar doubleContent "a\\n$b".toList
        [.leaf "a".toList, escapeTree "\\n".toList, bareInterpolation "b".toList] :=
      derives_cast
        (.rep_cons (doubleItem_literal "a".toList (by decide))
          (.rep_cons hesc (.rep_cons (doubleItem_bare "b".toList (by decide)) .rep_nil)))
        (by decide) rfl
    exact derives_string.mpr (Or.inl ⟨[], _, [], _, rfl, rfl, content, by decide, rfl⟩)

/-! ## The dollar in strings -/

theorem dollarsOK_cons_clean {c : Char} (hb : c ≠ backslash) (hd : c ≠ dollar)
    (y : List Char) : dollarsOK (c :: y) = dollarsOK y := by
  cases y with
  | nil => simp [dollarsOK, hd]
  | cons d rest => simp [dollarsOK, hb, hd]

theorem dollarsOK_append_clean {a : List Char} (ha : ∀ c ∈ a, c ≠ backslash ∧ c ≠ dollar)
    (y : List Char) : dollarsOK (a ++ y) = dollarsOK y := by
  induction a with
  | nil => rfl
  | cons c a ih =>
    have hc := ha c (List.mem_cons_self _ _)
    rw [List.cons_append, dollarsOK_cons_clean hc.1 hc.2]
    exact ih fun d hd => ha d (List.mem_cons_of_mem _ hd)

theorem dollarsOK_escape (c : Char) (y : List Char) :
    dollarsOK (backslash :: c :: y) = dollarsOK y := by
  simp [dollarsOK]

theorem dollarsOK_dollar (r : List Char) :
    dollarsOK (dollar :: r) = (startsInterpolation r && dollarsOK r) := by
  have hne : dollar ≠ backslash := by decide
  cases r with
  | nil => simp [dollarsOK, startsInterpolation]
  | cons d rest => simp [dollarsOK, hne]

theorem skip_no_dollar {ws : List Char} (hws : isSkip ws = true) :
    ∀ c ∈ ws, c ≠ backslash ∧ c ≠ dollar := by
  intro c hc
  have := List.all_eq_true.mp hws c hc
  constructor
  · rintro rfl
    exact absurd this (by decide)
  · rintro rfl
    exact absurd this (by decide)

theorem identChars_no_dollar {cs : List Char} (hcs : ∀ d ∈ cs, identCont.mem d = true) :
    ∀ c ∈ cs, c ≠ backslash ∧ c ≠ dollar := by
  intro c hc
  have := identCont_literal (hcs c hc)
  exact ⟨this.2.1, this.2.2⟩

theorem identifier_chars {x : List Char} (hx : identifierRE.accepts x = true) :
    ∀ d ∈ x, identCont.mem d = true := by
  obtain ⟨c, cs, rfl, hc, hcs⟩ := (identifierRE_accepts x).mp hx
  intro d hd
  rcases List.mem_cons.mp hd with rfl | hd
  · exact identCont_of_identStart hc
  · exact hcs d hd

theorem dropWhile_skip {ws : List Char} (hws : isSkip ws = true) {c : Char}
    (hc : whitespace.mem c = false) (y : List Char) :
    (ws ++ c :: y).dropWhile whitespace.mem = c :: y := by
  induction ws with
  | nil => simp [List.dropWhile_cons, hc]
  | cons d ds ih =>
    rw [isSkip_cons, Bool.and_eq_true] at hws
    simp only [List.cons_append, List.dropWhile_cons, hws.1, ↓reduceIte]
    exact ih hws.2

theorem dropWhile_ident {cs : List Char} (hcs : ∀ d ∈ cs, identCont.mem d = true)
    (z : List Char) : (cs ++ z).dropWhile identCont.mem = z.dropWhile identCont.mem := by
  induction cs with
  | nil => rfl
  | cons d ds ih =>
    simp only [List.cons_append, List.dropWhile_cons, hcs d (List.mem_cons_self _ _),
      ↓reduceIte]
    exact ih fun e he => hcs e (List.mem_cons_of_mem _ he)

theorem whitespace_not_identCont {c : Char} (h : whitespace.mem c = true) :
    identCont.mem c = false := by
  by_contra hc
  have := identCont_not_whitespace (by simpa using hc)
  rw [h] at this
  exact absurd this (by simp)

/-- The text of a braced interpolation after its `${` passes the check. -/
theorem bracedOK_of_form {ws2 ws3 x : List Char} (hws2 : isSkip ws2 = true)
    (hws3 : isSkip ws3 = true) (hx : identifierRE.accepts x = true) (y : List Char) :
    bracedOK (ws2 ++ (x ++ (ws3 ++ (rbrace :: y)))) = true := by
  obtain ⟨c, cs, rfl, hc, hcs⟩ := (identifierRE_accepts x).mp hx
  have h1 : (ws2 ++ (c :: cs ++ (ws3 ++ (rbrace :: y)))).dropWhile whitespace.mem =
      c :: (cs ++ (ws3 ++ (rbrace :: y))) := by
    rw [List.cons_append]
    exact dropWhile_skip hws2 (identStart_not_whitespace hc) _
  have h2 : (ws3 ++ (rbrace :: y)).dropWhile identCont.mem = ws3 ++ (rbrace :: y) := by
    cases ws3 with
    | nil => simp [List.dropWhile_cons, (by decide : identCont.mem rbrace = false)]
    | cons e ws3 =>
      rw [isSkip_cons, Bool.and_eq_true] at hws3
      simp [List.dropWhile_cons, whitespace_not_identCont hws3.1]
  have h3 : firstVisible (ws3 ++ (rbrace :: y)) = some rbrace := by
    rw [firstVisible_skip hws3, firstVisible_cons (by decide)]
  unfold bracedOK
  rw [h1]
  simp only [hc, Bool.true_and, dropWhile_ident hcs, h2, h3, beq_self_eq_true]

/-- The text of a bare interpolation after its `$` passes the check. -/
theorem startsInterpolation_bare {ws2 x : List Char} (hws2 : isSkip ws2 = true)
    (hx : identifierRE.accepts x = true) (y : List Char) :
    startsInterpolation (ws2 ++ (x ++ y)) = true := by
  obtain ⟨c, cs, rfl, hc, hcs⟩ := (identifierRE_accepts x).mp hx
  have hfv : firstVisible (ws2 ++ (c :: cs ++ y)) = some c := by
    rw [firstVisible_skip hws2, List.cons_append,
      firstVisible_cons (identStart_not_whitespace hc)]
  have hne : ∀ e : Char, (whitespace.mem e = true ∨ identStart.mem e = true) → e ≠ lbrace := by
    rintro e (he | he) rfl
    · exact absurd he (by decide)
    · exact absurd he (by decide)
  cases ws2 with
  | nil =>
    simp only [List.nil_append, List.cons_append] at hfv ⊢
    simp only [startsInterpolation, hne c (Or.inr hc), ↓reduceIte, hfv, hc]
  | cons e ws2 =>
    rw [isSkip_cons, Bool.and_eq_true] at hws2
    simp only [List.cons_append] at hfv ⊢
    simp only [startsInterpolation, hne e (Or.inl hws2.1), ↓reduceIte, hfv, hc]

/-- An item of string content keeps the scan of dollars. -/
theorem doubleItem_dollarsOK {a : List Char} {as : List Tree}
    (h : Derives grammar doubleItem a as) (y : List Char) :
    dollarsOK (a ++ y) = dollarsOK y := by
  rcases doubleItem_forms h with ⟨hlit, _⟩ | ⟨c, _, rfl, _⟩ |
    ⟨ws, ws2, x, hws, hws2, hx, rfl, _⟩ | ⟨ws, ws2, ws3, x, hws, hws2, hws3, hx, rfl, _⟩
  · obtain ⟨_, hall⟩ := (literalRunRE_accepts a).mp hlit
    exact dollarsOK_append_clean (fun c hc => ⟨(hall c hc).2.1, (hall c hc).2.2⟩) y
  · exact dollarsOK_escape c y
  · have hx2 := identChars_no_dollar (identifier_chars hx)
    rw [List.append_assoc, dollarsOK_append_clean (skip_no_dollar hws), List.cons_append,
      dollarsOK_dollar, List.append_assoc, startsInterpolation_bare hws2 hx, Bool.true_and,
      dollarsOK_append_clean (skip_no_dollar hws2), dollarsOK_append_clean hx2]
  · have hx2 := identChars_no_dollar (identifier_chars hx)
    have hl : lbrace ≠ backslash ∧ lbrace ≠ dollar := by decide
    have hr : rbrace ≠ backslash ∧ rbrace ≠ dollar := by decide
    have e : ws ++ dollar :: lbrace :: (ws2 ++ (x ++ (ws3 ++ [rbrace]))) ++ y =
        ws ++ (dollar :: lbrace :: (ws2 ++ (x ++ (ws3 ++ (rbrace :: y))))) := by simp
    rw [e, dollarsOK_append_clean (skip_no_dollar hws), dollarsOK_dollar]
    have hs : startsInterpolation (lbrace :: (ws2 ++ (x ++ (ws3 ++ (rbrace :: y))))) = true := by
      simp only [startsInterpolation, ↓reduceIte]
      exact bracedOK_of_form hws2 hws3 hx y
    rw [hs, Bool.true_and, dollarsOK_cons_clean hl.1 hl.2,
      dollarsOK_append_clean (skip_no_dollar hws2), dollarsOK_append_clean hx2,
      dollarsOK_append_clean (skip_no_dollar hws3), dollarsOK_cons_clean hr.1 hr.2]

theorem doubleContent_dollarsOK {u : List Char} {us : List Tree}
    (h : Derives grammar doubleContent u us) :
    ∀ y, dollarsOK (u ++ y) = dollarsOK y := by
  refine rep_induction (P := fun u _ => ∀ y, dollarsOK (u ++ y) = dollarsOK y) ?_ ?_ h
  · intro y
    rfl
  · intro a v as vs ha _ ih y
    rw [List.append_assoc, doubleItem_dollarsOK ha, ih]

theorem singleContent_dollarsOK {u : List Char} {us : List Tree}
    (h : Derives grammar singleContent u us) :
    ∀ y, dollarsOK (u ++ y) = dollarsOK y := by
  refine rep_induction (P := fun u _ => ∀ y, dollarsOK (u ++ y) = dollarsOK y) ?_ ?_ h
  · intro y
    rfl
  · intro a v as vs ha _ ih y
    rw [List.append_assoc,
      doubleItem_dollarsOK (.choice (List.mem_cons_self _ _) ha : Derives grammar doubleItem a as),
      ih]

/-- In every text of the string rule each `$` is the second character of an escape
sequence or begins an interpolation. -/
theorem string_dollarsOK {w : List Char} {ts : List Tree}
    (h : Derives grammar (.sym "string") w ts) : dollarsOK w = true := by
  rcases derives_string.mp h with ⟨ws, u, ws2, us, hws, hws2, hc, rfl, _⟩ |
    ⟨ws, u, ws2, us, hws, hws2, hc, rfl, _⟩
  · rw [dollarsOK_append_clean (skip_no_dollar hws),
      dollarsOK_append_clean (by decide : ∀ c ∈ "\"".toList, c ≠ backslash ∧ c ≠ dollar),
      doubleContent_dollarsOK hc, dollarsOK_append_clean (skip_no_dollar hws2)]
    decide
  · rw [dollarsOK_append_clean (skip_no_dollar hws),
      dollarsOK_append_clean (by decide : ∀ c ∈ "'".toList, c ≠ backslash ∧ c ≠ dollar),
      singleContent_dollarsOK hc, dollarsOK_append_clean (skip_no_dollar hws2)]
    decide

/-- An accepted input that ends with a visible character is derived as a whole. -/
theorem accepts_visible_end {r : Rule} {body : List Char} {c : Char} {ts : List Tree}
    (hc : whitespace.mem c = false) (h : Accepts g r (body ++ [c]) ts) :
    Derives g r (body ++ [c]) ts := by
  obtain ⟨u, ws, hws, hw, hd⟩ := h
  rcases List.eq_nil_or_concat ws with rfl | ⟨ws2, e, rfl⟩
  · rw [List.append_nil] at hw
    rw [hw]
    exact hd
  · rw [List.concat_eq_append, ← List.append_assoc] at hw
    have h1 := List.append_inj_right' hw rfl
    simp only [List.cons.injEq, and_true] at h1
    rw [List.concat_eq_append, isSkip_append, isSkip_cons, ← h1, hc] at hws
    simp at hws

/-- C20. In a double-quoted string a `$` that is not escaped is accepted only as the
start of an interpolation: scanning any text of the string rule from the left, each `$`
is the second character of an escape sequence or is followed by an identifier (after
skipped text) or by `{`, an identifier and `}`; the content segments of a double-quoted
string are literal runs without `$`, escape sequences and interpolations. So `"$5"` and
`"cost: $"` are not accepted, while `"\$5"` and `"$name"` are derived. -/
theorem dollar_only_interpolation :
    (∀ w ts, Derives grammar (.sym "string") w ts → dollarsOK w = true) ∧
    (∀ w segs, Derives grammar (.sym "string") w
        [.node "string" (.leaf "\"".toList :: (segs ++ [.leaf "\"".toList]))] →
      ∀ t ∈ segs, (∃ x, t = .leaf x ∧ dollar ∉ x) ∨ isEscapeSegment t ∨
        isInterpolationSegment t) ∧
    (¬ ∃ ts, Accepts grammar (.sym "string") "\"$5\"".toList ts) ∧
    (¬ ∃ ts, Accepts grammar (.sym "string") "\"cost: $\"".toList ts) ∧
    Derives grammar (.sym "string") "\"\\$5\"".toList
      [.node "string" [.leaf "\"".toList, .node "escape_sequence" [.leaf "\\$".toList],
        .leaf "5".toList, .leaf "\"".toList]] ∧
    Derives grammar (.sym "string") "\"$name\"".toList
      [.node "string" [.leaf "\"".toList,
        .node "string_interpolation" [.leaf "$".toList,
          .node "identifier" [.leaf "name".toList]],
        .leaf "\"".toList]] := by
  refine ⟨fun w ts h => string_dollarsOK h, ?_, ?_, ?_, ?_, ?_⟩
  · intro w segs h t ht
    rcases derives_string.mp h with ⟨_, u, _, us, _, _, hc, _, hts⟩ |
      ⟨_, u, _, us, _, _, hc, _, hts⟩
    · simp only [stringTree, List.cons.injEq, Tree.node.injEq, true_and, and_true] at hts
      have hus : segs = us := List.append_cancel_right hts
      subst hus
      rcases doubleContent_segments hc t ht with ⟨x, rfl, hx⟩ | hesc | hint
      · exact Or.inl ⟨x, rfl, fun hd => ((literalRunRE_accepts x).mp hx).2 dollar hd |>.2.2 rfl⟩
      · exact Or.inr (Or.inl hesc)
      · exact Or.inr (Or.inr hint)
    · simp only [stringTree, List.cons.injEq, Tree.node.injEq, Tree.leaf.injEq, true_and,
        and_true] at hts
      exact absurd hts.1 (by decide)
  · rintro ⟨ts, h⟩
    have e : "\"$5\"".toList = "\"$5".toList ++ [dquote] := by decide
    rw [e] at h
    have h1 := string_dollarsOK (accepts_visible_end (by decide) h)
    exact absurd h1 (by decide)
  · rintro ⟨ts, h⟩
    have e : "\"cost: $\"".toList = "\"cost: $".toList ++ [dquote] := by decide
    rw [e] at h
    have h1 := string_dollarsOK (accepts_visible_end (by decide) h)
    exact absurd h1 (by decide)
  · have hesc : Derives grammar doubleItem "\\$".toList [escapeTree "\\$".toList] :=
      .choice (List.mem_cons_self _ _)
        (derives_string_content.mpr (Or.inr ⟨dollar, by decide, by decide, rfl⟩))
    have content : Derives grammar doubleContent "\\$5".toList
        [escapeTree "\\$".toList, .leaf "5".toList] :=
      derives_cast (.rep_cons hesc (.rep_cons (doubleItem_literal "5".toList (by decide))
        .rep_nil)) (by decide) rfl
    exact derives_string.mpr (Or.inl ⟨[], _, [], _, rfl, rfl, content, by decide, rfl⟩)
  · have content : Derives grammar doubleContent "$name".toList
        [bareInterpolation "name".toList] :=
      derives_cast (.rep_cons (doubleItem_bare "name".toList (by decide)) .rep_nil)
        (by decide) rfl
    exact derives_string.mpr (Or.inl ⟨[], _, [], _, rfl, rfl, content, by decide, rfl⟩)

/-! ## Output, error and command -/

theorem lookup_error :
    grammar.lookup "error" = some (.seq [.str "curse", .field "message" (.sym "string")]) :=
  rfl

theorem lookup_command :
    grammar.lookup "command" = some (.seq [
      .str "evoke", .field "command" (.choice [.sym "string", .sym "identifier"])]) :=
  rfl

/-- A rule that is a keyword token and one labelled part: its texts and trees. -/
theorem derives_keyword_field {n kw f : String} {r : Rule}
    (hl : grammar.lookup n = some (.seq [.str kw, .field f r])) (hn : hidden n = false)
    {w : List Char} {ts : List Tree} :
    Derives grammar (.sym n) w ts ↔
      ∃ ws v vs, isSkip ws = true ∧ Derives grammar r v vs ∧ w = ws ++ (kw.toList ++ v) ∧
        ts = [.node n (.leaf kw.toList :: vs.map (Tree.field f))] := by
  rw [derives_sym_of hl, hn]
  constructor
  · rintro ⟨us, hd, rfl⟩
    simp only [derives_seq_cons, derives_seq_nil, derives_str, derives_field] at hd
    obtain ⟨u1, v1, us1, vs1, rfl, rfl, ⟨ws, hws, rfl, rfl⟩, u2, v2, us2, vs2, rfl, rfl,
      ⟨vs, hv, rfl⟩, rfl, rfl⟩ := hd
    exact ⟨ws, u2, vs, hws, hv, by simp, by simp⟩
  · rintro ⟨ws, v, vs, hws, hv, rfl, rfl⟩
    refine ⟨.leaf kw.toList :: vs.map (Tree.field f), ?_, ?_⟩
    · exact derives_seq_str hws (derives_seq_one.mpr (.field hv))
    · simp

/-- The text of a string starts, after skipped text, with a quote. -/
theorem string_start {v : List Char} {ts : List Tree}
    (h : Derives grammar (.sym "string") v ts) :
    ∃ ws q rest t, isSkip ws = true ∧ (q = dquote ∨ q = squote) ∧ v = ws ++ q :: rest ∧
      ts = [t] := by
  rcases derives_string.mp h with ⟨ws, u, ws2, us, hws, _, _, rfl, rfl⟩ |
    ⟨ws, u, ws2, us, hws, _, _, rfl, rfl⟩
  · exact ⟨ws, dquote, u ++ (ws2 ++ "\"".toList), _, hws, Or.inl rfl, rfl, rfl⟩
  · exact ⟨ws, squote, u ++ (ws2 ++ "'".toList), _, hws, Or.inr rfl, rfl, rfl⟩

/-- Skipped text in front of a string is part of the text of the string. -/
theorem string_prepend_skip {v : List Char} {ts : List Tree} (ws0 : List Char)
    (hws0 : isSkip ws0 = true) (h : Derives grammar (.sym "string") v ts) :
    Derives grammar (.sym "string") (ws0 ++ v) ts := by
  rcases derives_string.mp h with ⟨ws, u, ws2, us, hws, hws2, hc, rfl, rfl⟩ |
    ⟨ws, u, ws2, us, hws, hws2, hc, rfl, rfl⟩
  · exact derives_string.mpr (Or.inl ⟨ws0 ++ ws, u, ws2, us,
      by rw [isSkip_append, hws0, hws]; rfl, hws2, hc, by simp, rfl⟩)
  · exact derives_string.mpr (Or.inr ⟨ws0 ++ ws, u, ws2, us,
      by rw [isSkip_append, hws0, hws]; rfl, hws2, hc, by simp, rfl⟩)

/-- A keyword, a space and an identifier is not a keyword followed by a string. -/
theorem keyword_identifier_not_string (kw : List Char) (c0 : Char) {i u ws v : List Char}
    {kw0 : List Char} {ts : List Tree} (hkw : kw = c0 :: kw0)
    (hc0 : whitespace.mem c0 = false) (hi : identifierRE.accepts i = true)
    {ws1 : List Char} (hws1 : isSkip ws1 = true) (hv : Derives grammar (.sym "string") v ts)
    (hu : u = ws1 ++ (kw ++ v)) (he : u ++ ws = kw ++ (" ".toList ++ i)) : False := by
  obtain ⟨ws2, q, rest, _, hws2, hq, rfl, _⟩ := string_start hv
  obtain ⟨c, cs, rfl, hc, _⟩ := (identifierRE_accepts i).mp hi
  subst hu
  subst hkw
  have he2 : ws1 ++ c0 :: (kw0 ++ (ws2 ++ q :: (rest ++ ws))) =
      c0 :: (kw0 ++ (" ".toList ++ c :: cs)) := by
    simpa using he
  obtain ⟨_, h2⟩ := skip_nil_of_head hws1 hc0 he2
  simp only [List.cons.injEq, true_and] at h2
  have h3 := List.append_cancel_left h2
  have hq2 : whitespace.mem q = false := by
    rcases hq with rfl | rfl <;> decide
  obtain ⟨_, h4, _⟩ := skip_unique hws2 (by decide) hq2 (identStart_not_whitespace hc) h3
  rw [← h4] at hc
  rcases hq with rfl | rfl
  · exact absurd hc (by decide)
  · exact absurd hc (by decide)

/-- C15. The payload of `evoke` is a string or an identifier, while the message of
`incant` and of `curse` is a string. For every identifier `i`, `evoke i` is derived as a
command, and `incant i` and `curse i` are not accepted as output and error; for every
string `s`, `evoke s`, `incant s` and `curse s` are derived, as a command node, an output
node and an error node. -/
theorem evoke_incant_curse_payload :
    (∀ w ts, Derives grammar (.sym "command") w ts →
      ∃ t, ts = [.node "command" [.leaf "evoke".toList, .field "command" t]] ∧
        ((∃ cs, t = .node "string" cs) ∨ (∃ x, t = .node "identifier" [.leaf x]))) ∧
    (∀ w ts, Derives grammar (.sym "output") w ts →
      ∃ cs, ts = [.node "output" [.leaf "incant".toList,
        .field "message" (.node "string" cs)]]) ∧
    (∀ w ts, Derives grammar (.sym "error") w ts →
      ∃ cs, ts = [.node "error" [.leaf "curse".toList,
        .field "message" (.node "string" cs)]]) ∧
    (∀ i, identifierRE.accepts i = true →
      Derives grammar (.sym "command") ("evoke".toList ++ (" ".toList ++ i))
        [.node "command" [.leaf "evoke".toList, .field "command" (.node "identifier" [.leaf i])]] ∧
      (¬ ∃ ts, Accepts grammar (.sym "output") ("incant".toList ++ (" ".toList ++ i)) ts) ∧
      (¬ ∃ ts, Accepts grammar (.sym "error") ("curse".toList ++ (" ".toList ++ i)) ts)) ∧
    (∀ s t, Derives grammar (.sym "string") s [t] →
      Derives grammar (.sym "command") ("evoke".toList ++ (" ".toList ++ s))
        [.node "command" [.leaf "evoke".toList, .field "command" t]] ∧
      Derives grammar (.sym "output") ("incant".toList ++ (" ".toList ++ s))
        [.node "output" [.leaf "incant".toList, .field "message" t]] ∧
      Derives grammar (.sym "error") ("curse".toList ++ (" ".toList ++ s))
        [.node "error" [.leaf "curse".toList, .field "message" t]]) := by
  have hcmd := @derives_keyword_field "command" "evoke" "command" _ lookup_command (by decide)
  have hout := @derives_keyword_field "output" "incant" "message" _ lookup_output (by decide)
  have herr := @derives_keyword_field "error" "curse" "message" _ lookup_error (by decide)
  refine ⟨?_, ?_, ?_, ?_, ?_⟩
  · intro w ts h
    obtain ⟨ws, v, vs, _, hv, _, rfl⟩ := hcmd.mp h
    obtain ⟨r, hr, hd⟩ := derives_choice.mp hv
    simp only [List.mem_cons, List.mem_singleton, List.not_mem_nil, or_false] at hr
    rcases hr with rfl | rfl
    · obtain ⟨_, cs, _, _, rfl⟩ := derives_sym_node (by decide) hd
      exact ⟨_, rfl, Or.inl ⟨cs, rfl⟩⟩
    · obtain ⟨_, x, _, _, _, rfl⟩ := derives_identifier.mp hd
      exact ⟨_, rfl, Or.inr ⟨x, rfl⟩⟩
  · intro w ts h
    obtain ⟨ws, v, vs, _, hv, _, rfl⟩ := hout.mp h
    obtain ⟨_, cs, _, _, rfl⟩ := derives_sym_node (by decide) hv
    exact ⟨cs, rfl⟩
  · intro w ts h
    obtain ⟨ws, v, vs, _, hv, _, rfl⟩ := herr.mp h
    obtain ⟨_, cs, _, _, rfl⟩ := derives_sym_node (by decide) hv
    exact ⟨cs, rfl⟩
  · intro i hi
    refine ⟨?_, ?_, ?_⟩
    · exact hcmd.mpr ⟨[], " ".toList ++ i, [identifierTree i], rfl,
        .choice (List.mem_cons_of_mem _ (List.mem_cons_self _ _))
          (derives_identifier.mpr ⟨" ".toList, i, by decide, hi, rfl, rfl⟩), rfl, rfl⟩
    · rintro ⟨ts, u, ws, hws, hw, hd⟩
      obtain ⟨ws1, v, vs, hws1, hv, hu, _⟩ := hout.mp hd
      exact keyword_identifier_not_string "incant".toList 'i' rfl
        (by decide) hi hws1 hv hu hw.symm
    · rintro ⟨ts, u, ws, hws, hw, hd⟩
      obtain ⟨ws1, v, vs, hws1, hv, hu, _⟩ := herr.mp hd
      exact keyword_identifier_not_string "curse".toList 'c' rfl
        (by decide) hi hws1 hv hu hw.symm
  · intro s t hs
    have hs2 := string_prepend_skip " ".toList (by decide) hs
    refine ⟨?_, ?_, ?_⟩
    · exact hcmd.mpr ⟨[], _, [t], rfl, .choice (List.mem_cons_self _ _) hs2, rfl, rfl⟩
    · exact hout.mpr ⟨[], _, [t], rfl, hs2, rfl, rfl⟩
    · exact herr.mpr ⟨[], _, [t], rfl, hs2, rfl, rfl⟩

/-! ## Line comments -/

theorem lookup_source_file :
    grammar.lookup "source_file" = some (.rep (.sym "_definition")) := rfl

/-- The texts and trees of the comment rule: the token `#` and the line text, each after
skipped text. -/
theorem derives_comment {w : List Char} {ts : List Tree} :
    Derives grammar (.sym "comment") w ts ↔
      ∃ ws ws2 x, isSkip ws = true ∧ isSkip ws2 = true ∧ lineRE.accepts x = true ∧
        w = ws ++ ("#".toList ++ (ws2 ++ x)) ∧
        ts = [.node "comment" [.leaf "#".toList, .leaf x]] := by
  rw [derives_sym_of lookup_comment]
  have hh : hidden "comment" = false := by decide
  simp only [hh]
  constructor
  · rintro ⟨us, hd, rfl⟩
    simp only [derives_seq_cons, derives_seq_nil, derives_str, derives_pat] at hd
    obtain ⟨u1, v1, us1, vs1, rfl, rfl, ⟨ws, hws, rfl, rfl⟩, u2, v2, us2, vs2, rfl, rfl,
      ⟨ws2, x, hws2, hx, rfl, rfl⟩, rfl, rfl⟩ := hd
    exact ⟨ws, ws2, x, hws, hws2, hx, by simp, by simp⟩
  · rintro ⟨ws, ws2, x, hws, hws2, hx, rfl, rfl⟩
    exact ⟨_, derives_seq_str hws (derives_seq_one.mpr (.pat hws2 hx)), by simp⟩

/-- C12. The comment rule is the token `#` followed by the token `[^\n]*`, and white space
is skipped between the two: the two-line text `#`, newline, `conjure x = 1` is derived as
one comment node, also as the only child of a source_file, and the text that node covers
holds a newline. What holds for every comment node: its two tokens hold no newline, and the
covered text is `#`, skipped white space, and the line text. -/
theorem comment_covers_newline :
    Derives grammar (.sym "comment") "#\nconjure x = 1".toList
      [.node "comment" [.leaf "#".toList, .leaf "conjure x = 1".toList]] ∧
    Derives grammar (.sym "source_file") "#\nconjure x = 1".toList
      [.node "source_file" [.node "comment" [.leaf "#".toList, .leaf "conjure x = 1".toList]]] ∧
    newline ∈ "#\nconjure x = 1".toList ∧
    (∀ w ts, Derives grammar (.sym "comment") w ts →
      ∃ ws ws2 x, isSkip ws = true ∧ isSkip ws2 = true ∧ (∀ c ∈ x, c ≠ newline) ∧
        w = ws ++ '#' :: (ws2 ++ x) ∧ ts = [.node "comment" [.leaf "#".toList, .leaf x]]) := by
  have h1 : Derives grammar (.sym "comment") "#\nconjure x = 1".toList
      [.node "comment" [.leaf "#".toList, .leaf "conjure x = 1".toList]] :=
    derives_comment.mpr ⟨[], "\n".toList, "conjure x = 1".toList, rfl, by decide, by decide,
      by decide, rfl⟩
  refine ⟨h1, ?_, by decide, ?_⟩
  · refine (derives_sym_of lookup_source_file).mpr ⟨_, ?_, by
      have hh : hidden "source_file" = false := by decide
      simp only [hh]
      rfl⟩
    exact derives_cast (.rep_cons (derives_definition.mpr
      ⟨"comment", by simp [definitionKinds], h1⟩) .rep_nil) (by simp) rfl
  · intro w ts h
    obtain ⟨ws, ws2, x, hws, hws2, hx, rfl, rfl⟩ := derives_comment.mp h
    exact ⟨ws, ws2, x, hws, hws2, (lineRE_accepts x).mp hx, rfl, rfl⟩

/-! ## Function declarations -/

theorem lookup_function_declaration :
    grammar.lookup "function_declaration" = some (.seq [
      .str "enchant",
      .field "name" (.sym "identifier"),
      .str "(",
      .optional (.sym "parameter_list"),
      .str ")",
      .field "body" (.sym "block")]) :=
  rfl

theorem lookup_parameter_list :
    grammar.lookup "parameter_list" = some (.seq [
      .sym "identifier", .rep (.seq [.str ",", .sym "identifier"])]) :=
  rfl

theorem visible_append (a b : List Char) : visible (a ++ b) = visible a ++ visible b :=
  List.filter_append _ _

theorem visible_skip {ws : List Char} (h : isSkip ws = true) : visible ws = [] := by
  unfold visible
  rw [List.filter_eq_nil_iff]
  intro c hc
  have := (List.all_eq_true.mp h) c hc
  simp [this]

theorem visible_identifier {x : List Char} (h : identifierRE.accepts x = true) :
    visible x = x := by
  obtain ⟨c, cs, rfl, hc, hcs⟩ := (identifierRE_accepts x).mp h
  unfold visible
  rw [List.filter_eq_self]
  intro d hd
  rcases List.mem_cons.mp hd with rfl | hd
  · simp [identStart_not_whitespace hc]
  · simp [identCont_not_whitespace (hcs d hd)]

/-- The parameters after the first: white space aside, the text is the names, each after
one comma. -/
theorem rest_params_inv {v : List Char} {vs : List Tree}
    (h : Derives grammar (.rep (.seq [.str ",", .sym "identifier"])) v vs) :
    ∃ ps : List (List Char), (∀ p ∈ ps, identifierRE.accepts p = true) ∧
      vs = restArgsTrees (ps.map identifierTree) ∧ visible v = restArgsText ps := by
  refine rep_induction
    (P := fun v vs => ∃ ps : List (List Char), (∀ p ∈ ps, identifierRE.accepts p = true) ∧
      vs = restArgsTrees (ps.map identifierTree) ∧ visible v = restArgsText ps) ?_ ?_ h
  · exact ⟨[], by simp, rfl, rfl⟩
  · intro a v as vs ha _ ih
    obtain ⟨ps, hps, rfl, hv⟩ := ih
    simp only [derives_seq_cons, derives_seq_nil, derives_str, derives_identifier] at ha
    obtain ⟨u1, v1, us1, vs1, rfl, rfl, ⟨ws, hws, rfl, rfl⟩, u2, v2, us2, vs2, rfl, rfl,
      ⟨ws2, p, hws2, hp, rfl, rfl⟩, rfl, rfl⟩ := ha
    refine ⟨p :: ps, ?_, ?_, ?_⟩
    · intro q hq
      rcases List.mem_cons.mp hq with rfl | hq
      · exact hp
      · exact hps q hq
    · simp [restArgsTrees]
    · have hc : visible ",".toList = ",".toList := by decide
      simp only [visible_append, visible_skip hws, visible_skip hws2, visible_identifier hp,
        hv, hc, restArgsText, List.nil_append, List.append_nil, List.append_assoc]

/-- The optional parameter list: absent, or identifiers separated by single commas. -/
theorem optional_params_inv {u : List Char} {us : List Tree}
    (h : Derives grammar (.optional (.sym "parameter_list")) u us) :
    ∃ ps : List (List Char), (∀ p ∈ ps, identifierRE.accepts p = true) ∧
      us = parameterTrees ps ∧ visible u = argsText ps := by
  rcases derives_optional.mp h with ⟨rfl, rfl⟩ | h
  · exact ⟨[], by simp, rfl, rfl⟩
  · obtain ⟨us2, hd, rfl⟩ := (derives_sym_of lookup_parameter_list).mp h
    simp only [derives_seq_cons, derives_seq_nil, derives_identifier] at hd
    obtain ⟨u1, v1, us1, vs1, rfl, rfl, ⟨ws, p, hws, hp, rfl, rfl⟩, u2, v2, us2, vs2, rfl, rfl,
      hrest, rfl, rfl⟩ := hd
    obtain ⟨ps, hps, rfl, hv⟩ := rest_params_inv hrest
    refine ⟨p :: ps, ?_, ?_, ?_⟩
    · intro q hq
      rcases List.mem_cons.mp hq with rfl | hq
      · exact hp
      · exact hps q hq
    · have hh : hidden "parameter_list" = false := by decide
      simp [parameterTrees, hh]
    · simp only [visible_append, visible_skip hws, visible_identifier hp, hv, argsText,
        List.nil_append, List.append_nil]

/-- The parts of every function declaration: the keyword, the name, the parenthesised
optional parameter list and the body block. -/
theorem function_declaration_inv {w : List Char} {ts : List Tree}
    (h : Derives grammar (.sym "function_declaration") w ts) :
    ∃ (f : List Char) (ps : List (List Char)) (b : List Char) (body : Tree),
      identifierRE.accepts f = true ∧ (∀ p ∈ ps, identifierRE.accepts p = true) ∧
      Derives grammar (.sym "block") b [body] ∧
      visible w = "enchant".toList ++ (f ++ ("(".toList ++ (argsText ps ++
        (")".toList ++ visible b)))) ∧
      ts = [functionTree f ps body] := by
  obtain ⟨us, hd, rfl⟩ := (derives_sym_of lookup_function_declaration).mp h
  simp only [derives_seq_cons, derives_seq_nil, derives_str, derives_field,
    derives_identifier] at hd
  obtain ⟨u1, v1, us1, vs1, rfl, rfl, ⟨ws1, hws1, rfl, rfl⟩,
    u2, v2, us2, vs2, rfl, rfl, ⟨_, ⟨ws2, f, hws2, hf, rfl, rfl⟩, rfl⟩,
    u3, v3, us3, vs3, rfl, rfl, ⟨ws3, hws3, rfl, rfl⟩,
    u4, v4, us4, vs4, rfl, rfl, hparams,
    u5, v5, us5, vs5, rfl, rfl, ⟨ws5, hws5, rfl, rfl⟩,
    u6, v6, us6, vs6, rfl, rfl, ⟨bs, hb, rfl⟩, rfl, rfl⟩ := hd
  obtain ⟨ps, hps, rfl, hu⟩ := optional_params_inv hparams
  obtain ⟨r, cs, _, _, rfl⟩ := derives_sym_node (by decide : hidden "block" = false) hb
  refine ⟨f, ps, u6, .node "block" cs, hf, hps, hb, ?_, ?_⟩
  · have h1 : visible "enchant".toList = "enchant".toList := by decide
    have h2 : visible "(".toList = "(".toList := by decide
    have h3 : visible ")".toList = ")".toList := by decide
    simp only [visible_append, visible_skip hws1, visible_skip hws2, visible_skip hws3,
      visible_skip hws5, visible_identifier hf, hu, h1, h2, h3, List.nil_append,
      List.append_nil, List.append_assoc]
  · have hh : hidden "function_declaration" = false := by decide
    simp [functionTree, hh]

theorem derives_rest_params (ps : List (List Char))
    (hps : ∀ p ∈ ps, identifierRE.accepts p = true) :
    Derives grammar (.rep (.seq [.str ",", .sym "identifier"])) (restParamsText ps)
      (restArgsTrees (ps.map identifierTree)) := by
  induction ps with
  | nil => exact .rep_nil
  | cons p ps ih =>
    have hp := hps p (List.mem_cons_self _ _)
    have hitem : Derives grammar (.seq [.str ",", .sym "identifier"])
        ([] ++ (",".toList ++ (" ".toList ++ p))) [.leaf ",".toList, identifierTree p] :=
      derives_seq_str rfl (derives_seq_one.mpr
        (derives_identifier.mpr ⟨" ".toList, p, by decide, hp, rfl, rfl⟩))
    have e : ", ".toList = ",".toList ++ " ".toList := by decide
    exact derives_cast (.rep_cons hitem (ih fun q hq => hps q (List.mem_cons_of_mem _ hq)))
      (by simp [restParamsText, e]) (by simp [restArgsTrees])

theorem derives_optional_params (ps : List (List Char))
    (hps : ∀ p ∈ ps, identifierRE.accepts p = true) :
    Derives grammar (.optional (.sym "parameter_list")) (paramsText ps) (parameterTrees ps) := by
  cases ps with
  | nil => exact .optional_none
  | cons p ps =>
    have hp := hps p (List.mem_cons_self _ _)
    have hrest := derives_rest_params ps fun q hq => hps q (List.mem_cons_of_mem _ hq)
    refine .optional_some ((derives_sym_of lookup_parameter_list).mpr
      ⟨identifierTree p :: restArgsTrees (ps.map identifierTree), ?_, rfl⟩)
    exact derives_cast (.seq_cons (derives_identifier.mpr ⟨[], p, rfl, hp, rfl, rfl⟩)
      (derives_seq_one.mpr hrest)) (by simp [paramsText]) rfl

/-- A function declaration from its parts. -/
theorem derives_function (f : List Char) (ps : List (List Char)) (b : List Char) (body : Tree)
    (hf : identifierRE.accepts f = true) (hps : ∀ p ∈ ps, identifierRE.accepts p = true)
    (hb : Derives grammar (.sym "block") b [body]) :
    Derives grammar (.sym "function_declaration")
      ("enchant".toList ++ ((" ".toList ++ f) ++ ("(".toList ++ (paramsText ps ++
        (")".toList ++ b)))))
      [functionTree f ps body] := by
  refine (derives_sym_of lookup_function_declaration).mpr ⟨_, ?_, rfl⟩
  refine derives_cast (derives_seq_str (rfl : isSkip [] = true) (.seq_cons
    (.field (derives_identifier.mpr ⟨" ".toList, f, by decide, hf, rfl, rfl⟩)) ?_)) rfl rfl
  refine derives_cast (derives_seq_str (rfl : isSkip [] = true)
    (.seq_cons (derives_optional_params ps hps) ?_)) rfl rfl
  exact derives_cast (derives_seq_str (rfl : isSkip [] = true)
    (derives_seq_one.mpr (.field hb))) rfl rfl

/-- The block without statements. -/
theorem derives_empty_block :
    Derives grammar (.sym "block") " \x7b \x7d".toList [blockTree []] := by
  refine (derives_sym_of lookup_block).mpr ⟨_, ?_, rfl⟩
  exact derives_cast (derives_seq_str (by decide : isSkip " ".toList = true)
    (.seq_cons .rep_nil (derives_seq_str_last (by decide : isSkip " ".toList = true))))
    (by decide) rfl

/-- An identifier in front of a character that cannot continue an identifier. -/
theorem ident_strip {x rest z : List Char} {c e : Char} (hx : identifierRE.accepts x = true)
    (he : identCont.mem e = false) (h : x ++ rest = c :: e :: z) :
    x = [c] ∧ rest = e :: z := by
  obtain ⟨d, ds, rfl, _, hds⟩ := (identifierRE_accepts x).mp hx
  simp only [List.cons_append, List.cons.injEq] at h
  obtain ⟨rfl, h2⟩ := h
  obtain ⟨rfl, h3⟩ := ident_tail_split hds he h2
  exact ⟨rfl, h3⟩

/-- No text of a list of identifiers starts with a character that starts no identifier,
unless the list is empty. -/
theorem args_head {ps : List (List Char)} {y z : List Char} {e : Char}
    (hps : ∀ p ∈ ps, identifierRE.accepts p = true) (he : identStart.mem e = false)
    (h : argsText ps ++ y = e :: z) : ps = [] ∧ y = e :: z := by
  cases ps with
  | nil => exact ⟨rfl, h⟩
  | cons p ps =>
    obtain ⟨d, ds, rfl, hd, _⟩ := (identifierRE_accepts p).mp (hps p (List.mem_cons_self _ _))
    simp only [argsText, List.cons_append, List.append_assoc, List.cons.injEq] at h
    rw [h.1, he] at hd
    exact absurd hd (by simp)

/-- After a comma in a list of identifiers comes an identifier. -/
theorem rest_args_head {ps : List (List Char)} {y z : List Char} {e : Char}
    (hps : ∀ p ∈ ps, identifierRE.accepts p = true) (he : identStart.mem e = false)
    (h : restArgsText ps ++ (')' :: y) = ',' :: e :: z) : False := by
  cases ps with
  | nil =>
    simp only [restArgsText, List.nil_append, List.cons.injEq] at h
    exact absurd h.1 (by decide)
  | cons p ps =>
    obtain ⟨d, ds, rfl, hd, _⟩ := (identifierRE_accepts p).mp (hps p (List.mem_cons_self _ _))
    have e1 : ",".toList = [','] := rfl
    simp only [restArgsText, e1, List.cons_append, List.nil_append, List.append_assoc,
      List.cons.injEq, true_and] at h
    rw [h.1, he] at hd
    exact absurd hd (by simp)

/-- What is left of an accepted function declaration when white space is taken out. -/
theorem function_visible {w : List Char}
    (h : ∃ ts, Accepts grammar (.sym "function_declaration") w ts) :
    ∃ (f : List Char) (ps : List (List Char)) (vb : List Char),
      identifierRE.accepts f = true ∧ (∀ p ∈ ps, identifierRE.accepts p = true) ∧
      visible w = "enchant".toList ++ (f ++ ('(' :: (argsText ps ++ (')' :: vb)))) := by
  obtain ⟨ts, u, ws, hws, rfl, hd⟩ := h
  obtain ⟨f, ps, b, body, hf, hps, _, hv, _⟩ := function_declaration_inv hd
  refine ⟨f, ps, visible b, hf, hps, ?_⟩
  rw [visible_append, visible_skip hws, List.append_nil, hv]
  rfl

/-- C14. A function declaration is `enchant`, a name, `(`, an optional parameter list, `)`
and a block; the parameter list is absent or a non-empty sequence of identifiers with one
comma between neighbours. Every tree has this shape; every name, every list of identifiers
(duplicates included) and every block give a declaration; `enchant f(a, a) { }` is
accepted with the parameters `a`, `a`; a leading, trailing or doubled comma is rejected. -/
theorem function_declaration_form :
    (∀ w ts, Derives grammar (.sym "function_declaration") w ts →
      ∃ (f : List Char) (ps : List (List Char)) (b : List Char) (body : Tree),
        identifierRE.accepts f = true ∧ (∀ p ∈ ps, identifierRE.accepts p = true) ∧
        Derives grammar (.sym "block") b [body] ∧
        visible w = "enchant".toList ++ (f ++ ("(".toList ++ (argsText ps ++
          (")".toList ++ visible b)))) ∧
        ts = [functionTree f ps body]) ∧
    (∀ (f : List Char) (ps : List (List Char)) (b : List Char) (body : Tree),
      identifierRE.accepts f = true → (∀ p ∈ ps, identifierRE.accepts p = true) →
      Derives grammar (.sym "block") b [body] →
      Derives grammar (.sym "function_declaration")
        ("enchant".toList ++ ((" ".toList ++ f) ++ ("(".toList ++ (paramsText ps ++
          (")".toList ++ b)))))
        [functionTree f ps body]) ∧
    Derives grammar (.sym "function_declaration") "enchant f(a, a) \x7b \x7d".toList
      [functionTree "f".toList ["a".toList, "a".toList] (blockTree [])] ∧
    parameterTrees ["a".toList, "a".toList] =
      [.node "parameter_list" [identifierTree "a".toList, .leaf ",".toList,
        identifierTree "a".toList]] ∧
    Derives grammar (.sym "function_declaration") "enchant f() \x7b \x7d".toList
      [functionTree "f".toList [] (blockTree [])] ∧
    (¬ ∃ ts, Accepts grammar (.sym "function_declaration")
      "enchant f(,a) \x7b \x7d".toList ts) ∧
    (¬ ∃ ts, Accepts grammar (.sym "function_declaration")
      "enchant f(a,) \x7b \x7d".toList ts) ∧
    (¬ ∃ ts, Accepts grammar (.sym "function_declaration")
      "enchant f(a,,b) \x7b \x7d".toList ts) := by
  have hopen : identCont.mem '(' = false := by decide
  have hcomma : identCont.mem ',' = false := by decide
  refine ⟨fun w ts h => function_declaration_inv h,
    fun f ps b body hf hps hb => derives_function f ps b body hf hps hb, ?_, rfl, ?_,
    ?_, ?_, ?_⟩
  · exact derives_cast (derives_function "f".toList ["a".toList, "a".toList] _ _ (by decide)
      (by decide) derives_empty_block) (by decide) rfl
  · exact derives_cast (derives_function "f".toList [] _ _ (by decide)
      (by decide) derives_empty_block) (by decide) rfl
  · intro h
    obtain ⟨f, ps, vb, hf, hps, hv⟩ := function_visible h
    have e : visible "enchant f(,a) \x7b \x7d".toList =
        "enchant".toList ++ ('f' :: '(' :: ',' :: "a)\x7b\x7d".toList) := by decide
    rw [e] at hv
    obtain ⟨_, h2⟩ := ident_strip hf hopen (List.append_cancel_left hv).symm
    simp only [List.cons.injEq, true_and] at h2
    obtain ⟨_, h3⟩ := args_head hps (by decide) h2
    simp only [List.cons.injEq] at h3
    exact absurd h3.1 (by decide)
  · intro h
    obtain ⟨f, ps, vb, hf, hps, hv⟩ := function_visible h
    have e : visible "enchant f(a,) \x7b \x7d".toList =
        "enchant".toList ++ ('f' :: '(' :: 'a' :: ',' :: ')' :: "\x7b\x7d".toList) := by decide
    rw [e] at hv
    obtain ⟨_, h2⟩ := ident_strip hf hopen (List.append_cancel_left hv).symm
    simp only [List.cons.injEq, true_and] at h2
    cases ps with
    | nil =>
      simp only [argsText, List.nil_append, List.cons.injEq] at h2
      exact absurd h2.1 (by decide)
    | cons p ps =>
      simp only [argsText, List.append_assoc] at h2
      obtain ⟨_, h3⟩ := ident_strip (hps p (List.mem_cons_self _ _)) hcomma h2
      exact rest_args_head (fun q hq => hps q (List.mem_cons_of_mem _ hq)) (by decide) h3
  · intro h
    obtain ⟨f, ps, vb, hf, hps, hv⟩ := function_visible h
    have e : visible "enchant f(a,,b) \x7b \x7d".toList =
        "enchant".toList ++ ('f' :: '(' :: 'a' :: ',' :: ',' :: "b)\x7b\x7d".toList) := by
      decide
    rw [e] at hv
    obtain ⟨_, h2⟩ := ident_strip hf hopen (List.append_cancel_left hv).symm
    simp only [List.cons.injEq, true_and] at h2
    cases ps with
    | nil =>
      simp only [argsText, List.nil_append, List.cons.injEq] at h2
      exact absurd h2.1 (by decide)
    | cons p ps =>
      simp only [argsText, List.append_assoc] at h2
      obtain ⟨_, h3⟩ := ident_strip (hps p (List.mem_cons_self _ _)) hcomma h2
      exact rest_args_head (fun q hq => hps q (List.mem_cons_of_mem _ hq)) (by decide) h3

/-! ## The start of a statement -/

/-- A rule that begins with a keyword token: the first visible character of its text is
the first character of the keyword. -/
theorem keyword_rule_start {n s : String} {rs : List Rule} {c : Char} {cs : List Char}
    (hl : grammar.lookup n = some (.seq (.str s :: rs))) (hs : s.toList = c :: cs)
    (hc : whitespace.mem c = false) {w : List Char} {ts : List Tree}
    (h : Derives grammar (.sym n) w ts) (tail : List Char) :
    firstVisible (w ++ tail) = some c := by
  obtain ⟨us, hd, _⟩ := (derives_sym_of hl).mp h
  obtain ⟨u, v, us1, vs1, rfl, _, h1, _⟩ := derives_seq_cons.mp hd
  obtain ⟨ws, hws, rfl, _⟩ := derives_str.mp h1
  rw [hs]
  have e : ws ++ c :: cs ++ v ++ tail = ws ++ (c :: (cs ++ v ++ tail)) := by simp
  rw [e, firstVisible_skip hws, firstVisible_cons hc]

/-- Every statement starts, white space aside, with the first character of one of the
keywords `conjure`, `enchant`, `evoke`, `incant`, `curse`, `if`, `loop`, `cast`, or
with `#`. -/
theorem definition_start {w : List Char} {ts : List Tree}
    (h : Derives grammar (.sym "_definition") w ts) (tail : List Char) :
    ∃ c, firstVisible (w ++ tail) = some c ∧
      (c = 'c' ∨ c = 'e' ∨ c = 'i' ∨ c = 'l' ∨ c = '#') := by
  obtain ⟨k, hk, hd⟩ := derives_definition.mp h
  simp only [definitionKinds, List.mem_cons, List.mem_singleton, List.not_mem_nil,
    or_false] at hk
  rcases hk with rfl | rfl | rfl | rfl | rfl | rfl | rfl | rfl | rfl | rfl
  · exact ⟨'c', keyword_rule_start lookup_variable_declaration
      (by decide : "conjure".toList = 'c' :: "onjure".toList) (by decide) hd tail, by simp⟩
  · exact ⟨'e', keyword_rule_start lookup_function_declaration
      (by decide : "enchant".toList = 'e' :: "nchant".toList) (by decide) hd tail, by simp⟩
  · exact ⟨'e', keyword_rule_start lookup_command
      (by decide : "evoke".toList = 'e' :: "voke".toList) (by decide) hd tail, by simp⟩
  · exact ⟨'i', keyword_rule_start lookup_output
      (by decide : "incant".toList = 'i' :: "ncant".toList) (by decide) hd tail, by simp⟩
  · exact ⟨'c', keyword_rule_start lookup_error
      (by decide : "curse".toList = 'c' :: "urse".toList) (by decide) hd tail, by simp⟩
  · exact ⟨'i', keyword_rule_start lookup_if_statement
      (by decide : "if".toList = 'i' :: "f".toList) (by decide) hd tail, by simp⟩
  · exact ⟨'l', keyword_rule_start (rfl : grammar.lookup "loop_statement" = some (.seq [
        .str "loop", .field "body" (.sym "block")]))
      (by decide : "loop".toList = 'l' :: "oop".toList) (by decide) hd tail, by simp⟩
  · exact ⟨'c', keyword_rule_start lookup_function_call
      (by decide : "cast".toList = 'c' :: "ast".toList) (by decide) hd tail, by simp⟩
  · exact ⟨'#', keyword_rule_start lookup_comment
      (by decide : "#".toList = '#' :: []) (by decide) hd tail, by simp⟩
  · exact ⟨'#', keyword_rule_start lookup_multiline_comment
      (by decide : "##".toList = '#' :: "#".toList) (by decide) hd tail, by simp⟩

/-- The productions alone give no tree to a text that starts with a quote: the text
`"abc` of an unterminated string is not accepted as a source_file. -/
theorem source_file_rejects_open_string :
    ¬ ∃ ts, Accepts grammar (.sym "source_file") "\"abc".toList ts := by
  rintro ⟨ts, u, ws, hws, hw, hd⟩
  obtain ⟨us, hr, _⟩ := (derives_sym_of lookup_source_file).mp hd
  rcases derives_rep.mp hr with ⟨rfl, _⟩ | ⟨a, v, as, vs, rfl, _, ha, _⟩
  · rw [List.nil_append] at hw
    rw [← hw] at hws
    exact absurd hws (by decide)
  · obtain ⟨c, hc, hcs⟩ := definition_start ha (v ++ ws)
    rw [← List.append_assoc, ← hw] at hc
    have e : firstVisible "\"abc".toList = some dquote := by decide
    rw [e] at hc
    have hc2 : dquote = c := Option.some.inj hc
    subst hc2
    revert hcs
    decide

/-! ## The items of a multiline comment -/

/-- The items between the delimiters of a multiline comment: each is the token `#` with
a text token that holds no newline, or a newline token. -/
theorem commentItems_inv {u : List Char} {us : List Tree}
    (h : Derives grammar (.rep commentItem) u us) :
    ∃ items : List MultilineItem,
      (∀ x, MultilineItem.hashLine x ∈ items → ∀ c ∈ x, c ≠ newline) ∧
      us = itemsTrees items ∧ visible u = itemsVisible items := by
  refine rep_induction
    (P := fun u us => ∃ items : List MultilineItem,
      (∀ x, MultilineItem.hashLine x ∈ items → ∀ c ∈ x, c ≠ newline) ∧
      us = itemsTrees items ∧ visible u = itemsVisible items) ?_ ?_ h
  · exact ⟨[], by simp, rfl, rfl⟩
  · intro a v as vs ha _ ih
    obtain ⟨items, hitems, rfl, hv⟩ := ih
    rcases derives_commentItem.mp ha with ⟨ws, ws2, x, hws, hws2, hx, rfl, rfl⟩ |
      ⟨ws, hws, rfl, rfl⟩
    · refine ⟨.hashLine x :: items, ?_, rfl, ?_⟩
      · intro y hy
        rcases List.mem_cons.mp hy with hy | hy
        · cases hy
          exact (lineRE_accepts x).mp hx
        · exact hitems y hy
      · have hc : visible "#".toList = ['#'] := by decide
        simp only [visible_append, visible_skip hws, visible_skip hws2, hc, hv, itemsVisible,
          List.nil_append, List.cons_append, List.append_assoc]
    · refine ⟨.newlineToken :: items, ?_, rfl, ?_⟩
      · intro y hy
        rcases List.mem_cons.mp hy with hy | hy
        · cases hy
        · exact hitems y hy
      · have hc : visible "\n".toList = [] := by decide
        simp only [visible_append, visible_skip hws, hc, hv, itemsVisible, List.nil_append]

/-- C4, amended: a multiline comment is `##`, then items, then `##`, where an item is the
token `#` followed by a text token that holds no newline, or a newline token. So the text
after the opening `##` has `#` as its first visible character; white space aside, the
whole text is `##`, for each `#` item the `#` and its text, and `##`; and the node holds
the two delimiters around the leaves of the items. -/
theorem multiline_comment_items (w : List Char) (ts : List Tree)
    (h : Derives grammar (.sym "multiline_comment") w ts) :
    ∃ ws body items, isSkip ws = true ∧ w = ws ++ ("##".toList ++ body) ∧
      firstVisible body = some '#' ∧
      (∀ x, MultilineItem.hashLine x ∈ items → ∀ c ∈ x, c ≠ newline) ∧
      visible w = "##".toList ++ (itemsVisible items ++ "##".toList) ∧
      ts = [.node "multiline_comment"
        (.leaf "##".toList :: (itemsTrees items ++ [.leaf "##".toList]))] := by
  obtain ⟨ws, u, ws2, us, hws, hws2, hit, rfl, rfl⟩ := derives_multiline_comment.mp h
  obtain ⟨hfirst, _⟩ := commentItems_firstVisible hit
  obtain ⟨items, hitems, rfl, hv⟩ := commentItems_inv hit
  refine ⟨ws, u ++ (ws2 ++ "##".toList), items, hws, rfl, ?_, hitems, ?_, rfl⟩
  · apply hfirst
    rw [firstVisible_skip hws2]
    decide
  · have hc : visible "##".toList = "##".toList := by decide
    simp only [visible_append, visible_skip hws, visible_skip hws2, hc, hv, List.nil_append]

/-- C4, amended, at a concrete input: the comment of two `#` lines between `##`
delimiters is derived as one multiline comment node, with its newline tokens, and has the
stated shape. -/
theorem multiline_comment_items_witness :
    Derives grammar (.sym "multiline_comment") "##\n#a\n#b\n##".toList
      [.node "multiline_comment" [.leaf "##".toList, .leaf "\n".toList,
        .leaf "#".toList, .leaf "a".toList, .leaf "\n".toList,
        .leaf "#".toList, .leaf "b".toList, .leaf "\n".toList, .leaf "##".toList]] ∧
    ∃ ws body items, isSkip ws = true ∧
      "##\n#a\n#b\n##".toList = ws ++ ("##".toList ++ body) ∧
      firstVisible body = some '#' ∧
      (∀ x, MultilineItem.hashLine x ∈ items → ∀ c ∈ x, c ≠ newline) ∧
      visible "##\n#a\n#b\n##".toList = "##".toList ++ (itemsVisible items ++ "##".toList) ∧
      [Tree.node "multiline_comment" [.leaf "##".toList, .leaf "\n".toList,
        .leaf "#".toList, .leaf "a".toList, .leaf "\n".toList,
        .leaf "#".toList, .leaf "b".toList, .leaf "\n".toList, .leaf "##".toList]] =
        [.node "multiline_comment"
          (.leaf "##".toList :: (itemsTrees items ++ [.leaf "##".toList]))] := by
  have n1 : Derives grammar commentItem "\n".toList [.leaf "\n".toList] :=
    derives_commentItem.mpr (Or.inr ⟨[], rfl, rfl, rfl⟩)
  have l1 : Derives grammar commentItem "#a".toList [.leaf "#".toList, .leaf "a".toList] :=
    derives_commentItem.mpr (Or.inl ⟨[], [], "a".toList, rfl, rfl, by decide, by decide, rfl⟩)
  have l2 : Derives grammar commentItem "#b".toList [.leaf "#".toList, .leaf "b".toList] :=
    derives_commentItem.mpr (Or.inl ⟨[], [], "b".toList, rfl, rfl, by decide, by decide, rfl⟩)
  have hd : Derives grammar (.sym "multiline_comment") "##\n#a\n#b\n##".toList
      [.node "multiline_comment" [.leaf "##".toList, .leaf "\n".toList,
        .leaf "#".toList, .leaf "a".toList, .leaf "\n".toList,
        .leaf "#".toList, .leaf "b".toList, .leaf "\n".toList, .leaf "##".toList]] :=
    derives_multiline_comment.mpr ⟨[], "\n#a\n#b\n".toList, [],
      [.leaf "\n".toList, .leaf "#".toList, .leaf "a".toList, .leaf "\n".toList,
        .leaf "#".toList, .leaf "b".toList, .leaf "\n".toList],
      rfl, rfl,
      derives_cast (.rep_cons n1 (.rep_cons l1 (.rep_cons n1 (.rep_cons l2
        (.rep_cons n1 .rep_nil))))) (by decide) rfl,
      by decide, rfl⟩
  exact ⟨hd, multiline_comment_items _ _ hd⟩

end Mage
